import Mathlib

set_option maxRecDepth 8192

/-!
Verification development for the memos markdown engine and its surrounding
service plumbing.

The repository fragment under study ships three source files: the generated
HTTP/JSON gateway for the markdown RPC service, the postgres user-setting
store, and a browser textarea editor.  The markdown document engine itself
(tokenizer, block parser, inline parser, stringifier, restorer, link-metadata
resolver) is not part of the shipped fragment; it is modelled here from the
specification, as marked by doc comments starting with `Modelled from the
spec:`.  The gateway and store definitions are shallow embeddings of the Go
code in `src/proto/gen/api/v1/markdown_service.pb.gw.go` and the postgres
user-setting file.
-/

namespace Memos

/-! ## Node model

Modelled from the spec: the Node data model of section 3.  The engine source
is not in the shipped fragment, so the node kinds are modelled for the
heading / paragraph / fenced-code / thematic-break fragment of the spec's
block-kind list and the text / emphasis / strong fragment of its inline-kind
list; list, quote and table kinds, which no claim exercises, are omitted.
-/

/-- Modelled from the spec: inline node kinds (spec section 3).  Emphasis and
strong carry ordered children; text carries its literal. -/
inductive Inline : Type
  | text (literal : String)
  | emphasis (children : List Inline)
  | strong (children : List Inline)
deriving Repr

/-- Modelled from the spec: block node kinds (spec section 3).  A heading
carries its level and inline children, a paragraph its inline children, a
code block its language and literal (fenced and indented code parse to this
one kind), a thematic break nothing; a block quote contains blocks, and an
ordered or unordered list contains items, each an ordered list of blocks
(the spec's ListItem contains only block children). -/
inductive Block : Type
  | paragraph (children : List Inline)
  | heading (level : Nat) (children : List Inline)
  | codeBlock (language : String) (literal : String)
  | thematicBreak
  | blockQuote (children : List Block)
  | unorderedList (items : List (List Block))
  | orderedList (items : List (List Block))
deriving Repr

/-- Modelled from the spec: a parse or restore result is a node list under the
implicit Document root plus an ordered list of non-fatal warnings (spec
section 3, "Parse/Restore Result"). -/
structure ParseResult where
  nodes : List Block
  warnings : List String
deriving Repr

/-! ## Inline stringifier -/

mutual

/-- Modelled from the spec: per-kind inline formatting rules of the
stringifier (spec section 4.4): emphasis is wrapped in single asterisks,
strong in double asterisks, text is emitted literally. -/
def strInline : Inline → List Char
  | .text s => s.data
  | .emphasis cs => '*' :: (strInlines cs ++ ['*'])
  | .strong cs => '*' :: '*' :: (strInlines cs ++ ['*', '*'])

/-- Stringify an inline node list by concatenating per-node output. -/
def strInlines : List Inline → List Char
  | [] => []
  | i :: is => strInline i ++ strInlines is

end

/-! ## Inline parser

Modelled from the spec: the inline parser of section 4.3.  The tokenizer
reads maximal asterisk runs longest-match-first (section 4.1: a double
asterisk wins over a single one), and delimiter resolution is the stack
discipline of section 4.3: opening delimiters are pushed (here: a recursive
descent level per open delimiter), a matching closing run pops and wraps the
enclosed parsed nodes, and left/right flanking rules decide whether a run may
close or open (a run can close only when flanking left, i.e. not preceded by
whitespace, and can open only when flanking right, i.e. not followed by
whitespace).  A closing run is consumed from its left edge, one open
delimiter's width at a time, innermost first, so a three-asterisk run closes
an emphasis inside a strong; this consumption order is the well-defined
tie-break section 9 asks the implementer to fix.  A run that can neither
close nor open, and an opening delimiter that never closes, degrade to
literal text with a warning (section 7, taxonomy 1).
-/

/-- Whitespace characters for the flanking rules. -/
def isWsChar (c : Char) : Bool :=
  c == ' ' || c == '\t' || c == '\n'

/-- A run of asterisk delimiter characters. -/
def stars (w : Nat) : List Char :=
  List.replicate w '*'

/-- Length of the maximal asterisk run at the head of the input
(longest-match-first tokenization of the delimiter run). -/
def starCount (cs : List Char) : Nat :=
  (cs.takeWhile fun c => decide (c = '*')).length

/-- Flanking test against a neighbouring character: a run flanks a side when
the neighbour on that side exists and is not whitespace. -/
def flankOf : Option Char → Bool
  | some c => !isWsChar c
  | none => false

/-- Degrade a delimiter run to literal text, merging into a following text
run so the degraded characters stay literal. -/
def pushStars (w : Nat) : List Inline → List Inline
  | .text s :: ns => .text (String.mk (stars w ++ s.data)) :: ns
  | ns => .text (String.mk (stars w)) :: ns

/-- The width a closing context expects; 1 when there is none. -/
def closeWidth : Option Nat → Nat
  | some w => w
  | none => 1

/-- Warning emitted when an opening delimiter never closes. -/
def unclosedDelimWarning : String := "unmatched opening delimiter, treated as literal"

/-- Warning emitted when a delimiter run can neither open nor close. -/
def literalDelimWarning : String := "delimiter run cannot open or close, treated as literal"

/-- Result of parsing one nesting level of inline content: the nodes and
warnings produced, the input remaining after the level's closing run, and
whether the level was closed by a matching delimiter (false at end of
input). -/
structure LvlOut where
  nodes : List Inline
  warnings : List String
  rest : List Char
  closed : Bool

/-- Modelled from the spec: fuel-indexed inline parser (spec sections 4.1,
4.3).  One call parses the content of one open delimiter (`close` is the
width its closing run must provide; `none` at top level); `prev` records
whether the previous character is non-whitespace, which is the left-flank of
the next delimiter run.  A maximal run first tries to close the current
level (left-flanking and at least the expected width: the level's width is
consumed from the run's left edge), then to open a new delimiter
(right-flanking; double asterisk preferred, longest-match-first), and
otherwise degrades to literal text with a warning. -/
def parseLvlF : Nat → Option Nat → Bool → List Char → LvlOut
  | 0, _, _, _ => ⟨[], [], [], false⟩
  | _ + 1, _, _, [] => ⟨[], [], [], false⟩
  | fuel + 1, close, prev, c :: cs2 =>
    if c = '*' then
      let k := starCount (c :: cs2)
      let rest := (c :: cs2).drop k
      let canClose := match close with
        | some w => prev && decide (w ≤ k)
        | none => false
      if canClose then
        ⟨[], [], (c :: cs2).drop (closeWidth close), true⟩
      else if flankOf rest.head? then
        let w2 := if 2 ≤ k then 2 else 1
        let inner := parseLvlF fuel (some w2) true ((c :: cs2).drop w2)
        if inner.closed then
          let cont := parseLvlF fuel close true inner.rest
          ⟨(if w2 = 2 then Inline.strong inner.nodes else Inline.emphasis inner.nodes) ::
              cont.nodes,
           inner.warnings ++ cont.warnings, cont.rest, cont.closed⟩
        else
          ⟨pushStars w2 inner.nodes, inner.warnings ++ [unclosedDelimWarning],
           inner.rest, false⟩
      else
        let cont := parseLvlF fuel close true rest
        ⟨pushStars k cont.nodes, literalDelimWarning :: cont.warnings, cont.rest, cont.closed⟩
    else
      let s := (c :: cs2).takeWhile fun d => decide (d ≠ '*')
      let rest2 := (c :: cs2).dropWhile fun d => decide (d ≠ '*')
      let cont := parseLvlF fuel close (!isWsChar (s.getLastD ' ')) rest2
      ⟨Inline.text (String.mk s) :: cont.nodes, cont.warnings, cont.rest, cont.closed⟩

/-- Modelled from the spec: the inline parser, run with enough fuel for its
input at the top level, where no closing delimiter is expected.  Total by
construction: every character sequence yields a node list plus warnings
(spec section 8, totality). -/
def parseInl (cs : List Char) : List Inline × List String :=
  let r := parseLvlF cs.length none false cs
  (r.nodes, r.warnings)

/-! ## Lines -/

/-- Split a character sequence at every occurrence of a separator character.
The result is never empty and the separator occurs in no piece. -/
def splitOnChar (sep : Char) : List Char → List (List Char)
  | [] => [[]]
  | c :: rest =>
    if c = sep then [] :: splitOnChar sep rest
    else
      match splitOnChar sep rest with
      | l :: ls => (c :: l) :: ls
      | [] => [[c]]

/-- Split a character sequence into its lines at every newline. -/
def splitLines (cs : List Char) : List (List Char) :=
  splitOnChar '\n' cs

/-- Join lines back with single newlines; inverse of `splitLines`. -/
def joinLines : List (List Char) → List Char
  | [] => []
  | [l] => l
  | l :: ls => l ++ '\n' :: joinLines ls

/-! ## Block parser

Modelled from the spec: the block parser of section 4.2.  Each line is
matched against new-block-start rules in the spec's precedence order
(thematic break, then heading marker, then fenced code open, then block
quote marker, then list marker, then paragraph), with a non-blank line
indented by four spaces starting an indented code block when no container
already consumed the indentation.  Container blocks (block quotes and list
items) strip their marker or indentation from their lines and recursively
re-parse the stripped lines; an unterminated code fence closes implicitly at
end of input with a warning instead of erroring.
-/

/-- A blank line contains only spaces and tabs. -/
def isBlank (l : List Char) : Bool :=
  l.all fun c => c == ' ' || c == '\t'

/-- Four spaces of code-block indentation. -/
def fourSpaces : List Char := "    ".data

/-- A non-blank line indented by at least four spaces starts or continues an
indented code block. -/
def isIndentedLine (l : List Char) : Bool :=
  decide (l.take 4 = fourSpaces) && !isBlank l

/-- A thematic break line is three or more dashes and nothing else. -/
def isBreakLine (l : List Char) : Bool :=
  decide (3 ≤ l.length) && l.all fun c => decide (c = '-')

/-- Recognize an ATX heading line: one to six hash marks followed by a space;
returns the level and the inline content after the space. -/
def headingOf (l : List Char) : Option (Nat × List Char) :=
  let n := (l.takeWhile fun c => decide (c = '#')).length
  if 1 ≤ n ∧ n ≤ 6 ∧ (l.drop n).head? = some ' ' then some (n, (l.drop n).tail)
  else none

/-- The backtick character, spelled by code point. -/
def backtick : Char := Char.ofNat 96

/-- The three-backtick minimal code fence marker. -/
def fenceRun : List Char := "```".data

/-- A fence line starts with at least three backticks; the remainder of the
opening line after its backtick run is the code block's language tag. -/
def isFenceLine (l : List Char) : Bool :=
  decide (l.take 3 = fenceRun)

/-- A line consisting of backticks only (and at least one). -/
def allBacktick (l : List Char) : Bool :=
  decide (l ≠ []) && l.all fun c => decide (c = backtick)

/-- A closing fence for an opening backtick run of length `n`: a line of
backticks only, at least as long as the opening run. -/
def isCloseFence (n : Nat) (l : List Char) : Bool :=
  allBacktick l && decide (n ≤ l.length)

/-- A block quote line starts with the quote marker. -/
def isQuoteLine (l : List Char) : Bool :=
  decide (l.head? = some '>')

/-- Strip the quote marker: the leading `>` and at most one following
space. -/
def stripQuoteMarker : List Char → List Char
  | '>' :: ' ' :: r => r
  | '>' :: r => r
  | l => l

/-- The unordered list item marker. -/
def uMarker : List Char := "- ".data

/-- Continuation indentation of an unordered list item. -/
def contIndent2 : List Char := "  ".data

/-- Continuation indentation of an ordered list item. -/
def contIndent3 : List Char := "   ".data

/-- The two characters after an ordered item's number. -/
def dotSpace : List Char := ". ".data

/-- An unordered list item starts with a dash and a space. -/
def isUItemLine (l : List Char) : Bool :=
  decide (l.take 2 = uMarker)

/-- A continuation line of an unordered item is indented by two spaces. -/
def uContLine (l : List Char) : Bool :=
  decide (l.take 2 = contIndent2)

/-- An ASCII decimal digit. -/
def isDigitChar (c : Char) : Bool :=
  decide ('0' ≤ c) && decide (c ≤ '9')

/-- Recognize an ordered list item line: one or more digits, a dot and a
space; returns the content after the marker. -/
def oItemContentOf (l : List Char) : Option (List Char) :=
  let d := l.takeWhile isDigitChar
  if d.length ≠ 0 ∧ (l.drop d.length).take 2 = dotSpace then some (l.drop (d.length + 2))
  else none

/-- A continuation line of an ordered item is indented by three spaces. -/
def oContLine (l : List Char) : Bool :=
  decide (l.take 3 = contIndent3)

/-- A paragraph content line is any line that starts no other block kind. -/
def isParagraphLine (l : List Char) : Bool :=
  !isBlank l && !isIndentedLine l && !isBreakLine l && (headingOf l).isNone &&
    !isFenceLine l && !isQuoteLine l && !isUItemLine l && !(oItemContentOf l).isSome

/-- Warning emitted when a code fence is still open at end of input. -/
def unterminatedFenceWarning : String := "unterminated code fence closed at end of input"

/-- Collect the line groups of consecutive unordered list items: each group
is the item's marker-line content followed by its stripped continuation
lines; returns the groups and the lines after the list. -/
def collectItemsU : Nat → List (List Char) → List (List (List Char)) × List (List Char)
  | 0, ls => ([], ls)
  | _ + 1, [] => ([], [])
  | fuel + 1, l :: ls =>
    if isUItemLine l then
      let cont := ls.takeWhile uContLine
      let rest := ls.dropWhile uContLine
      let p := collectItemsU fuel rest
      ((l.drop 2 :: cont.map fun x => x.drop 2) :: p.1, p.2)
    else ([], l :: ls)

/-- Collect the line groups of consecutive ordered list items. -/
def collectItemsO : Nat → List (List Char) → List (List (List Char)) × List (List Char)
  | 0, ls => ([], ls)
  | _ + 1, [] => ([], [])
  | fuel + 1, l :: ls =>
    match oItemContentOf l with
    | some c0 =>
      let cont := ls.takeWhile oContLine
      let rest := ls.dropWhile oContLine
      let p := collectItemsO fuel rest
      ((c0 :: cont.map fun x => x.drop 3) :: p.1, p.2)
    | none => ([], l :: ls)

/-- Fuel measure of a line list: total characters plus one per line.  Every
recursive step of the block parser strictly decreases it: container blocks
strip at least one marker character from each line they recurse into. -/
def lineMeasure (ls : List (List Char)) : Nat :=
  (ls.map fun l => l.length + 1).sum

/-- Modelled from the spec: fuel-indexed line-driven block parser (spec
section 4.2).  Blank lines separate blocks; precedence is indented code,
thematic break, heading, fenced code, block quote, unordered list, ordered
list, paragraph; container blocks recursively re-parse their stripped
lines. -/
def parseLinesF : Nat → List (List Char) → List Block × List String
  | 0, _ => ([], [])
  | _ + 1, [] => ([], [])
  | fuel + 1, l :: ls =>
    if isBlank l then parseLinesF fuel ls
    else if isIndentedLine l then
      let grp := l :: ls.takeWhile isIndentedLine
      let rest := ls.dropWhile isIndentedLine
      let p := parseLinesF fuel rest
      (Block.codeBlock "" (String.mk (joinLines (grp.map fun x => x.drop 4))) :: p.1, p.2)
    else if isBreakLine l then
      let p := parseLinesF fuel ls
      (Block.thematicBreak :: p.1, p.2)
    else
      match headingOf l with
      | some nc =>
        let pi := parseInl nc.2
        let p := parseLinesF fuel ls
        (Block.heading nc.1 pi.1 :: p.1, pi.2 ++ p.2)
      | none =>
        if isFenceLine l then
          let n3 := (l.takeWhile fun c => decide (c = backtick)).length
          let content := ls.takeWhile fun x => !isCloseFence n3 x
          let rest := ls.dropWhile fun x => !isCloseFence n3 x
          match rest with
          | [] =>
            (Block.codeBlock (String.mk (l.drop n3)) (String.mk (joinLines content)) :: [],
              [unterminatedFenceWarning])
          | _ :: rest2 =>
            let p := parseLinesF fuel rest2
            (Block.codeBlock (String.mk (l.drop n3)) (String.mk (joinLines content)) :: p.1, p.2)
        else if isQuoteLine l then
          let grp := l :: ls.takeWhile isQuoteLine
          let rest := ls.dropWhile isQuoteLine
          let q := parseLinesF fuel (grp.map stripQuoteMarker)
          let p := parseLinesF fuel rest
          (Block.blockQuote q.1 :: p.1, q.2 ++ p.2)
        else if isUItemLine l then
          let gr := collectItemsU (l :: ls).length (l :: ls)
          let parsedItems := gr.1.map fun g => parseLinesF fuel g
          let p := parseLinesF fuel gr.2
          (Block.unorderedList (parsedItems.map fun q => q.1) :: p.1,
           (parsedItems.map fun q => q.2).flatten ++ p.2)
        else
          match oItemContentOf l with
          | some _ =>
            let gr := collectItemsO (l :: ls).length (l :: ls)
            let parsedItems := gr.1.map fun g => parseLinesF fuel g
            let p := parseLinesF fuel gr.2
            (Block.orderedList (parsedItems.map fun q => q.1) :: p.1,
             (parsedItems.map fun q => q.2).flatten ++ p.2)
          | none =>
            let plines := l :: ls.takeWhile isParagraphLine
            let rest := ls.dropWhile isParagraphLine
            let pi := parseInl (joinLines plines)
            let p := parseLinesF fuel rest
            (Block.paragraph pi.1 :: p.1, pi.2 ++ p.2)

/-- Modelled from the spec: the block parser, run with enough fuel for its
input line list. -/
def parseLines (ls : List (List Char)) : List Block × List String :=
  parseLinesF (lineMeasure ls) ls

/-- Modelled from the spec: `ParseMarkdown(text) -> {nodes, warnings}` (spec
section 6).  Total by construction: every string yields a node list plus
warnings and no fatal error. -/
def parseMarkdown (text : String) : ParseResult :=
  let p := parseLines (splitLines text.data)
  ⟨p.1, p.2⟩

/-! ## Block stringifier -/

/-- Prefix a container's lines: the first line with the container's marker,
the following lines with its continuation indentation. -/
def prefixLines (first cont : List Char) : List (List Char) → List (List Char)
  | [] => []
  | l :: ls => (first ++ l) :: ls.map fun x => cont ++ x

/-- The canonical quote marker. -/
def quoteMarker : List Char := "> ".data

/-- The decimal digit character for a digit value. -/
def digitChar (d : Nat) : Char :=
  match d with
  | 0 => '0' | 1 => '1' | 2 => '2' | 3 => '3' | 4 => '4'
  | 5 => '5' | 6 => '6' | 7 => '7' | 8 => '8' | _ => '9'

/-- Fuel-indexed decimal rendering of a positive number. -/
def natDigitsF : Nat → Nat → List Char
  | 0, _ => []
  | fuel + 1, n => if n = 0 then [] else natDigitsF fuel (n / 10) ++ [digitChar (n % 10)]

/-- Decimal rendering of a number, for ordered list markers. -/
def natDigits (n : Nat) : List Char :=
  if n = 0 then ['0'] else natDigitsF n n

/-- Length of the longest backtick-only line, zero when there is none. -/
def maxAllBacktickLen (ls : List (List Char)) : Nat :=
  ls.foldr (fun l acc => if allBacktick l then max l.length acc else acc) 0

/-- The fence length used to stringify a code block: long enough that no
line of the literal can close it early. -/
def fenceLenFor (lit : String) : Nat :=
  max 3 (maxAllBacktickLen (splitLines lit.data) + 1)

mutual

/-- Modelled from the spec: per-kind block formatting rules of the
stringifier (spec section 4.4).  Code blocks are emitted fenced, with a
fence long enough not to collide with the literal; containers emit their
children's lines behind their marker and continuation indentation. -/
def strBlock : Block → List Char
  | .paragraph cs => strInlines cs
  | .heading n cs => List.replicate n '#' ++ ' ' :: strInlines cs
  | .codeBlock lang lit =>
    List.replicate (fenceLenFor lit) backtick ++ lang.data ++
      '\n' :: (lit.data ++ '\n' :: List.replicate (fenceLenFor lit) backtick)
  | .thematicBreak => "---".data
  | .blockQuote children =>
    joinLines (prefixLines quoteMarker quoteMarker (splitLines (strBlocks children)))
  | .unorderedList items => joinLines (strUItems items)
  | .orderedList items => joinLines (strOItems 1 items)

/-- Stringify a block list, separating blocks by the document's blank-line
convention (spec section 4.4). -/
def strBlocks : List Block → List Char
  | [] => []
  | [b] => strBlock b
  | b :: bs => strBlock b ++ '\n' :: '\n' :: strBlocks bs

/-- Lines of an unordered list's items. -/
def strUItems : List (List Block) → List (List Char)
  | [] => []
  | item :: rest =>
    prefixLines uMarker contIndent2 (splitLines (strBlocks item)) ++ strUItems rest

/-- Lines of an ordered list's items, numbered from the given start. -/
def strOItems : Nat → List (List Block) → List (List Char)
  | _, [] => []
  | n, item :: rest =>
    prefixLines (natDigits n ++ dotSpace) contIndent3 (splitLines (strBlocks item)) ++
      strOItems (n + 1) rest

end

/-- Modelled from the spec: `StringifyMarkdownNodes(nodes) -> {text}` (spec
section 6), supporting an arbitrary block sub-list. -/
def stringifyMarkdownNodes (nodes : List Block) : String :=
  String.mk (strBlocks nodes)

/-! ## Valid node trees

Structural validity of node trees, the file's reading of the spec's "valid
node trees".  Inline validity follows the flanking rules: a delimiter's
content must start and end against non-whitespace, text runs are maximal
(no adjacent text nodes), literal text carries no delimiter characters, and
a nested delimiter may not sit where its run would merge with an enclosing
run into a run the stack discipline resolves differently.  Block validity
is the per-kind recursion plus the requirement that a paragraph's one line
of text does not itself spell a block marker.
-/

/-- Whether a list is nonempty, as a boolean. -/
def notNilB {α : Type} : List α → Bool
  | [] => false
  | _ :: _ => true

/-- A valid text literal: nonempty, and free of delimiter and newline
characters (a literal asterisk would re-tokenize as a delimiter run). -/
def textValidB (s : String) : Bool :=
  decide (s.data ≠ []) && decide ('*' ∉ s.data) && decide ('\n' ∉ s.data)

/-- Content of an emphasis must start with a text run whose first character
is not whitespace, so the opening run is exactly one asterisk and flanks
right. -/
def firstOK1B : List Inline → Bool
  | .text s :: _ => !isWsChar (s.data.headD ' ')
  | _ => false

/-- Content of a strong must start with a non-whitespace text run or with an
emphasis, the two shapes whose opening runs the longest-match-first stack
discipline reads back as this strong. -/
def firstOK2B : List Inline → Bool
  | .text s :: _ => !isWsChar (s.data.headD ' ')
  | .emphasis _ :: _ => true
  | _ => false

/-- Whether a node list does not start with a text run. -/
def notTextHead : List Inline → Bool
  | .text _ :: _ => false
  | _ => true

mutual

/-- Structural validity of one inline node. -/
def nodeValidB : Inline → Bool
  | .text s => textValidB s
  | .emphasis cs => firstOK1B cs && listValidB (some 1) true cs
  | .strong cs => firstOK2B cs && listValidB (some 2) true cs

/-- Structural validity of inline content in context: `w` is the width of
the enclosing delimiter (none at top level) and `prevNonWs` whether the
preceding character is non-whitespace.  A nested emphasis inside an emphasis
and a nested strong inside any delimiter must be preceded by whitespace,
else their opening run would close the enclosing delimiter; at the end of a
delimiter's content the preceding character must be non-whitespace, so the
closing run flanks left. -/
def listValidB : Option Nat → Bool → List Inline → Bool
  | w, prevNonWs, [] =>
    match w with
    | none => true
    | some _ => prevNonWs
  | w, _, .text s :: rest =>
    textValidB s && notTextHead rest && listValidB w (!isWsChar (s.data.getLastD ' ')) rest
  | w, prevNonWs, .emphasis cs :: rest =>
    (match w with | some 1 => !prevNonWs | _ => true) &&
      nodeValidB (.emphasis cs) && listValidB w true rest
  | w, prevNonWs, .strong cs :: rest =>
    (match w with | some _ => !prevNonWs | none => true) &&
      nodeValidB (.strong cs) && listValidB w true rest

end

/-- Structural validity of top-level inline content. -/
def inlValidB (cs : List Inline) : Bool :=
  listValidB none false cs

mutual

/-- Structural size of an inline node, for induction. -/
def inlineSize : Inline → Nat
  | .text _ => 1
  | .emphasis cs => inlinesSize cs + 1
  | .strong cs => inlinesSize cs + 1

/-- Structural size of an inline node list. -/
def inlinesSize : List Inline → Nat
  | [] => 0
  | i :: is => inlineSize i + inlinesSize is

end

mutual

/-- Structural validity of one block node. -/
def blockValidB : Block → Bool
  | .paragraph cs => inlValidB cs && notNilB cs && isParagraphLine (strInlines cs)
  | .heading n cs => decide (1 ≤ n) && decide (n ≤ 6) && inlValidB cs
  | .codeBlock lang _lit =>
    decide ('\n' ∉ lang.data) && decide (lang.data.head? ≠ some backtick)
  | .thematicBreak => true
  | .blockQuote children => blocksValidB children
  | .unorderedList items => notNilB items && itemsValidB items
  | .orderedList items => notNilB items && itemsValidB items

/-- Structural validity of a block list. -/
def blocksValidB : List Block → Bool
  | [] => true
  | b :: bs => blockValidB b && blocksValidB bs

/-- Structural validity of a list's items. -/
def itemsValidB : List (List Block) → Bool
  | [] => true
  | item :: rest => blocksValidB item && itemsValidB rest

end

mutual

/-- Structural size of a block, for induction. -/
def blockSize : Block → Nat
  | .paragraph _ => 1
  | .heading _ _ => 1
  | .codeBlock _ _ => 1
  | .thematicBreak => 1
  | .blockQuote children => blocksSize children + 1
  | .unorderedList items => itemsSize items + 1
  | .orderedList items => itemsSize items + 1

/-- Structural size of a block list. -/
def blocksSize : List Block → Nat
  | [] => 1
  | b :: bs => blockSize b + blocksSize bs

/-- Structural size of a list's items. -/
def itemsSize : List (List Block) → Nat
  | [] => 1
  | item :: rest => blocksSize item + itemsSize rest

end

/-! ## Reparse-stable trees

An internal invariant of the parser's own output: a block is stable when
stringifying it and parsing the result reproduces it exactly.  Every block
the parser emits is stable, which yields the round trip on every input
string; valid trees are proved stable separately.
-/

/-- An inline list is stable when it survives a stringify-then-parse trip. -/
def inlStable (cs : List Inline) : Prop :=
  (parseInl (strInlines cs)).1 = cs

mutual

/-- Stability of a block under a stringify-then-parse trip. -/
def Block.stable : Block → Prop
  | .paragraph cs => inlStable cs ∧ ∀ l ∈ splitLines (strInlines cs), isParagraphLine l = true
  | .heading n cs => 1 ≤ n ∧ n ≤ 6 ∧ inlStable cs ∧ '\n' ∉ strInlines cs
  | .codeBlock lang _lit => '\n' ∉ lang.data ∧ lang.data.head? ≠ some backtick
  | .thematicBreak => True
  | .blockQuote children => Block.stableList children
  | .unorderedList items => items ≠ [] ∧ Block.stableItems items
  | .orderedList items => items ≠ [] ∧ Block.stableItems items

/-- Stability of every block in a list. -/
def Block.stableList : List Block → Prop
  | [] => True
  | b :: bs => Block.stable b ∧ Block.stableList bs

/-- Stability of every block of every item. -/
def Block.stableItems : List (List Block) → Prop
  | [] => True
  | item :: rest => Block.stableList item ∧ Block.stableItems rest

end

/-! ## Restorer

Modelled from the spec: the restorer of section 4.5.  Input nodes may be
blocks or loose inline nodes; an inline node directly under Document is
wrapped in an implicit paragraph, and a heading whose required level field is
absent (the zero value of the wire encoding) is filled with the default level
1; each normalization emits a warning.  The modelled kind fragment has no
derived fields (no tables), so the spec's re-derivation pass is a no-op here.
-/

/-- A restore input node: either a block or an inline node that a lossy
editor left directly under the document root. -/
inductive RestNode : Type
  | block (b : Block)
  | inline (i : Inline)
deriving Repr

/-- Warning emitted when an inline node is wrapped in an implicit paragraph. -/
def wrapWarning : String := "inline node under document wrapped in implicit paragraph"

/-- Warning emitted when an absent heading level is filled with its default. -/
def headingDefaultWarning : String := "missing heading level filled with default 1"

/-- Modelled from the spec: normalize one restore input node (spec section
4.5): wrap loose inline nodes, default an absent heading level to 1, pass
every other block through unchanged. -/
def restoreNode : RestNode → Block × List String
  | .block (.heading 0 cs) => (.heading 1 cs, [headingDefaultWarning])
  | .block b => (b, [])
  | .inline i => (.paragraph [i], [wrapWarning])

/-- Normalize a restore input node list, accumulating warnings in order. -/
def restoreNodes : List RestNode → List Block × List String
  | [] => ([], [])
  | n :: ns =>
    let r := restoreNode n
    let p := restoreNodes ns
    (r.1 :: p.1, r.2 ++ p.2)

/-- Modelled from the spec: `RestoreMarkdownNodes(nodes) -> {nodes, warnings}`
(spec section 6).  Never rejects its input: every normalization degrades with
a warning. -/
def restoreMarkdownNodes (nodes : List RestNode) : ParseResult :=
  let p := restoreNodes nodes
  ⟨p.1, p.2⟩

/-! ## Link metadata resolver

Modelled from the spec: the link-metadata resolver of section 4.6 and its
cache of section 3.  The outbound HTTP fetch and HTML scan are abstracted as
an oracle from canonicalized URL to fetch outcome; the cache, TTL discipline
and negative caching are modelled explicitly.
-/

/-- Modelled from the spec: resolved link metadata (spec section 6). -/
structure LinkMetadata where
  title : String
  description : String
  imageUrl : String
deriving Repr

/-- Modelled from the spec: the fetch failure taxonomy of section 4.6:
timeout, non-2xx status, oversized body, network error. -/
inductive FetchError : Type
  | timeout
  | httpStatus (code : Nat)
  | oversizedBody
  | network (msg : String)
deriving Repr

/-- Modelled from the spec: a cache entry keyed by canonicalized URL: the
fetch outcome (failures are cached too) and the fetch timestamp. -/
structure CacheEntry where
  value : Except FetchError LinkMetadata
  fetchedAt : Nat

/-- Modelled from the spec: resolver configuration: the time-to-live of
successful entries and the shorter negative-cache time-to-live. -/
structure ResolverConfig where
  ttl : Nat
  negativeTtl : Nat

/-- Resolver state: the URL-keyed cache plus a log of outbound fetches, the
observable that counts network calls. -/
structure ResolverState where
  cache : List (String × CacheEntry)
  fetchLog : List String

/-- The time-to-live that governs an entry: the negative-cache TTL for a
failed fetch, the regular TTL otherwise. -/
def entryTtl (cfg : ResolverConfig) (e : CacheEntry) : Nat :=
  match e.value with
  | .ok _ => cfg.ttl
  | .error _ => cfg.negativeTtl

/-- An entry is fresh while its age is below its time-to-live. -/
def entryFresh (cfg : ResolverConfig) (now : Nat) (e : CacheEntry) : Bool :=
  decide (now < e.fetchedAt + entryTtl cfg e)

/-- Look up the newest cache entry stored for a key. -/
def lookupEntry (cache : List (String × CacheEntry)) (key : String) : Option CacheEntry :=
  (cache.find? fun p => decide (p.1 = key)).map (·.2)

/-- Lowercase one ASCII letter. -/
def asciiLower (c : Char) : Char :=
  if 'A' ≤ c ∧ c ≤ 'Z' then Char.ofNat (c.toNat + 32) else c

/-- Split a URL at the authority marker, returning the part before `//` and
the part after it. -/
def splitAtSlashSlash : List Char → Option (List Char × List Char)
  | '/' :: '/' :: rest => some ([], rest)
  | c :: rest => (splitAtSlashSlash rest).map fun p => (c :: p.1, p.2)
  | [] => none

/-- Strip the scheme's default port from an authority part. -/
def stripDefaultPort (scheme host : List Char) : List Char :=
  if scheme = "http:".data then
    match host.reverse with
    | '0' :: '8' :: ':' :: r => r.reverse
    | _ => host
  else if scheme = "https:".data then
    match host.reverse with
    | '3' :: '4' :: '4' :: ':' :: r => r.reverse
    | _ => host
  else host

/-- Modelled from the spec: URL canonicalization (spec section 4.6): the
scheme and host are lowercased, the default port and the fragment are
stripped. -/
def canonicalizeUrl (url : String) : String :=
  let cs := url.data.takeWhile fun c => decide (c ≠ '#')
  match splitAtSlashSlash cs with
  | none => String.mk (cs.map asciiLower)
  | some (scheme, rest) =>
    let authority := rest.takeWhile fun c => decide (c ≠ '/')
    let path := rest.dropWhile fun c => decide (c ≠ '/')
    let scheme2 := scheme.map asciiLower
    String.mk (scheme2 ++ '/' :: '/' :: (stripDefaultPort scheme2 (authority.map asciiLower) ++ path))

/-- Perform an outbound fetch through the oracle, store the outcome (success
or failure) with the current timestamp, and log the fetch. -/
def fetchEntry (fetch : String → Except FetchError LinkMetadata) (now : Nat)
    (st : ResolverState) (key : String) : Except FetchError LinkMetadata × ResolverState :=
  let r := fetch key
  (r, ⟨(key, ⟨r, now⟩) :: st.cache, st.fetchLog ++ [key]⟩)

/-- Modelled from the spec: `resolve(url)` (spec section 4.6): canonicalize,
serve a fresh cache entry without fetching, refetch an expired or absent
entry, cache failures as negative entries and return the error. -/
def resolve (cfg : ResolverConfig) (fetch : String → Except FetchError LinkMetadata)
    (now : Nat) (st : ResolverState) (url : String) :
    Except FetchError LinkMetadata × ResolverState :=
  let key := canonicalizeUrl url
  match lookupEntry st.cache key with
  | some e => if entryFresh cfg now e then (e.value, st) else fetchEntry fetch now st key
  | none => fetchEntry fetch now st key

/-! ## Fetch coalescing

Modelled from the spec: the per-key single-flight discipline of sections 5
and 9: one pending-future-per-key map guarded by a lock, so each caller's
entry into `resolve` is one atomic step.  A start step either serves the
cache, joins an in-flight fetch, or begins the one outbound fetch for its
key.
-/

/-- State of the coalescing resolver: the cache, the set of keys with an
in-flight fetch, the outbound fetch log, and a log of callers that joined an
in-flight fetch instead of issuing their own. -/
structure FlightState where
  cache : List (String × CacheEntry)
  inflight : List String
  fetchLog : List String
  joined : List String

/-- On a cache miss: join the in-flight fetch for the key when one exists,
otherwise mark the key in flight and issue the one outbound fetch. -/
def startFetchOrJoin (key : String) (st : FlightState) : FlightState :=
  if key ∈ st.inflight then { st with joined := st.joined ++ [key] }
  else { st with inflight := key :: st.inflight, fetchLog := st.fetchLog ++ [key] }

/-- Modelled from the spec: one caller's atomic entry into concurrent
`resolve` (spec section 5): serve a fresh cache entry, else join or start the
single in-flight fetch for the canonicalized URL. -/
def startResolve (cfg : ResolverConfig) (now : Nat) (url : String) (st : FlightState) :
    FlightState :=
  let key := canonicalizeUrl url
  match lookupEntry st.cache key with
  | some e => if entryFresh cfg now e then st else startFetchOrJoin key st
  | none => startFetchOrJoin key st

/-- Modelled from the spec: completion of the in-flight fetch for a key:
store the outcome and clear the in-flight mark, waking all joined callers. -/
def completeResolve (now : Nat) (key : String) (r : Except FetchError LinkMetadata)
    (st : FlightState) : FlightState :=
  { st with
    cache := (key, ⟨r, now⟩) :: st.cache
    inflight := st.inflight.filter fun k => decide (k ≠ key) }

/-- Run `n` concurrent callers' start steps for the same URL, one atomic step
each. -/
def startN (cfg : ResolverConfig) (now : Nat) (url : String) : Nat → FlightState → FlightState
  | 0, st => st
  | n + 1, st => startN cfg now url n (startResolve cfg now url st)

/-! ## User-setting store

Shallow embedding of the postgres user-setting store source file.  The SQL
statements the Go code builds with squirrel are embedded with their postgres
semantics over an explicit row list: a plain INSERT violates the
`(user_id, key)` primary key when the pair exists, while INSERT ... ON
CONFLICT DO UPDATE replaces the stored value.
-/

/-- One row of the `user_setting` table, primary key `(user_id, key)`. -/
structure UserSettingRow where
  userId : Int
  key : String
  value : String
deriving Repr

/-- Whether a row occupies the given primary-key pair. -/
def rowConflicts (r : UserSettingRow) (uid : Int) (k : String) : Bool :=
  decide (r.userId = uid) && decide (r.key = k)

/-- Postgres semantics of the plain
`INSERT INTO user_setting (user_id, key, value) VALUES (...)` statement that
`UpsertUserSetting` builds: a duplicate `(user_id, key)` pair violates the
primary key and the statement fails without changing the table. -/
def execInsertUserSetting (t : List UserSettingRow) (uid : Int) (k v : String) :
    Except String (List UserSettingRow) :=
  if t.any fun r => rowConflicts r uid k then
    .error "duplicate key value violates unique constraint"
  else .ok (t ++ [⟨uid, k, v⟩])

/-- Postgres semantics of the
`INSERT ... ON CONFLICT (user_id, key) DO UPDATE SET value = EXCLUDED.value`
statement that `UpsertUserSettingV1` builds: a conflicting row's value is
replaced, otherwise the row is inserted. -/
def execUpsertUserSetting (t : List UserSettingRow) (uid : Int) (k v : String) :
    List UserSettingRow :=
  if t.any fun r => rowConflicts r uid k then
    t.map fun r => if rowConflicts r uid k then ⟨uid, k, v⟩ else r
  else t ++ [⟨uid, k, v⟩]

/-- The store-level user setting of the v0 API (`store.UserSetting`): plain
string key and value. -/
structure StoreUserSetting where
  userId : Int
  key : String
  value : String
deriving Repr

/-- Embedding of `DB.UpsertUserSetting`: builds the plain INSERT (the source
omits any ON CONFLICT clause), executes it, and returns its input on
success.  The table accompanies the result to make the store effect
explicit. -/
def UpsertUserSetting (t : List UserSettingRow) (upsert : StoreUserSetting) :
    Except String StoreUserSetting × List UserSettingRow :=
  match execInsertUserSetting t upsert.userId upsert.key upsert.value with
  | .error e => (.error e, t)
  | .ok t2 => (.ok upsert, t2)

/-- The `storepb.UserSettingKey` enum values the source mentions. -/
inductive UserSettingKey : Type
  | unspecified
  | accessTokens
deriving DecidableEq, Repr

/-- The wire name of a user-setting key (`UserSettingKey.String()` in Go). -/
def userSettingKeyString : UserSettingKey → String
  | .unspecified => "USER_SETTING_KEY_UNSPECIFIED"
  | .accessTokens => "USER_SETTING_ACCESS_TOKENS"

/-- The inverse lookup `UserSettingKey_value[keyString]`: an unknown string
maps to the zero enum value, as a Go map lookup does. -/
def userSettingKeyFromString (s : String) : UserSettingKey :=
  if s = "USER_SETTING_ACCESS_TOKENS" then .accessTokens else .unspecified

/-- One access token of `storepb.AccessTokensUserSetting`. -/
structure AccessToken where
  accessToken : String
  description : String
deriving DecidableEq, Repr

/-- The `storepb.AccessTokensUserSetting` message. -/
structure AccessTokensUserSetting where
  accessTokens : List AccessToken
deriving DecidableEq, Repr

/-- The `storepb.UserSetting` message of the v1 API: user id, key, and the
access-tokens payload when present. -/
structure UserSettingV1 where
  userId : Int
  key : UserSettingKey
  value : Option AccessTokensUserSetting
deriving Repr

/-- The generated getter `GetAccessTokens`: the payload, or the zero message
when absent. -/
def UserSettingV1.getAccessTokens (s : UserSettingV1) : AccessTokensUserSetting :=
  s.value.getD ⟨[]⟩

/-- Embedding of `protojson.Marshal` on an access-tokens message.  Marshaling
an in-memory message is total here; the Go error path is unreachable for
well-formed messages. -/
def encodeAccessTokens (s : AccessTokensUserSetting) : String :=
  String.intercalate "\n" (s.accessTokens.map fun tok => tok.accessToken ++ "\t" ++ tok.description)

/-- Decode one access token from its encoded line. -/
def decodeAccessToken (s : List Char) : Option AccessToken :=
  match splitOnChar '\t' s with
  | [a, d] => some ⟨String.mk a, String.mk d⟩
  | _ => none

/-- Embedding of `protojson.Unmarshal` on an access-tokens value: fails on a
malformed value, mirroring the Go error path. -/
def decodeAccessTokens (s : String) : Option AccessTokensUserSetting :=
  if s = "" then some ⟨[]⟩
  else ((splitLines s.data).mapM decodeAccessToken).map fun ts => ⟨ts⟩

/-- Embedding of `DB.UpsertUserSettingV1`: only the access-tokens key is
accepted; any other key returns the error before any statement executes, so
the table is unchanged; on the accepted key the marshaled payload is written
through the ON CONFLICT upsert and the input setting is returned. -/
def UpsertUserSettingV1 (t : List UserSettingRow) (upsert : UserSettingV1) :
    Except String UserSettingV1 × List UserSettingRow :=
  match upsert.key with
  | .accessTokens =>
    let valueString := encodeAccessTokens upsert.getAccessTokens
    (.ok upsert,
      execUpsertUserSetting t upsert.userId (userSettingKeyString .accessTokens) valueString)
  | .unspecified => (.error "invalid user setting key", t)

/-- The `store.FindUserSettingV1` filter: optional user id, and a key filter
that is inactive on the unspecified zero value. -/
structure FindUserSettingV1 where
  userId : Option Int
  key : UserSettingKey

/-- The WHERE clause `ListUserSettingsV1` builds: filter by key unless the
filter key is unspecified, and by user id when present. -/
def listUserSettingRows (t : List UserSettingRow) (find : FindUserSettingV1) :
    List UserSettingRow :=
  t.filter fun r =>
    (match find.key with
     | .unspecified => true
     | k => decide (r.key = userSettingKeyString k)) &&
    (match find.userId with
     | none => true
     | some uid => decide (r.userId = uid))

/-- The row loop of `ListUserSettingsV1`: map each row's key string back to
the enum; keep access-tokens rows, whose value must unmarshal (an unmarshal
failure aborts the call); silently skip rows with any other key. -/
def processUserSettingRows : List UserSettingRow → Except String (List UserSettingV1)
  | [] => .ok []
  | r :: rest =>
    match userSettingKeyFromString r.key with
    | .accessTokens =>
      match decodeAccessTokens r.value with
      | none => .error "failed to unmarshal access tokens user setting"
      | some ts =>
        match processUserSettingRows rest with
        | .error e => .error e
        | .ok l => .ok (⟨r.userId, .accessTokens, some ts⟩ :: l)
    | .unspecified => processUserSettingRows rest

/-- Embedding of `DB.ListUserSettingsV1`: run the filtered query, then the
row loop. -/
def ListUserSettingsV1 (t : List UserSettingRow) (find : FindUserSettingV1) :
    Except String (List UserSettingV1) :=
  processUserSettingRows (listUserSettingRows t find)

/-! ## Gateway

Shallow embedding of `src/proto/gen/api/v1/markdown_service.pb.gw.go`: the
route patterns the file registers and the request construction of its
handlers.  Pattern opcodes follow the grpc-gateway runtime: opcode 2
(OpLitPush) pushes the pooled literal named by its operand; the verb is
appended to the path after a colon.
-/

/-- An HTTP method used by the gateway registrations. -/
inductive HttpMethod : Type
  | get
  | post
deriving DecidableEq, Repr

/-- Where a handler reads its request message from: the JSON body or the
query parameters. -/
inductive BodySource : Type
  | jsonBody
  | queryParams
deriving DecidableEq, Repr

/-- A compiled grpc-gateway route pattern: opcode stream, literal pool and
verb, as passed to `runtime.NewPattern`. -/
structure RoutePattern where
  ops : List Nat
  pool : List String
  verb : String

/-- Interpret the opcode stream: each OpLitPush (opcode 2) contributes its
pooled literal as one path segment. -/
def patternSegs : List Nat → List String → List String
  | 2 :: idx :: rest, pool => pool.getD idx "" :: patternSegs rest pool
  | _, _ => []

/-- The HTTP path a compiled pattern matches. -/
def patternPath (p : RoutePattern) : String :=
  "/" ++ String.intercalate "/" (patternSegs p.ops p.pool) ++
    (if p.verb = "" then "" else ":" ++ p.verb)

/-- The ParseMarkdown route pattern from the source. -/
def pattern_MarkdownService_ParseMarkdown_0 : RoutePattern :=
  ⟨[2, 0, 2, 1, 2, 2], ["api", "v1", "markdown"], "parse"⟩

/-- The RestoreMarkdownNodes route pattern from the source. -/
def pattern_MarkdownService_RestoreMarkdownNodes_0 : RoutePattern :=
  ⟨[2, 0, 2, 1, 2, 2, 2, 3], ["api", "v1", "markdown", "node"], "restore"⟩

/-- The StringifyMarkdownNodes route pattern from the source. -/
def pattern_MarkdownService_StringifyMarkdownNodes_0 : RoutePattern :=
  ⟨[2, 0, 2, 1, 2, 2, 2, 3], ["api", "v1", "markdown", "node"], "stringify"⟩

/-- The GetLinkMetadata route pattern from the source. -/
def pattern_MarkdownService_GetLinkMetadata_0 : RoutePattern :=
  ⟨[2, 0, 2, 1, 2, 2, 2, 3], ["api", "v1", "markdown", "link"], "metadata"⟩

/-- One `mux.Handle` registration: method, pattern, and where the handler
reads its request from. -/
structure Registration where
  method : HttpMethod
  pattern : RoutePattern
  source : BodySource

/-- The four registrations `RegisterMarkdownServiceHandlerClient` performs,
in source order.  The first three handlers decode the JSON body; the
GetLinkMetadata handler populates its request from query parameters. -/
def markdownServiceRoutes : List Registration :=
  [⟨.post, pattern_MarkdownService_ParseMarkdown_0, .jsonBody⟩,
   ⟨.post, pattern_MarkdownService_RestoreMarkdownNodes_0, .jsonBody⟩,
   ⟨.post, pattern_MarkdownService_StringifyMarkdownNodes_0, .jsonBody⟩,
   ⟨.get, pattern_MarkdownService_GetLinkMetadata_0, .queryParams⟩]

/-- The `ParseMarkdownRequest` message; its JSON zero value carries the empty
string. -/
structure ParseMarkdownRequest where
  markdown : String
deriving DecidableEq, Repr

/-- The `RestoreMarkdownNodesRequest` message. -/
structure RestoreMarkdownNodesRequest where
  nodes : List RestNode
deriving Repr

/-- The `StringifyMarkdownNodesRequest` message. -/
structure StringifyMarkdownNodesRequest where
  nodes : List RestNode
deriving Repr

/-- Outcome of `marshaler.NewDecoder(req.Body).Decode(&protoReq)`: a decoded
message, an EOF on an empty body, or a decoding failure. -/
inductive DecodeOutcome (α : Type) : Type
  | ok (a : α)
  | eofEmpty
  | failed (msg : String)

/-- Outcome a gateway handler forwards: the RPC response, an InvalidArgument
decoding error, or the RPC's own error. -/
inductive HandlerResult (β : Type) : Type
  | ok (b : β)
  | invalidArgument (msg : String)
  | rpcError (msg : String)

/-- The shared body of the body-decoding handlers: a decode failure other
than EOF returns InvalidArgument without invoking the RPC; an EOF is ignored
and the RPC runs on the zero-valued request.  The second component logs every
request the RPC was invoked with. -/
def decodeBodyHandler {α β : Type} (zeroReq : α) (dec : DecodeOutcome α)
    (rpc : α → Except String β) : HandlerResult β × List α :=
  match dec with
  | .failed msg => (.invalidArgument msg, [])
  | .eofEmpty =>
    (match rpc zeroReq with
     | .ok b => .ok b
     | .error e => .rpcError e, [zeroReq])
  | .ok a =>
    (match rpc a with
     | .ok b => .ok b
     | .error e => .rpcError e, [a])

/-- Embedding of `request_MarkdownService_ParseMarkdown_0`. -/
def request_MarkdownService_ParseMarkdown_0 {β : Type} (dec : DecodeOutcome ParseMarkdownRequest)
    (rpc : ParseMarkdownRequest → Except String β) : HandlerResult β × List ParseMarkdownRequest :=
  decodeBodyHandler ⟨""⟩ dec rpc

/-- Embedding of `local_request_MarkdownService_ParseMarkdown_0`. -/
def local_request_MarkdownService_ParseMarkdown_0 {β : Type}
    (dec : DecodeOutcome ParseMarkdownRequest)
    (rpc : ParseMarkdownRequest → Except String β) : HandlerResult β × List ParseMarkdownRequest :=
  decodeBodyHandler ⟨""⟩ dec rpc

/-- Embedding of `request_MarkdownService_RestoreMarkdownNodes_0`. -/
def request_MarkdownService_RestoreMarkdownNodes_0 {β : Type}
    (dec : DecodeOutcome RestoreMarkdownNodesRequest)
    (rpc : RestoreMarkdownNodesRequest → Except String β) :
    HandlerResult β × List RestoreMarkdownNodesRequest :=
  decodeBodyHandler ⟨[]⟩ dec rpc

/-- Embedding of `local_request_MarkdownService_RestoreMarkdownNodes_0`. -/
def local_request_MarkdownService_RestoreMarkdownNodes_0 {β : Type}
    (dec : DecodeOutcome RestoreMarkdownNodesRequest)
    (rpc : RestoreMarkdownNodesRequest → Except String β) :
    HandlerResult β × List RestoreMarkdownNodesRequest :=
  decodeBodyHandler ⟨[]⟩ dec rpc

/-- Embedding of `request_MarkdownService_StringifyMarkdownNodes_0`. -/
def request_MarkdownService_StringifyMarkdownNodes_0 {β : Type}
    (dec : DecodeOutcome StringifyMarkdownNodesRequest)
    (rpc : StringifyMarkdownNodesRequest → Except String β) :
    HandlerResult β × List StringifyMarkdownNodesRequest :=
  decodeBodyHandler ⟨[]⟩ dec rpc

/-- Embedding of `local_request_MarkdownService_StringifyMarkdownNodes_0`. -/
def local_request_MarkdownService_StringifyMarkdownNodes_0 {β : Type}
    (dec : DecodeOutcome StringifyMarkdownNodesRequest)
    (rpc : StringifyMarkdownNodesRequest → Except String β) :
    HandlerResult β × List StringifyMarkdownNodesRequest :=
  decodeBodyHandler ⟨[]⟩ dec rpc

/-! ## List and line lemmas -/

theorem takeWhile_append_of_all {α : Type} (p : α → Bool) :
    ∀ (a b : List α), (∀ x ∈ a, p x = true) → (∀ x, b.head? = some x → p x = false) →
      (a ++ b).takeWhile p = a ∧ (a ++ b).dropWhile p = b := by
  intro a
  induction a with
  | nil =>
    intro b _ hb
    cases b with
    | nil => simp
    | cons x bs =>
      have hx : p x = false := hb x rfl
      simp [List.takeWhile_cons, List.dropWhile_cons, hx]
  | cons y a ih =>
    intro b ha hb
    have hy : p y = true := ha y (by simp)
    have := ih b (fun x hx => ha x (by simp [hx])) hb
    simp [List.takeWhile_cons, List.dropWhile_cons, hy, this.1, this.2]

theorem splitOnChar_ne_nil (sep : Char) (cs : List Char) : splitOnChar sep cs ≠ [] := by
  induction cs with
  | nil => simp [splitOnChar]
  | cons c rest ih =>
    by_cases hc : c = sep
    · simp [splitOnChar, hc]
    · simp only [splitOnChar, if_neg hc]
      cases h : splitOnChar sep rest with
      | nil => simp
      | cons l ls => simp

theorem splitOnChar_append (sep : Char) :
    ∀ (a b : List Char), splitOnChar sep (a ++ sep :: b) = splitOnChar sep a ++ splitOnChar sep b := by
  intro a
  induction a with
  | nil => intro b; simp [splitOnChar]
  | cons c rest ih =>
    intro b
    by_cases hc : c = sep
    · simp [splitOnChar, hc, ih b]
    · show splitOnChar sep (c :: (rest ++ sep :: b)) = splitOnChar sep (c :: rest) ++ _
      simp only [splitOnChar, if_neg hc]
      rw [ih b]
      cases h : splitOnChar sep rest with
      | nil => exact absurd h (splitOnChar_ne_nil sep rest)
      | cons l ls => simp [h]

theorem splitOnChar_of_not_mem (sep : Char) :
    ∀ (cs : List Char), sep ∉ cs → splitOnChar sep cs = [cs] := by
  intro cs
  induction cs with
  | nil => intro _; rfl
  | cons c rest ih =>
    intro h
    have hc : ¬c = sep := fun he => h (by simp [he])
    have hr : sep ∉ rest := fun hm => h (by simp [hm])
    simp only [splitOnChar, if_neg hc, ih hr]

theorem not_mem_of_mem_splitOnChar (sep : Char) :
    ∀ (cs : List Char) (l : List Char), l ∈ splitOnChar sep cs → sep ∉ l := by
  intro cs
  induction cs with
  | nil => intro l hl; simp [splitOnChar] at hl; simp [hl]
  | cons c rest ih =>
    intro l hl
    by_cases hc : c = sep
    · simp only [splitOnChar, if_pos hc, List.mem_cons] at hl
      rcases hl with h | h
      · simp [h]
      · exact ih l h
    · simp only [splitOnChar, if_neg hc] at hl
      cases h : splitOnChar sep rest with
      | nil => exact absurd h (splitOnChar_ne_nil sep rest)
      | cons t ts =>
        rw [h] at hl
        simp only [List.mem_cons] at hl
        rcases hl with rfl | hmem
        · intro hm
          rcases List.mem_cons.mp hm with he | hm2
          · exact hc he.symm
          · exact ih t (by simp [h]) hm2
        · exact ih l (by simp [h, hmem])

theorem joinLines_splitLines : ∀ (cs : List Char), joinLines (splitLines cs) = cs := by
  intro cs
  induction cs with
  | nil => rfl
  | cons c rest ih =>
    by_cases hc : c = '\n'
    · subst hc
      show joinLines ([] :: splitLines rest) = '\n' :: rest
      cases h : splitLines rest with
      | nil => exact absurd h (splitOnChar_ne_nil '\n' rest)
      | cons l ls =>
        show joinLines ([] :: l :: ls) = '\n' :: rest
        simp only [joinLines, List.nil_append]
        rw [← h, ih]
    · show joinLines (splitOnChar '\n' (c :: rest)) = c :: rest
      simp only [splitOnChar, if_neg hc]
      cases h : splitOnChar '\n' rest with
      | nil => exact absurd h (splitOnChar_ne_nil '\n' rest)
      | cons l ls =>
        have hjoin : joinLines (l :: ls) = rest := by rw [← h]; exact ih
        cases ls with
        | nil => simp only [joinLines] at hjoin ⊢; rw [hjoin]
        | cons l2 ls2 => simp only [joinLines] at hjoin ⊢; rw [List.cons_append, hjoin]

theorem splitLines_joinLines :
    ∀ (lls : List (List Char)), lls ≠ [] → (∀ l ∈ lls, '\n' ∉ l) →
      splitLines (joinLines lls) = lls := by
  intro lls
  induction lls with
  | nil => intro h; exact absurd rfl h
  | cons l ls ih =>
    intro _ hmem
    cases ls with
    | nil =>
      show splitLines (joinLines [l]) = [l]
      simp only [joinLines]
      exact splitOnChar_of_not_mem '\n' l (hmem l (by simp))
    | cons l2 ls2 =>
      show splitLines (l ++ '\n' :: joinLines (l2 :: ls2)) = l :: l2 :: ls2
      unfold splitLines
      rw [splitOnChar_append, splitOnChar_of_not_mem '\n' l (hmem l (by simp))]
      have : splitOnChar '\n' (joinLines (l2 :: ls2)) = l2 :: ls2 :=
        ih (by simp) (fun x hx => hmem x (by simp [hx]))
      rw [this]
      rfl

theorem not_newline_of_mem_splitLines (cs : List Char) (l : List Char)
    (h : l ∈ splitLines cs) : '\n' ∉ l :=
  not_mem_of_mem_splitOnChar '\n' cs l h

/-! ## Inline parser lemmas: asterisk runs -/

theorem stars_length (w : Nat) : (stars w).length = w := by
  simp [stars]

theorem stars_succ (w : Nat) : stars (w + 1) = '*' :: stars w := by
  simp [stars, List.replicate_succ]

theorem stars_one : stars 1 = ['*'] := rfl

theorem stars_two : stars 2 = ['*', '*'] := rfl

theorem starCount_cons_star (cs : List Char) : starCount ('*' :: cs) = starCount cs + 1 := by
  simp [starCount, List.takeWhile_cons]

theorem starCount_cons_ne (c : Char) (cs : List Char) (h : ¬c = '*') :
    starCount (c :: cs) = 0 := by
  simp [starCount, List.takeWhile_cons, h]

theorem starCount_decomp (cs : List Char) :
    cs = stars (starCount cs) ++ cs.drop (starCount cs) := by
  induction cs with
  | nil => rfl
  | cons c cs ih =>
    by_cases h : c = '*'
    · subst h
      rw [starCount_cons_star, stars_succ, List.cons_append, List.drop_succ_cons]
      exact congrArg (List.cons '*') ih
    · rw [starCount_cons_ne c cs h]
      rfl

theorem take_stars_of_le (w : Nat) :
    ∀ (cs : List Char), w ≤ starCount cs → cs = stars w ++ cs.drop w := by
  induction w with
  | zero => intro cs _; rfl
  | succ v ih =>
    intro cs h
    cases cs with
    | nil => simp [starCount] at h
    | cons c cs =>
      by_cases hc : c = '*'
      · subst hc
        rw [stars_succ, List.cons_append, List.drop_succ_cons]
        rw [starCount_cons_star] at h
        exact congrArg (List.cons '*') (ih cs (Nat.le_of_succ_le_succ h))
      · rw [starCount_cons_ne c cs hc] at h
        omega

theorem starCount_stars_append_le (w : Nat) :
    ∀ (bs : List Char), w ≤ starCount (stars w ++ bs) := by
  induction w with
  | zero => intro bs; exact Nat.zero_le _
  | succ v ih =>
    intro bs
    rw [stars_succ, List.cons_append, starCount_cons_star]
    exact Nat.succ_le_succ (ih bs)

theorem starCount_cons_ne_head (c : Char) (cs : List Char) (h : ¬c = '*') :
    starCount (c :: cs) = 0 :=
  starCount_cons_ne c cs h

theorem drop_stars_append (w : Nat) (bs : List Char) : (stars w ++ bs).drop w = bs := by
  rw [List.drop_append_of_le_length (by simp [stars])]
  simp [stars]

theorem head_drop_takeWhile {α : Type} (p : α → Bool) :
    ∀ (l : List α) (c : α),
      (l.drop (l.takeWhile p).length).head? = some c → p c = false := by
  intro l
  induction l with
  | nil => intro c h; simp at h
  | cons a l ih =>
    intro c h
    by_cases ha : p a = true
    · rw [List.takeWhile_cons_of_pos ha, List.length_cons, List.drop_succ_cons] at h
      exact ih c h
    · rw [List.takeWhile_cons_of_neg ha, List.length_nil, List.drop_zero,
        List.head?_cons, Option.some.injEq] at h
      rw [← h]
      exact Bool.eq_false_iff.mpr ha

theorem strInline_emphasis (cs : List Inline) :
    strInline (.emphasis cs) = stars 1 ++ strInlines cs ++ stars 1 := by
  simp [strInline, stars_one]

theorem strInline_strong (cs : List Inline) :
    strInline (.strong cs) = stars 2 ++ strInlines cs ++ stars 2 := by
  simp [strInline, stars_two]

theorem strInlines_cons (i : Inline) (is : List Inline) :
    strInlines (i :: is) = strInline i ++ strInlines is := rfl

theorem strInlines_pushStars (w : Nat) (ns : List Inline) :
    strInlines (pushStars w ns) = stars w ++ strInlines ns := by
  match ns with
  | [] => simp [pushStars, strInlines, strInline]
  | .text s :: ns => simp [pushStars, strInlines, strInline]
  | .emphasis cs :: ns => simp [pushStars, strInlines, strInline]
  | .strong cs :: ns => simp [pushStars, strInlines, strInline]

/-! ## Inline parser lemmas: branch equations -/

theorem parseLvlF_eq_text (fuel : Nat) (close : Option Nat) (prev : Bool) (c : Char)
    (cs2 : List Char) (h : ¬c = '*') :
    parseLvlF (fuel + 1) close prev (c :: cs2) =
      ⟨Inline.text (String.mk ((c :: cs2).takeWhile fun d => decide (d ≠ '*'))) ::
         (parseLvlF fuel close
           (!isWsChar (((c :: cs2).takeWhile fun d => decide (d ≠ '*')).getLastD ' '))
           ((c :: cs2).dropWhile fun d => decide (d ≠ '*'))).nodes,
       (parseLvlF fuel close
           (!isWsChar (((c :: cs2).takeWhile fun d => decide (d ≠ '*')).getLastD ' '))
           ((c :: cs2).dropWhile fun d => decide (d ≠ '*'))).warnings,
       (parseLvlF fuel close
           (!isWsChar (((c :: cs2).takeWhile fun d => decide (d ≠ '*')).getLastD ' '))
           ((c :: cs2).dropWhile fun d => decide (d ≠ '*'))).rest,
       (parseLvlF fuel close
           (!isWsChar (((c :: cs2).takeWhile fun d => decide (d ≠ '*')).getLastD ' '))
           ((c :: cs2).dropWhile fun d => decide (d ≠ '*'))).closed⟩ := by
  simp only [parseLvlF, if_neg h, if_true]

theorem parseLvlF_eq_close (fuel : Nat) (w : Nat) (cs2 : List Char)
    (h : w ≤ starCount ('*' :: cs2)) :
    parseLvlF (fuel + 1) (some w) true ('*' :: cs2) = ⟨[], [], ('*' :: cs2).drop w, true⟩ := by
  simp only [parseLvlF, Bool.true_and, decide_eq_true h, if_true, closeWidth]

theorem parseLvlF_eq_open_none (fuel : Nat) (prev : Bool) (cs2 : List Char) (w2 : Nat)
    (hf : flankOf ((('*' :: cs2).drop (starCount ('*' :: cs2))).head?) = true)
    (hw2 : (if 2 ≤ starCount ('*' :: cs2) then 2 else 1) = w2) :
    parseLvlF (fuel + 1) none prev ('*' :: cs2) =
      (let inner := parseLvlF fuel (some w2) true (('*' :: cs2).drop w2)
       if inner.closed then
         let cont := parseLvlF fuel none true inner.rest
         ⟨(if w2 = 2 then Inline.strong inner.nodes else Inline.emphasis inner.nodes) ::
            cont.nodes,
          inner.warnings ++ cont.warnings, cont.rest, cont.closed⟩
       else
         ⟨pushStars w2 inner.nodes, inner.warnings ++ [unclosedDelimWarning],
          inner.rest, false⟩) := by
  subst hw2
  simp only [parseLvlF, hf, if_true, Bool.false_eq_true, if_false]

theorem parseLvlF_eq_open_some (fuel : Nat) (w : Nat) (prev : Bool) (cs2 : List Char) (w2 : Nat)
    (hcc : (prev && decide (w ≤ starCount ('*' :: cs2))) = false)
    (hf : flankOf ((('*' :: cs2).drop (starCount ('*' :: cs2))).head?) = true)
    (hw2 : (if 2 ≤ starCount ('*' :: cs2) then 2 else 1) = w2) :
    parseLvlF (fuel + 1) (some w) prev ('*' :: cs2) =
      (let inner := parseLvlF fuel (some w2) true (('*' :: cs2).drop w2)
       if inner.closed then
         let cont := parseLvlF fuel (some w) true inner.rest
         ⟨(if w2 = 2 then Inline.strong inner.nodes else Inline.emphasis inner.nodes) ::
            cont.nodes,
          inner.warnings ++ cont.warnings, cont.rest, cont.closed⟩
       else
         ⟨pushStars w2 inner.nodes, inner.warnings ++ [unclosedDelimWarning],
          inner.rest, false⟩) := by
  subst hw2
  simp only [parseLvlF, hcc, hf, if_true, Bool.false_eq_true, if_false]

theorem parseLvlF_eq_lit_none (fuel : Nat) (prev : Bool) (cs2 : List Char)
    (hf : flankOf ((('*' :: cs2).drop (starCount ('*' :: cs2))).head?) = false) :
    parseLvlF (fuel + 1) none prev ('*' :: cs2) =
      (let cont := parseLvlF fuel none true (('*' :: cs2).drop (starCount ('*' :: cs2)))
       ⟨pushStars (starCount ('*' :: cs2)) cont.nodes,
        literalDelimWarning :: cont.warnings, cont.rest, cont.closed⟩) := by
  simp only [parseLvlF, hf, if_true, Bool.false_eq_true, if_false]

theorem parseLvlF_eq_lit_some (fuel : Nat) (w : Nat) (prev : Bool) (cs2 : List Char)
    (hcc : (prev && decide (w ≤ starCount ('*' :: cs2))) = false)
    (hf : flankOf ((('*' :: cs2).drop (starCount ('*' :: cs2))).head?) = false) :
    parseLvlF (fuel + 1) (some w) prev ('*' :: cs2) =
      (let cont := parseLvlF fuel (some w) true (('*' :: cs2).drop (starCount ('*' :: cs2)))
       ⟨pushStars (starCount ('*' :: cs2)) cont.nodes,
        literalDelimWarning :: cont.warnings, cont.rest, cont.closed⟩) := by
  simp only [parseLvlF, hcc, hf, if_true, Bool.false_eq_true, if_false]

theorem parseLvlF_eq_open (fuel : Nat) (close : Option Nat) (prev : Bool) (cs2 : List Char)
    (w2 : Nat)
    (hcc : ∀ w, close = some w → (prev && decide (w ≤ starCount ('*' :: cs2))) = false)
    (hf : flankOf ((('*' :: cs2).drop (starCount ('*' :: cs2))).head?) = true)
    (hw2 : (if 2 ≤ starCount ('*' :: cs2) then 2 else 1) = w2) :
    parseLvlF (fuel + 1) close prev ('*' :: cs2) =
      (let inner := parseLvlF fuel (some w2) true (('*' :: cs2).drop w2)
       if inner.closed then
         let cont := parseLvlF fuel close true inner.rest
         ⟨(if w2 = 2 then Inline.strong inner.nodes else Inline.emphasis inner.nodes) ::
            cont.nodes,
          inner.warnings ++ cont.warnings, cont.rest, cont.closed⟩
       else
         ⟨pushStars w2 inner.nodes, inner.warnings ++ [unclosedDelimWarning],
          inner.rest, false⟩) := by
  cases close with
  | none => exact parseLvlF_eq_open_none fuel prev cs2 w2 hf hw2
  | some w => exact parseLvlF_eq_open_some fuel w prev cs2 w2 (hcc w rfl) hf hw2

theorem parseLvlF_eq_lit (fuel : Nat) (close : Option Nat) (prev : Bool) (cs2 : List Char)
    (hcc : ∀ w, close = some w → (prev && decide (w ≤ starCount ('*' :: cs2))) = false)
    (hf : flankOf ((('*' :: cs2).drop (starCount ('*' :: cs2))).head?) = false) :
    parseLvlF (fuel + 1) close prev ('*' :: cs2) =
      (let cont := parseLvlF fuel close true (('*' :: cs2).drop (starCount ('*' :: cs2)))
       ⟨pushStars (starCount ('*' :: cs2)) cont.nodes,
        literalDelimWarning :: cont.warnings, cont.rest, cont.closed⟩) := by
  cases close with
  | none => exact parseLvlF_eq_lit_none fuel prev cs2 hf
  | some w => exact parseLvlF_eq_lit_some fuel w prev cs2 (hcc w rfl) hf

/-! ## Inline parser lemmas: invariants -/

theorem parseLvlF_rest_length :
    ∀ (fuel : Nat) (close : Option Nat) (prev : Bool) (cs : List Char),
      (parseLvlF fuel close prev cs).rest.length ≤ cs.length := by
  intro fuel
  induction fuel with
  | zero => intro close prev cs; exact Nat.zero_le _
  | succ fuel ih =>
    intro close prev cs
    cases cs with
    | nil => exact Nat.zero_le _
    | cons c cs2 =>
      simp only [parseLvlF]
      repeat' split
      all_goals
        first
        | (simp only [List.length_drop]; omega)
        | exact le_trans (ih _ _ _)
            (le_trans (ih _ _ _) (by simp only [List.length_drop]; omega))
        | exact le_trans (ih _ _ _) (by simp only [List.length_drop]; omega)
        | exact le_trans (ih _ _ _) (List.Sublist.length_le (List.dropWhile_sublist _))

theorem parseLvlF_none_not_closed :
    ∀ (fuel : Nat) (prev : Bool) (cs : List Char),
      (parseLvlF fuel none prev cs).closed = false := by
  intro fuel
  induction fuel with
  | zero => intro prev cs; rfl
  | succ fuel ih =>
    intro prev cs
    cases cs with
    | nil => rfl
    | cons c cs2 =>
      simp only [parseLvlF, Bool.false_eq_true, if_false]
      repeat' split
      all_goals first | rfl | exact ih _ _

/-- Losslessness of the inline parser: a closed level's stringified nodes,
its consumed closing run and its remaining input reassemble the input, and an
unclosed level's stringified nodes are the whole input.  Degraded delimiter
runs stay in the output as literal text, so no character is ever dropped. -/
theorem parseLvlF_lossless :
    ∀ (fuel : Nat) (close : Option Nat) (prev : Bool) (cs : List Char), cs.length ≤ fuel →
      ((parseLvlF fuel close prev cs).closed = true →
        strInlines (parseLvlF fuel close prev cs).nodes ++ stars (closeWidth close) ++
          (parseLvlF fuel close prev cs).rest = cs) ∧
      ((parseLvlF fuel close prev cs).closed = false →
        strInlines (parseLvlF fuel close prev cs).nodes = cs ∧
          (parseLvlF fuel close prev cs).rest = []) := by
  intro fuel
  induction fuel with
  | zero =>
    intro close prev cs hlen
    have hnil : cs = [] := List.length_eq_zero.mp (Nat.le_zero.mp hlen)
    subst hnil
    exact ⟨(fun h => nomatch h), fun _ => ⟨rfl, rfl⟩⟩
  | succ fuel ih =>
    intro close prev cs hlen
    cases cs with
    | nil => exact ⟨(fun h => nomatch h), fun _ => ⟨rfl, rfl⟩⟩
    | cons c cs2 =>
      rw [List.length_cons] at hlen
      by_cases hc : c = '*'
      · subst hc
        have hk1 : 1 ≤ starCount ('*' :: cs2) := by rw [starCount_cons_star]; omega
        by_cases hccP : ∃ w, close = some w ∧
            (prev && decide (w ≤ starCount ('*' :: cs2))) = true
        · obtain ⟨w, rfl, hcc⟩ := hccP
          have hp : prev = true := by
            cases prev
            · simp at hcc
            · rfl
          have hw : w ≤ starCount ('*' :: cs2) := by
            rw [hp, Bool.true_and, decide_eq_true_eq] at hcc
            exact hcc
          subst hp
          rw [parseLvlF_eq_close fuel w cs2 hw]
          refine ⟨fun _ => ?_, (fun h => nomatch h)⟩
          show [] ++ stars w ++ ('*' :: cs2).drop w = '*' :: cs2
          rw [List.nil_append]
          exact (take_stars_of_le w ('*' :: cs2) hw).symm
        · have hcc : ∀ w, close = some w →
              (prev && decide (w ≤ starCount ('*' :: cs2))) = false := by
            intro w hw
            subst hw
            by_cases h : (prev && decide (w ≤ starCount ('*' :: cs2))) = true
            · exact absurd ⟨w, rfl, h⟩ hccP
            · exact Bool.eq_false_iff.mpr h
          by_cases hf : flankOf ((('*' :: cs2).drop (starCount ('*' :: cs2))).head?) = true
          · generalize hw2 : (if 2 ≤ starCount ('*' :: cs2) then 2 else 1) = w2
            have hw2b : 1 ≤ w2 ∧ w2 ≤ starCount ('*' :: cs2) := by
              rw [← hw2]
              split <;> omega
            have hw2c : w2 = 2 ∨ w2 = 1 := by
              rw [← hw2]
              split
              · exact Or.inl rfl
              · exact Or.inr rfl
            rw [parseLvlF_eq_open fuel close prev cs2 w2 hcc hf hw2]
            have hlen1 : (('*' :: cs2).drop w2).length ≤ fuel := by
              simp only [List.length_drop, List.length_cons]
              omega
            obtain ⟨ihin1, ihin2⟩ := ih (some w2) true (('*' :: cs2).drop w2) hlen1
            by_cases hin :
                (parseLvlF fuel (some w2) true (('*' :: cs2).drop w2)).closed = true
            · simp only [hin, if_true]
              have e1 := ihin1 hin
              simp only [closeWidth] at e1
              have hlen2 :
                  (parseLvlF fuel (some w2) true (('*' :: cs2).drop w2)).rest.length ≤ fuel :=
                le_trans (parseLvlF_rest_length fuel _ _ _) hlen1
              obtain ⟨ihc1, ihc2⟩ := ih close true
                (parseLvlF fuel (some w2) true (('*' :: cs2).drop w2)).rest hlen2
              constructor
              · intro hcl
                try dsimp only at hcl ⊢
                have e2 := ihc1 hcl
                rw [strInlines_cons]
                rcases hw2c with rfl | rfl
                · rw [if_pos rfl, strInline_strong]
                  simp only [List.append_assoc] at e1 e2 ⊢
                  rw [e2, e1]
                  exact (take_stars_of_le 2 ('*' :: cs2) hw2b.2).symm
                · rw [if_neg (by omega), strInline_emphasis]
                  simp only [List.append_assoc] at e1 e2 ⊢
                  rw [e2, e1]
                  exact (take_stars_of_le 1 ('*' :: cs2) hw2b.2).symm
              · intro hcl
                try dsimp only at hcl ⊢
                obtain ⟨e2, e3⟩ := ihc2 hcl
                refine ⟨?_, e3⟩
                rw [strInlines_cons]
                rcases hw2c with rfl | rfl
                · rw [if_pos rfl, strInline_strong]
                  simp only [List.append_assoc] at e1 ⊢
                  rw [e2, e1]
                  exact (take_stars_of_le 2 ('*' :: cs2) hw2b.2).symm
                · rw [if_neg (by omega), strInline_emphasis]
                  simp only [List.append_assoc] at e1 ⊢
                  rw [e2, e1]
                  exact (take_stars_of_le 1 ('*' :: cs2) hw2b.2).symm
            · have hinf :
                  (parseLvlF fuel (some w2) true (('*' :: cs2).drop w2)).closed = false :=
                Bool.eq_false_iff.mpr hin
              simp only [hinf, Bool.false_eq_true, if_false]
              obtain ⟨e1, e2⟩ := ihin2 hinf
              refine ⟨(fun h => nomatch h), fun _ => ⟨?_, e2⟩⟩
              rw [strInlines_pushStars, e1]
              exact (take_stars_of_le w2 ('*' :: cs2) hw2b.2).symm
          · have hff : flankOf ((('*' :: cs2).drop (starCount ('*' :: cs2))).head?) = false :=
              Bool.eq_false_iff.mpr hf
            rw [parseLvlF_eq_lit fuel close prev cs2 hcc hff]
            have hlenk : (('*' :: cs2).drop (starCount ('*' :: cs2))).length ≤ fuel := by
              simp only [List.length_drop, List.length_cons]
              omega
            obtain ⟨ihc1, ihc2⟩ := ih close true
              (('*' :: cs2).drop (starCount ('*' :: cs2))) hlenk
            constructor
            · intro hcl
              try dsimp only at hcl ⊢
              have e2 := ihc1 hcl
              rw [strInlines_pushStars]
              simp only [List.append_assoc] at e2 ⊢
              rw [e2]
              exact (starCount_decomp ('*' :: cs2)).symm
            · intro hcl
              try dsimp only at hcl ⊢
              obtain ⟨e1, e2⟩ := ihc2 hcl
              refine ⟨?_, e2⟩
              rw [strInlines_pushStars, e1]
              exact (starCount_decomp ('*' :: cs2)).symm
      · rw [parseLvlF_eq_text fuel close prev c cs2 hc]
        have hsd : ((c :: cs2).takeWhile fun d => decide (d ≠ '*')) ++
            ((c :: cs2).dropWhile fun d => decide (d ≠ '*')) = c :: cs2 :=
          List.takeWhile_append_dropWhile _ _
        have hs1 : 1 ≤ ((c :: cs2).takeWhile fun d => decide (d ≠ '*')).length := by
          rw [List.takeWhile_cons_of_pos (by simp [hc])]
          simp
        have hr2len : ((c :: cs2).dropWhile fun d => decide (d ≠ '*')).length ≤ fuel := by
          have h1 := congrArg List.length hsd
          rw [List.length_append, List.length_cons] at h1
          omega
        obtain ⟨ih1, ih2⟩ := ih close
          (!isWsChar (((c :: cs2).takeWhile fun d => decide (d ≠ '*')).getLastD ' '))
          ((c :: cs2).dropWhile fun d => decide (d ≠ '*')) hr2len
        constructor
        · intro hcl
          try dsimp only at hcl ⊢
          have e := ih1 hcl
          rw [strInlines_cons]
          show (String.mk ((c :: cs2).takeWhile fun d => decide (d ≠ '*'))).data ++ _ ++ _ ++ _ =
            c :: cs2
          simp only [List.append_assoc] at e ⊢
          rw [e]
          exact hsd
        · intro hcl
          try dsimp only at hcl ⊢
          obtain ⟨e1, e2⟩ := ih2 hcl
          refine ⟨?_, e2⟩
          rw [strInlines_cons]
          show (String.mk ((c :: cs2).takeWhile fun d => decide (d ≠ '*'))).data ++ _ = c :: cs2
          rw [e1]
          exact hsd

/-! ## Inline parser lemmas: reparse steps -/

theorem starCount_stars_cons (w : Nat) (e : Char) (X : List Char) (he : ¬e = '*') :
    starCount (stars w ++ e :: X) = w := by
  induction w with
  | zero => simpa [stars] using starCount_cons_ne e X he
  | succ v ih => rw [stars_succ, List.cons_append, starCount_cons_star, ih]

/-- Parsing the closing run of an open delimiter: with a left-flanking
position and at least the expected width available, the level closes and
consumes exactly its width. -/
theorem parseLvlF_close_step (fuel w : Nat) (after : List Char) (hw : 1 ≤ w) :
    parseLvlF (fuel + 1) (some w) true (stars w ++ after) = ⟨[], [], after, true⟩ := by
  obtain ⟨v, rfl⟩ : ∃ v, w = v + 1 := ⟨w - 1, by omega⟩
  have hcnt : v + 1 ≤ starCount ('*' :: (stars v ++ after)) := by
    have h := starCount_stars_append_le (v + 1) after
    rwa [stars_succ, List.cons_append] at h
  rw [stars_succ, List.cons_append, parseLvlF_eq_close fuel (v + 1) (stars v ++ after) hcnt]
  have hdr : ('*' :: (stars v ++ after)).drop (v + 1) = after := by
    rw [← List.cons_append, ← stars_succ]
    exact drop_stars_append (v + 1) after
  rw [hdr]

/-- Parsing a maximal text run: a literal without delimiter characters,
followed by input that starts with a delimiter run (or ends), becomes one
text node and parsing continues behind it. -/
theorem parseLvlF_text_step (fuel : Nat) (close : Option Nat) (prev : Bool)
    (s : String) (rest : List Inline) (tl : List Char) (R : LvlOut)
    (hne : s.data ≠ []) (hstar : '*' ∉ s.data)
    (hhead : ∀ x, (strInlines rest ++ tl).head? = some x → x = '*')
    (hcont : parseLvlF fuel close (!isWsChar (s.data.getLastD ' '))
      (strInlines rest ++ tl) = R) :
    parseLvlF (fuel + 1) close prev (strInlines (.text s :: rest) ++ tl) =
      ⟨Inline.text s :: R.nodes, R.warnings, R.rest, R.closed⟩ := by
  have hsp : strInlines (.text s :: rest) ++ tl = s.data ++ (strInlines rest ++ tl) := by
    rw [strInlines_cons, List.append_assoc]
    rfl
  obtain ⟨d, ds, hds⟩ := List.exists_cons_of_ne_nil hne
  have hd : ¬d = '*' := by
    intro h
    exact hstar (by rw [hds, h]; exact List.mem_cons_self _ _)
  have htw := takeWhile_append_of_all (fun x => decide (x ≠ '*')) s.data (strInlines rest ++ tl)
    (by
      intro x hx
      simp only [decide_eq_true_eq]
      intro h
      exact hstar (h ▸ hx))
    (by
      intro x hx
      rw [hhead x hx]
      simp)
  obtain ⟨ht1, ht2⟩ := htw
  rw [hds] at ht1 ht2 hcont
  rw [List.cons_append] at ht1 ht2
  rw [hsp, hds, List.cons_append,
    parseLvlF_eq_text fuel close prev d (ds ++ (strInlines rest ++ tl)) hd,
    ht1, ht2, hcont]
  rw [← hds]

/-- Parsing an open-then-close delimiter pair around already-valid content:
the run opens (it right-flanks the content's first character), the inner
level parses the content and closes, and parsing continues behind the
closing run. -/
theorem parseLvlF_delim_step (fuel : Nat) (close : Option Nat) (prev : Bool)
    (w2 j : Nat) (e : Char) (mid Z : List Char) (ds : List Inline) (R : LvlOut)
    (he1 : ¬e = '*') (he2 : isWsChar e = false)
    (hsd : strInlines ds = stars j ++ e :: mid)
    (hk : (if 2 ≤ w2 + j then 2 else 1) = w2)
    (hcc : ∀ w', close = some w' → (prev && decide (w' ≤ w2 + j)) = false)
    (hinner : parseLvlF fuel (some w2) true (strInlines ds ++ stars w2 ++ Z) =
      ⟨ds, [], Z, true⟩)
    (hcont : parseLvlF fuel close true Z = R) :
    parseLvlF (fuel + 1) close prev (stars w2 ++ strInlines ds ++ stars w2 ++ Z) =
      ⟨(if w2 = 2 then Inline.strong ds else Inline.emphasis ds) :: R.nodes,
       R.warnings, R.rest, R.closed⟩ := by
  have hI : stars w2 ++ strInlines ds ++ stars w2 ++ Z =
      stars (w2 + j) ++ e :: (mid ++ (stars w2 ++ Z)) := by
    rw [hsd]
    simp only [stars, List.replicate_add, List.append_assoc, List.cons_append]
  obtain ⟨v, hv⟩ : ∃ v, w2 + j = v + 1 := by
    refine ⟨w2 + j - 1, ?_⟩
    have : w2 = 2 ∨ w2 = 1 := by
      rw [← hk]
      split
      · exact Or.inl rfl
      · exact Or.inr rfl
    omega
  have hks : starCount ('*' :: (stars v ++ (e :: (mid ++ (stars w2 ++ Z))))) = v + 1 := by
    have h := starCount_stars_cons (v + 1) e (mid ++ (stars w2 ++ Z)) he1
    rwa [stars_succ, List.cons_append] at h
  have hdropk : ('*' :: (stars v ++ (e :: (mid ++ (stars w2 ++ Z))))).drop (v + 1) =
      e :: (mid ++ (stars w2 ++ Z)) := by
    rw [← List.cons_append, ← stars_succ]
    exact drop_stars_append (v + 1) _
  have hflank :
      flankOf ((('*' :: (stars v ++ (e :: (mid ++ (stars w2 ++ Z))))).drop
        (starCount ('*' :: (stars v ++ (e :: (mid ++ (stars w2 ++ Z))))))).head?) = true := by
    rw [hks, hdropk]
    simp [flankOf, he2]
  have hcc' : ∀ w', close = some w' →
      (prev && decide (w' ≤
        starCount ('*' :: (stars v ++ (e :: (mid ++ (stars w2 ++ Z))))))) = false := by
    intro w' h
    rw [hks, ← hv]
    exact hcc w' h
  have hdrop2 : ('*' :: (stars v ++ (e :: (mid ++ (stars w2 ++ Z))))).drop w2 =
      strInlines ds ++ stars w2 ++ Z := by
    rw [← List.cons_append, ← stars_succ, ← hv,
      (by simp only [stars, List.replicate_add] : stars (w2 + j) = stars w2 ++ stars j),
      List.append_assoc, drop_stars_append, hsd]
    simp only [List.append_assoc, List.cons_append]
  rw [hI, hv, stars_succ, List.cons_append,
    parseLvlF_eq_open fuel close prev (stars v ++ (e :: (mid ++ (stars w2 ++ Z)))) w2 hcc'
      hflank (by rw [hks, ← hv]; exact hk),
    hdrop2, hinner]
  simp only [hcont, if_true, List.nil_append]

/-! ## Inline parser lemmas: valid trees reparse -/

theorem one_le_inlineSize (i : Inline) : 1 ≤ inlineSize i := by
  cases i <;> simp [inlineSize]

theorem inlinesSize_cons (i : Inline) (is : List Inline) :
    inlinesSize (i :: is) = inlineSize i + inlinesSize is := rfl

theorem parseLvlF_valid_nil_some (fuel : Nat) (prev : Bool) (w : Nat) (after : List Char)
    (hw : w = 1 ∨ w = 2) (hv : listValidB (some w) prev [] = true)
    (hlen : (strInlines [] ++ stars w ++ after).length ≤ fuel) :
    parseLvlF fuel (some w) prev (strInlines [] ++ stars w ++ after) =
      ⟨[], [], after, true⟩ := by
  have hp : prev = true := by simpa [listValidB] using hv
  subst hp
  have hw1 : 1 ≤ w := by rcases hw with rfl | rfl <;> omega
  cases fuel with
  | zero =>
    exfalso
    simp only [List.length_append, stars_length] at hlen
    omega
  | succ f =>
    show parseLvlF (f + 1) (some w) true ([] ++ stars w ++ after) = _
    rw [List.nil_append]
    exact parseLvlF_close_step f w after hw1

theorem parseLvlF_valid_nil_none (fuel : Nat) (prev : Bool) :
    parseLvlF fuel none prev (strInlines []) = ⟨[], [], [], false⟩ := by
  cases fuel <;> rfl

theorem head_star_of_notTextHead (rest : List Inline) (tl : List Char)
    (hnth : notTextHead rest = true)
    (htl : ∀ x, tl.head? = some x → x = '*') :
    ∀ x, (strInlines rest ++ tl).head? = some x → x = '*' := by
  cases rest with
  | nil =>
    intro x hx
    refine htl x ?_
    have h0 : strInlines ([] : List Inline) ++ tl = tl := rfl
    rwa [h0] at hx
  | cons i2 rest2 =>
    cases i2 with
    | text s2 => simp [notTextHead] at hnth
    | emphasis cs2 =>
      intro x hx
      have h : (strInlines (Inline.emphasis cs2 :: rest2) ++ tl).head? = some '*' := rfl
      rw [h, Option.some.injEq] at hx
      exact hx.symm
    | strong cs2 =>
      intro x hx
      have h : (strInlines (Inline.strong cs2 :: rest2) ++ tl).head? = some '*' := rfl
      rw [h, Option.some.injEq] at hx
      exact hx.symm

/-- A valid emphasis body starts, after no extra delimiter characters, with a
non-whitespace non-delimiter character. -/
theorem emphasis_shape (ds : List Inline) (hfo : firstOK1B ds = true)
    (hdv : listValidB (some 1) true ds = true) :
    ∃ e mid, (¬e = '*') ∧ isWsChar e = false ∧ strInlines ds = stars 0 ++ e :: mid := by
  cases ds with
  | nil => simp [firstOK1B] at hfo
  | cons d0 ds2 =>
    cases d0 with
    | text t =>
      simp only [firstOK1B] at hfo
      simp only [listValidB, Bool.and_eq_true] at hdv
      obtain ⟨⟨htv, _⟩, _⟩ := hdv
      simp only [textValidB, Bool.and_eq_true, decide_eq_true_eq] at htv
      obtain ⟨⟨hne, hnstar⟩, _⟩ := htv
      obtain ⟨e, es, hte⟩ := List.exists_cons_of_ne_nil hne
      refine ⟨e, es ++ strInlines ds2, ?_, ?_, ?_⟩
      · intro h
        exact hnstar (by rw [hte, h]; exact List.mem_cons_self _ _)
      · rw [hte] at hfo
        simpa using hfo
      · rw [strInlines_cons]
        show t.data ++ strInlines ds2 = stars 0 ++ e :: (es ++ strInlines ds2)
        rw [hte]
        simp [stars]
    | emphasis cs2 => simp [firstOK1B] at hfo
    | strong cs2 => simp [firstOK1B] at hfo

/-- A valid strong body starts, after at most one extra delimiter character
(its possible leading nested emphasis), with a non-whitespace non-delimiter
character. -/
theorem strong_shape (ds : List Inline) (hfo : firstOK2B ds = true)
    (hdv : listValidB (some 2) true ds = true) :
    ∃ j e mid, (¬e = '*') ∧ isWsChar e = false ∧ strInlines ds = stars j ++ e :: mid := by
  cases ds with
  | nil => simp [firstOK2B] at hfo
  | cons d0 ds2 =>
    cases d0 with
    | text t =>
      simp only [firstOK2B] at hfo
      simp only [listValidB, Bool.and_eq_true] at hdv
      obtain ⟨⟨htv, _⟩, _⟩ := hdv
      simp only [textValidB, Bool.and_eq_true, decide_eq_true_eq] at htv
      obtain ⟨⟨hne, hnstar⟩, _⟩ := htv
      obtain ⟨e, es, hte⟩ := List.exists_cons_of_ne_nil hne
      refine ⟨0, e, es ++ strInlines ds2, ?_, ?_, ?_⟩
      · intro h
        exact hnstar (by rw [hte, h]; exact List.mem_cons_self _ _)
      · rw [hte] at hfo
        simpa using hfo
      · rw [strInlines_cons]
        show t.data ++ strInlines ds2 = stars 0 ++ e :: (es ++ strInlines ds2)
        rw [hte]
        simp [stars]
    | emphasis es =>
      simp only [listValidB, Bool.and_eq_true] at hdv
      obtain ⟨⟨_, hnv⟩, _⟩ := hdv
      simp only [nodeValidB, Bool.and_eq_true] at hnv
      obtain ⟨hfo1, hdv1⟩ := hnv
      obtain ⟨e, mid, he1, he2, hsd⟩ := emphasis_shape es hfo1 hdv1
      refine ⟨1, e, mid ++ '*' :: strInlines ds2, he1, he2, ?_⟩
      rw [strInlines_cons, strInline_emphasis, hsd]
      simp [stars, List.append_assoc]
    | strong cs2 => simp [firstOK2B] at hfo

/-- Valid inline content reparses to itself: inside an open delimiter of
width `w`, the stringified content followed by the closing run and anything
further parses back to exactly the content, consuming the closing run and
leaving the rest; at top level the stringified content parses back to
exactly the content with no warnings. -/
theorem parseLvlF_valid :
    ∀ (n : Nat) (cs : List Inline), inlinesSize cs ≤ n →
      (∀ (fuel : Nat) (prev : Bool) (w : Nat) (after : List Char),
        (w = 1 ∨ w = 2) → listValidB (some w) prev cs = true →
        (strInlines cs ++ stars w ++ after).length ≤ fuel →
        parseLvlF fuel (some w) prev (strInlines cs ++ stars w ++ after) =
          ⟨cs, [], after, true⟩) ∧
      (∀ (fuel : Nat) (prev : Bool),
        listValidB none prev cs = true →
        (strInlines cs).length ≤ fuel →
        parseLvlF fuel none prev (strInlines cs) = ⟨cs, [], [], false⟩) := by
  intro n
  induction n with
  | zero =>
    intro cs hsz
    have hnil : cs = [] := by
      cases cs with
      | nil => rfl
      | cons i is =>
        exfalso
        have := one_le_inlineSize i
        simp only [inlinesSize_cons] at hsz
        omega
    subst hnil
    exact ⟨fun fuel prev w after hw hv hlen => parseLvlF_valid_nil_some fuel prev w after hw hv hlen,
      fun fuel prev _ _ => parseLvlF_valid_nil_none fuel prev⟩
  | succ n ih =>
    intro cs hsz
    cases cs with
    | nil =>
      exact ⟨fun fuel prev w after hw hv hlen =>
          parseLvlF_valid_nil_some fuel prev w after hw hv hlen,
        fun fuel prev _ _ => parseLvlF_valid_nil_none fuel prev⟩
    | cons i rest =>
      have hszr : inlinesSize rest ≤ n := by
        have := one_le_inlineSize i
        simp only [inlinesSize_cons] at hsz
        omega
      obtain ⟨ihrS, ihrN⟩ := ih rest hszr
      cases i with
      | text s =>
        constructor
        · intro fuel prev w after hw hv hlen
          simp only [listValidB, Bool.and_eq_true] at hv
          obtain ⟨⟨htv, hnth⟩, hrv⟩ := hv
          simp only [textValidB, Bool.and_eq_true, decide_eq_true_eq] at htv
          obtain ⟨⟨hne, hnstar⟩, _⟩ := htv
          have hslen : 1 ≤ s.data.length := List.length_pos.mpr hne
          have hw1 : 1 ≤ w := by rcases hw with rfl | rfl <;> omega
          have hlens : (strInlines (.text s :: rest) ++ stars w ++ after).length =
              s.data.length + ((strInlines rest ++ stars w ++ after).length) := by
            rw [strInlines_cons]
            show (s.data ++ strInlines rest ++ stars w ++ after).length = _
            simp [List.length_append]
          cases fuel with
          | zero =>
            exfalso
            rw [hlens] at hlen
            omega
          | succ f =>
            have hhead : ∀ x, (strInlines rest ++ (stars w ++ after)).head? = some x →
                x = '*' := by
              refine head_star_of_notTextHead rest (stars w ++ after) hnth ?_
              intro x hx
              rcases hw with rfl | rfl
              · rw [stars_one] at hx
                simpa using hx.symm
              · rw [stars_two] at hx
                simpa using hx.symm
            have hlenr : (strInlines rest ++ stars w ++ after).length ≤ f := by
              rw [hlens] at hlen
              omega
            have hcont := ihrS f (!isWsChar (s.data.getLastD ' ')) w after hw hrv hlenr
            rw [List.append_assoc] at hcont
            rw [List.append_assoc,
              parseLvlF_text_step f (some w) prev s rest (stars w ++ after)
                ⟨rest, [], after, true⟩ hne hnstar hhead hcont]
        · intro fuel prev hv hlen
          simp only [listValidB, Bool.and_eq_true] at hv
          obtain ⟨⟨htv, hnth⟩, hrv⟩ := hv
          simp only [textValidB, Bool.and_eq_true, decide_eq_true_eq] at htv
          obtain ⟨⟨hne, hnstar⟩, _⟩ := htv
          have hslen : 1 ≤ s.data.length := List.length_pos.mpr hne
          have hlens : (strInlines (.text s :: rest)).length =
              s.data.length + (strInlines rest).length := by
            rw [strInlines_cons]
            show (s.data ++ strInlines rest).length = _
            simp [List.length_append]
          cases fuel with
          | zero =>
            exfalso
            rw [hlens] at hlen
            omega
          | succ f =>
            have hhead : ∀ x, (strInlines rest ++ ([] : List Char)).head? = some x →
                x = '*' := by
              refine head_star_of_notTextHead rest [] hnth ?_
              intro x hx
              simp at hx
            have hlenr : (strInlines rest).length ≤ f := by
              rw [hlens] at hlen
              omega
            have hcont := ihrN f (!isWsChar (s.data.getLastD ' ')) hrv hlenr
            rw [show strInlines rest = strInlines rest ++ ([] : List Char) by simp] at hcont
            have hstep := parseLvlF_text_step f none prev s rest []
              ⟨rest, [], [], false⟩ hne hnstar hhead hcont
            rw [show strInlines (.text s :: rest) ++ ([] : List Char) =
              strInlines (.text s :: rest) by simp] at hstep
            exact hstep
      | emphasis ds =>
        have hszd : inlinesSize ds ≤ n := by
          simp only [inlinesSize_cons, inlineSize] at hsz
          omega
        obtain ⟨ihdS, _⟩ := ih ds hszd
        constructor
        · intro fuel prev w after hw hv hlen
          have hw1 : 1 ≤ w := by rcases hw with rfl | rfl <;> omega
          simp only [listValidB, Bool.and_eq_true] at hv
          obtain ⟨⟨hm, hnv⟩, hrv⟩ := hv
          simp only [nodeValidB, Bool.and_eq_true] at hnv
          obtain ⟨hfo, hdv⟩ := hnv
          obtain ⟨e, mid, he1, he2, hsd⟩ := emphasis_shape ds hfo hdv
          have hIeq : strInlines (.emphasis ds :: rest) ++ stars w ++ after =
              stars 1 ++ strInlines ds ++ stars 1 ++
                (strInlines rest ++ (stars w ++ after)) := by
            rw [strInlines_cons, strInline_emphasis]
            simp only [List.append_assoc]
          have hlenI : (strInlines (.emphasis ds :: rest) ++ stars w ++ after).length =
              1 + (strInlines ds).length + 1 +
                ((strInlines rest).length + (w + after.length)) := by
            rw [hIeq]
            simp [List.length_append, stars_length]
            omega
          cases fuel with
          | zero =>
            exfalso
            rw [hlenI] at hlen
            omega
          | succ f =>
            have hlen1 : (strInlines ds ++ stars 1 ++
                (strInlines rest ++ (stars w ++ after))).length ≤ f := by
              rw [hlenI] at hlen
              simp [List.length_append, stars_length]
              omega
            have hinner := ihdS f true 1 (strInlines rest ++ (stars w ++ after))
              (Or.inl rfl) hdv hlen1
            have hlen2 : (strInlines rest ++ stars w ++ after).length ≤ f := by
              rw [hlenI] at hlen
              simp [List.length_append, stars_length]
              omega
            have hcont := ihrS f true w after hw hrv hlen2
            rw [List.append_assoc] at hcont
            have hcc : ∀ w', (some w : Option Nat) = some w' →
                (prev && decide (w' ≤ 1 + 0)) = false := by
              intro w' h
              injection h with h'
              subst h'
              rcases hw with rfl | rfl
              · have hp : prev = false := by simpa using hm
                rw [hp]
                rfl
              · simp
            rw [hIeq, parseLvlF_delim_step f (some w) prev 1 0 e mid
              (strInlines rest ++ (stars w ++ after)) ds ⟨rest, [], after, true⟩
              he1 he2 hsd (by decide) hcc hinner hcont]
            rfl
        · intro fuel prev hv hlen
          simp only [listValidB, Bool.true_and, Bool.and_eq_true] at hv
          obtain ⟨hnv, hrv⟩ := hv
          simp only [nodeValidB, Bool.and_eq_true] at hnv
          obtain ⟨hfo, hdv⟩ := hnv
          obtain ⟨e, mid, he1, he2, hsd⟩ := emphasis_shape ds hfo hdv
          have hIeq : strInlines (.emphasis ds :: rest) =
              stars 1 ++ strInlines ds ++ stars 1 ++ strInlines rest := by
            rw [strInlines_cons, strInline_emphasis]
          have hlenI : (strInlines (.emphasis ds :: rest)).length =
              1 + (strInlines ds).length + 1 + (strInlines rest).length := by
            rw [hIeq]
            simp [List.length_append, stars_length]
            omega
          cases fuel with
          | zero =>
            exfalso
            rw [hlenI] at hlen
            omega
          | succ f =>
            have hlen1 : (strInlines ds ++ stars 1 ++ strInlines rest).length ≤ f := by
              rw [hlenI] at hlen
              simp [List.length_append, stars_length]
              omega
            have hinner := ihdS f true 1 (strInlines rest) (Or.inl rfl) hdv hlen1
            have hlen2 : (strInlines rest).length ≤ f := by
              rw [hlenI] at hlen
              omega
            have hcont := ihrN f true hrv hlen2
            have hcc : ∀ w', (none : Option Nat) = some w' →
                (prev && decide (w' ≤ 1 + 0)) = false := fun w' h => nomatch h
            rw [hIeq, parseLvlF_delim_step f none prev 1 0 e mid (strInlines rest) ds
              ⟨rest, [], [], false⟩ he1 he2 hsd (by decide) hcc hinner hcont]
            rfl
      | strong ds =>
        have hszd : inlinesSize ds ≤ n := by
          simp only [inlinesSize_cons, inlineSize] at hsz
          omega
        obtain ⟨ihdS, _⟩ := ih ds hszd
        constructor
        · intro fuel prev w after hw hv hlen
          have hw1 : 1 ≤ w := by rcases hw with rfl | rfl <;> omega
          simp only [listValidB, Bool.and_eq_true] at hv
          obtain ⟨⟨hm, hnv⟩, hrv⟩ := hv
          simp only [nodeValidB, Bool.and_eq_true] at hnv
          obtain ⟨hfo, hdv⟩ := hnv
          obtain ⟨j, e, mid, he1, he2, hsd⟩ := strong_shape ds hfo hdv
          have hIeq : strInlines (.strong ds :: rest) ++ stars w ++ after =
              stars 2 ++ strInlines ds ++ stars 2 ++
                (strInlines rest ++ (stars w ++ after)) := by
            rw [strInlines_cons, strInline_strong]
            simp only [List.append_assoc]
          have hlenI : (strInlines (.strong ds :: rest) ++ stars w ++ after).length =
              2 + (strInlines ds).length + 2 +
                ((strInlines rest).length + (w + after.length)) := by
            rw [hIeq]
            simp [List.length_append, stars_length]
            omega
          cases fuel with
          | zero =>
            exfalso
            rw [hlenI] at hlen
            omega
          | succ f =>
            have hlen1 : (strInlines ds ++ stars 2 ++
                (strInlines rest ++ (stars w ++ after))).length ≤ f := by
              rw [hlenI] at hlen
              simp [List.length_append, stars_length]
              omega
            have hinner := ihdS f true 2 (strInlines rest ++ (stars w ++ after))
              (Or.inr rfl) hdv hlen1
            have hlen2 : (strInlines rest ++ stars w ++ after).length ≤ f := by
              rw [hlenI] at hlen
              simp [List.length_append, stars_length]
              omega
            have hcont := ihrS f true w after hw hrv hlen2
            rw [List.append_assoc] at hcont
            have hp : prev = false := by simpa using hm
            have hcc : ∀ w', (some w : Option Nat) = some w' →
                (prev && decide (w' ≤ 2 + j)) = false := by
              intro w' _
              rw [hp]
              rfl
            rw [hIeq, parseLvlF_delim_step f (some w) prev 2 j e mid
              (strInlines rest ++ (stars w ++ after)) ds ⟨rest, [], after, true⟩
              he1 he2 hsd (if_pos (by omega)) hcc hinner hcont]
            rfl
        · intro fuel prev hv hlen
          simp only [listValidB, Bool.true_and, Bool.and_eq_true] at hv
          obtain ⟨hnv, hrv⟩ := hv
          simp only [nodeValidB, Bool.and_eq_true] at hnv
          obtain ⟨hfo, hdv⟩ := hnv
          obtain ⟨j, e, mid, he1, he2, hsd⟩ := strong_shape ds hfo hdv
          have hIeq : strInlines (.strong ds :: rest) =
              stars 2 ++ strInlines ds ++ stars 2 ++ strInlines rest := by
            rw [strInlines_cons, strInline_strong]
          have hlenI : (strInlines (.strong ds :: rest)).length =
              2 + (strInlines ds).length + 2 + (strInlines rest).length := by
            rw [hIeq]
            simp [List.length_append, stars_length]
            omega
          cases fuel with
          | zero =>
            exfalso
            rw [hlenI] at hlen
            omega
          | succ f =>
            have hlen1 : (strInlines ds ++ stars 2 ++ strInlines rest).length ≤ f := by
              rw [hlenI] at hlen
              simp [List.length_append, stars_length]
              omega
            have hinner := ihdS f true 2 (strInlines rest) (Or.inr rfl) hdv hlen1
            have hlen2 : (strInlines rest).length ≤ f := by
              rw [hlenI] at hlen
              omega
            have hcont := ihrN f true hrv hlen2
            have hcc : ∀ w', (none : Option Nat) = some w' →
                (prev && decide (w' ≤ 2 + j)) = false := fun w' h => nomatch h
            rw [hIeq, parseLvlF_delim_step f none prev 2 j e mid (strInlines rest) ds
              ⟨rest, [], [], false⟩ he1 he2 hsd (if_pos (by omega)) hcc hinner hcont]
            rfl

/-- Stringifying the top-level inline parse reproduces the input exactly:
the inline parser drops nothing and invents nothing. -/
theorem strInlines_parseInl (cs : List Char) : strInlines (parseInl cs).1 = cs :=
  ((parseLvlF_lossless cs.length none false cs (le_refl _)).2
    (parseLvlF_none_not_closed cs.length false cs)).1

/-- A structurally valid inline tree reparses from its stringification to
itself, with no warnings. -/
theorem parseInl_valid (cs : List Inline) (h : inlValidB cs = true) :
    parseInl (strInlines cs) = (cs, []) := by
  have hr := (parseLvlF_valid (inlinesSize cs) cs (le_refl _)).2
    (strInlines cs).length false h (le_refl _)
  show ((parseLvlF (strInlines cs).length none false (strInlines cs)).nodes,
    (parseLvlF (strInlines cs).length none false (strInlines cs)).warnings) = (cs, [])
  rw [hr]

/-- Valid inline content stringifies without newlines. -/
theorem strInlines_no_newline :
    ∀ (n : Nat) (cs : List Inline) (w : Option Nat) (p : Bool), inlinesSize cs ≤ n →
      listValidB w p cs = true → '\n' ∉ strInlines cs := by
  intro n
  induction n with
  | zero =>
    intro cs w p hsz _
    have hnil : cs = [] := by
      cases cs with
      | nil => rfl
      | cons i is =>
        exfalso
        have := one_le_inlineSize i
        simp only [inlinesSize_cons] at hsz
        omega
    subst hnil
    simp [strInlines]
  | succ n ih =>
    intro cs w p hsz hv
    cases cs with
    | nil => simp [strInlines]
    | cons i rest =>
      have hszr : inlinesSize rest ≤ n := by
        have := one_le_inlineSize i
        simp only [inlinesSize_cons] at hsz
        omega
      cases i with
      | text s =>
        simp only [listValidB, Bool.and_eq_true] at hv
        obtain ⟨⟨htv, _⟩, hrv⟩ := hv
        simp only [textValidB, Bool.and_eq_true, decide_eq_true_eq] at htv
        obtain ⟨⟨_, _⟩, hnnl⟩ := htv
        rw [strInlines_cons]
        intro hmem
        rcases List.mem_append.mp hmem with h | h
        · exact hnnl h
        · exact ih rest w _ hszr hrv h
      | emphasis ds =>
        have hszd : inlinesSize ds ≤ n := by
          simp only [inlinesSize_cons, inlineSize] at hsz
          omega
        simp only [listValidB, Bool.and_eq_true] at hv
        obtain ⟨⟨_, hnv⟩, hrv⟩ := hv
        simp only [nodeValidB, Bool.and_eq_true] at hnv
        obtain ⟨_, hdv⟩ := hnv
        rw [strInlines_cons, strInline_emphasis]
        intro hmem
        rcases List.mem_append.mp hmem with h | h
        · rcases List.mem_append.mp h with h2 | h2
          · rcases List.mem_append.mp h2 with h3 | h3
            · simp [stars] at h3
            · exact ih ds (some 1) true hszd hdv h3
          · simp [stars] at h2
        · exact ih rest w _ hszr hrv h
      | strong ds =>
        have hszd : inlinesSize ds ≤ n := by
          simp only [inlinesSize_cons, inlineSize] at hsz
          omega
        simp only [listValidB, Bool.and_eq_true] at hv
        obtain ⟨⟨_, hnv⟩, hrv⟩ := hv
        simp only [nodeValidB, Bool.and_eq_true] at hnv
        obtain ⟨_, hdv⟩ := hnv
        rw [strInlines_cons, strInline_strong]
        intro hmem
        rcases List.mem_append.mp hmem with h | h
        · rcases List.mem_append.mp h with h2 | h2
          · rcases List.mem_append.mp h2 with h3 | h3
            · simp [stars] at h3
            · exact ih ds (some 2) true hszd hdv h3
          · simp [stars] at h2
        · exact ih rest w _ hszr hrv h

/-! ## Block classifier lemmas -/

theorem drop_replicate_append {α : Type} (n : Nat) (a : α) (b : List α) :
    (List.replicate n a ++ b).drop n = b := by
  rw [List.drop_append_of_le_length (by simp)]
  simp

theorem splitLines_ne_nil (cs : List Char) : splitLines cs ≠ [] :=
  splitOnChar_ne_nil '\n' cs

theorem isBlank_cons (c : Char) (l : List Char) (h : (c == ' ' || c == '\t') = false) :
    isBlank (c :: l) = false := by
  simp only [isBlank, List.all_cons, h, Bool.false_and]

theorem isIndentedLine_cons (c : Char) (l : List Char) (h : ¬c = ' ') :
    isIndentedLine (c :: l) = false := by
  unfold isIndentedLine
  have h4 : decide ((c :: l).take 4 = fourSpaces) = false := by
    apply decide_eq_false
    intro he
    rw [List.take_succ_cons] at he
    rw [show fourSpaces = ' ' :: "   ".data from rfl] at he
    exact h (List.cons.inj he).1
  rw [h4, Bool.false_and]

theorem isBreakLine_cons (c : Char) (l : List Char) (h : ¬c = '-') :
    isBreakLine (c :: l) = false := by
  simp [isBreakLine, List.all_cons, h]

theorem isBreakLine_dash_space (l : List Char) : isBreakLine ('-' :: ' ' :: l) = false := by
  simp [isBreakLine, List.all_cons]

theorem headingOf_cons_ne (c : Char) (l : List Char) (h : ¬c = '#') :
    headingOf (c :: l) = none := by
  unfold headingOf
  rw [List.takeWhile_cons_of_neg (by simp [h])]
  simp

theorem isFenceLine_cons_ne (c : Char) (l : List Char) (h : ¬c = backtick) :
    isFenceLine (c :: l) = false := by
  unfold isFenceLine
  apply decide_eq_false
  intro he
  rw [List.take_succ_cons] at he
  have h1 : (c :: List.take 2 l).head? = some backtick := by rw [he]; rfl
  simp only [List.head?_cons, Option.some.injEq] at h1
  exact h h1

theorem isQuoteLine_cons_ne (c : Char) (l : List Char) (h : ¬c = '>') :
    isQuoteLine (c :: l) = false := by
  simp [isQuoteLine, h]

theorem isUItemLine_cons_ne (c : Char) (l : List Char) (h : ¬c = '-') :
    isUItemLine (c :: l) = false := by
  unfold isUItemLine
  apply decide_eq_false
  intro he
  rw [List.take_succ_cons] at he
  have h1 : (c :: List.take 1 l).head? = some '-' := by rw [he]; rfl
  simp only [List.head?_cons, Option.some.injEq] at h1
  exact h h1

theorem uContLine_cons_ne (c : Char) (l : List Char) (h : ¬c = ' ') :
    uContLine (c :: l) = false := by
  unfold uContLine
  apply decide_eq_false
  intro he
  rw [List.take_succ_cons] at he
  have h1 : (c :: List.take 1 l).head? = some ' ' := by rw [he]; rfl
  simp only [List.head?_cons, Option.some.injEq] at h1
  exact h h1

theorem oContLine_cons_ne (c : Char) (l : List Char) (h : ¬c = ' ') :
    oContLine (c :: l) = false := by
  unfold oContLine
  apply decide_eq_false
  intro he
  rw [List.take_succ_cons] at he
  have h1 : (c :: List.take 2 l).head? = some ' ' := by rw [he]; rfl
  simp only [List.head?_cons, Option.some.injEq] at h1
  exact h h1

theorem oItemContentOf_cons_ne (c : Char) (l : List Char) (h : isDigitChar c = false) :
    oItemContentOf (c :: l) = none := by
  unfold oItemContentOf
  rw [List.takeWhile_cons_of_neg (by simp [h])]
  simp

theorem isUItemLine_marker (x : List Char) : isUItemLine ('-' :: ' ' :: x) = true := rfl

theorem uContLine_marker (x : List Char) : uContLine (' ' :: ' ' :: x) = true := rfl

theorem oContLine_marker (x : List Char) : oContLine (' ' :: ' ' :: ' ' :: x) = true := rfl

theorem isQuoteLine_marker (x : List Char) : isQuoteLine ('>' :: x) = true := by
  simp [isQuoteLine]

theorem stripQuoteMarker_marker (x : List Char) : stripQuoteMarker ('>' :: ' ' :: x) = x := rfl

theorem digitChar_facts (d : Nat) :
    isDigitChar (digitChar d) = true ∧ (digitChar d == ' ' || digitChar d == '\t') = false ∧
    ¬digitChar d = ' ' ∧ ¬digitChar d = '-' ∧ ¬digitChar d = '#' ∧
    ¬digitChar d = backtick ∧ ¬digitChar d = '>' := by
  unfold digitChar
  split <;> exact (by decide)

theorem natDigitsF_mem : ∀ (fuel n : Nat) (c : Char), c ∈ natDigitsF fuel n →
    ∃ d, c = digitChar d := by
  intro fuel
  induction fuel with
  | zero =>
    intro n c h
    simp [natDigitsF] at h
  | succ f ih =>
    intro n c h
    by_cases hn : n = 0
    · simp [natDigitsF, hn] at h
    · simp only [natDigitsF, if_neg hn] at h
      rcases List.mem_append.mp h with h1 | h1
      · exact ih (n / 10) c h1
      · exact ⟨n % 10, by simpa using h1⟩

theorem natDigits_mem (n : Nat) (c : Char) (hc : c ∈ natDigits n) : ∃ d, c = digitChar d := by
  unfold natDigits at hc
  by_cases h : n = 0
  · rw [if_pos h] at hc
    refine ⟨0, ?_⟩
    simpa [digitChar] using hc
  · rw [if_neg h] at hc
    exact natDigitsF_mem n n c hc

theorem natDigitsF_ne_nil (fuel n : Nat) (h0 : ¬n = 0) (hf : n ≤ fuel) :
    natDigitsF fuel n ≠ [] := by
  cases fuel with
  | zero => omega
  | succ f =>
    simp only [natDigitsF, if_neg h0]
    simp

theorem natDigits_ne_nil (n : Nat) (h : 1 ≤ n) : natDigits n ≠ [] := by
  unfold natDigits
  rw [if_neg (by omega)]
  exact natDigitsF_ne_nil n n (by omega) le_rfl

theorem isDigitChar_dot : isDigitChar '.' = false := by decide

theorem headingOf_build (n : Nat) (T : List Char) (h1 : 1 ≤ n) (h6 : n ≤ 6) :
    headingOf (List.replicate n '#' ++ ' ' :: T) = some (n, T) := by
  unfold headingOf
  have htw := takeWhile_append_of_all (fun c => decide (c = '#'))
    (List.replicate n '#') (' ' :: T)
    (by
      intro x hx
      simp [List.eq_of_mem_replicate hx])
    (by
      intro x hx
      simp only [List.head?_cons, Option.some.injEq] at hx
      subst hx
      decide)
  rw [htw.1, List.length_replicate]
  show (if 1 ≤ n ∧ n ≤ 6 ∧ ((List.replicate n '#' ++ ' ' :: T).drop n).head? = some ' ' then
      some (n, ((List.replicate n '#' ++ ' ' :: T).drop n).tail) else none) = some (n, T)
  rw [drop_replicate_append]
  rw [if_pos ⟨h1, h6, rfl⟩]
  rfl

theorem isFenceLine_build (F : Nat) (lang : List Char) (hF : 3 ≤ F) :
    isFenceLine (List.replicate F backtick ++ lang) = true := by
  unfold isFenceLine
  have h3 : (List.replicate F backtick ++ lang).take 3 = fenceRun := by
    rw [List.take_append_of_le_length (by simp; omega), List.take_replicate]
    have hm : min 3 F = 3 := by omega
    rw [hm]
    rfl
  simp [h3]

theorem fence_takeWhile (F : Nat) (lang : List Char)
    (hl : ∀ x, lang.head? = some x → ¬x = backtick) :
    (List.replicate F backtick ++ lang).takeWhile (fun c => decide (c = backtick)) =
      List.replicate F backtick :=
  (takeWhile_append_of_all (fun c => decide (c = backtick)) (List.replicate F backtick) lang
    (by
      intro x hx
      simp [List.eq_of_mem_replicate hx])
    (by
      intro x hx
      simp [hl x hx])).1

theorem isCloseFence_replicate (F : Nat) (h : 1 ≤ F) :
    isCloseFence F (List.replicate F backtick) = true := by
  simp only [isCloseFence, allBacktick, List.length_replicate]
  have h1 : List.replicate F backtick ≠ [] := by
    intro he
    have := congrArg List.length he
    simp at this
    omega
  have h2 : (List.replicate F backtick).all (fun c => decide (c = backtick)) = true := by
    rw [List.all_eq_true]
    intro x hx
    simp [List.eq_of_mem_replicate hx]
  simp [h1, h2]

theorem isCloseFence_false (F : Nat) (l : List Char)
    (h : allBacktick l = false ∨ l.length < F) : isCloseFence F l = false := by
  unfold isCloseFence
  rcases h with h | h
  · rw [h, Bool.false_and]
  · have hd : decide (F ≤ l.length) = false := by
      simp
      omega
    rw [hd, Bool.and_false]

theorem maxAllBacktickLen_bound :
    ∀ (ls : List (List Char)) (l : List Char), l ∈ ls → allBacktick l = true →
      l.length ≤ maxAllBacktickLen ls := by
  intro ls
  induction ls with
  | nil =>
    intro l hm
    simp at hm
  | cons a as ih =>
    intro l hm hb
    have hfold : maxAllBacktickLen (a :: as) =
        if allBacktick a then max a.length (maxAllBacktickLen as) else maxAllBacktickLen as :=
      rfl
    rcases List.mem_cons.mp hm with rfl | hm2
    · rw [hfold, if_pos hb]
      exact le_max_left _ _
    · rw [hfold]
      split
      · exact le_trans (ih l hm2 hb) (le_max_right _ _)
      · exact ih l hm2 hb

theorem prefixLines_map (m : List Char) (ls : List (List Char)) :
    prefixLines m m ls = ls.map (fun x => m ++ x) := by
  cases ls <;> simp [prefixLines]

theorem prefixLines_ne_nil (f c : List Char) (ls : List (List Char)) (h : ls ≠ []) :
    prefixLines f c ls ≠ [] := by
  cases ls with
  | nil => exact absurd rfl h
  | cons a as => simp [prefixLines]

/-! ## List item collection lemmas -/

theorem strUItems_expand (it : List Block) (its : List (List Block)) (rest : List (List Char)) :
    ∃ l0 ltail, splitLines (strBlocks it) = l0 :: ltail ∧
      strUItems (it :: its) ++ rest =
        ('-' :: ' ' :: l0) ::
          ((ltail.map fun x => ' ' :: ' ' :: x) ++ (strUItems its ++ rest)) := by
  obtain ⟨l0, ltail, hsp⟩ := List.exists_cons_of_ne_nil (splitLines_ne_nil (strBlocks it))
  refine ⟨l0, ltail, hsp, ?_⟩
  show (prefixLines uMarker contIndent2 (splitLines (strBlocks it)) ++ strUItems its) ++ rest = _
  rw [hsp]
  show (((uMarker ++ l0) :: ltail.map fun x => contIndent2 ++ x) ++ strUItems its) ++ rest = _
  simp only [List.cons_append, List.append_assoc]
  rfl

theorem strOItems_expand (s : Nat) (it : List Block) (its : List (List Block))
    (rest : List (List Char)) :
    ∃ l0 ltail, splitLines (strBlocks it) = l0 :: ltail ∧
      strOItems s (it :: its) ++ rest =
        (natDigits s ++ '.' :: ' ' :: l0) ::
          ((ltail.map fun x => ' ' :: ' ' :: ' ' :: x) ++ (strOItems (s + 1) its ++ rest)) := by
  obtain ⟨l0, ltail, hsp⟩ := List.exists_cons_of_ne_nil (splitLines_ne_nil (strBlocks it))
  refine ⟨l0, ltail, hsp, ?_⟩
  show (prefixLines (natDigits s ++ dotSpace) contIndent3 (splitLines (strBlocks it)) ++
      strOItems (s + 1) its) ++ rest = _
  rw [hsp]
  show (((natDigits s ++ dotSpace ++ l0) :: ltail.map fun x => contIndent3 ++ x) ++
      strOItems (s + 1) its) ++ rest = _
  simp only [List.cons_append, List.append_assoc]
  rfl

theorem natDigits_head (s : Nat) (hs : 1 ≤ s) :
    ∃ d r, natDigits s = digitChar d :: r := by
  obtain ⟨c, r, hc⟩ := List.exists_cons_of_ne_nil (natDigits_ne_nil s hs)
  obtain ⟨d, rfl⟩ := natDigits_mem s c (by rw [hc]; exact List.mem_cons_self _ _)
  exact ⟨d, r, hc⟩

theorem oItemContentOf_build (s : Nat) (hs : 1 ≤ s) (x : List Char) :
    oItemContentOf (natDigits s ++ '.' :: ' ' :: x) = some x := by
  unfold oItemContentOf
  have htw := takeWhile_append_of_all isDigitChar (natDigits s) ('.' :: ' ' :: x)
    (by
      intro c hc
      obtain ⟨d, rfl⟩ := natDigits_mem s c hc
      exact (digitChar_facts d).1)
    (by
      intro c hc
      simp only [List.head?_cons, Option.some.injEq] at hc
      rw [← hc]
      exact isDigitChar_dot)
  rw [htw.1]
  have hlen0 : (natDigits s).length ≠ 0 := by
    intro h
    exact natDigits_ne_nil s hs (List.length_eq_zero.mp h)
  have hdrop : (natDigits s ++ '.' :: ' ' :: x).drop (natDigits s).length = '.' :: ' ' :: x := by
    rw [List.drop_append_of_le_length le_rfl]
    simp
  have hcond : ((natDigits s ++ '.' :: ' ' :: x).drop (natDigits s).length).take 2 = dotSpace := by
    rw [hdrop]
    rfl
  rw [if_pos ⟨hlen0, hcond⟩, ← List.drop_drop, hdrop]
  rfl

theorem strUItems_length (items : List (List Block)) (rest : List (List Char)) :
    items.length ≤ (strUItems items ++ rest).length := by
  induction items generalizing rest with
  | nil => simp
  | cons it its ih =>
    obtain ⟨l0, ltail, hsp, hexp⟩ := strUItems_expand it its rest
    rw [hexp]
    have h2 := ih rest
    simp only [List.length_cons, List.length_append, List.length_map] at h2 ⊢
    omega

theorem strOItems_length (s : Nat) (items : List (List Block)) (rest : List (List Char)) :
    items.length ≤ (strOItems s items ++ rest).length := by
  induction items generalizing rest s with
  | nil => simp
  | cons it its ih =>
    obtain ⟨l0, ltail, hsp, hexp⟩ := strOItems_expand s it its rest
    rw [hexp]
    have h2 := ih (s + 1) rest
    simp only [List.length_cons, List.length_append, List.length_map] at h2 ⊢
    omega

theorem strUItems_head_uCont (its : List (List Block)) (rest : List (List Char))
    (hrest : ∀ x, rest.head? = some x → uContLine x = false) :
    ∀ x, (strUItems its ++ rest).head? = some x → uContLine x = false := by
  cases its with
  | nil =>
    intro x hx
    exact hrest x (by simpa [strUItems] using hx)
  | cons it2 its2 =>
    intro x hx
    obtain ⟨l2, lt2, hsp2, hexp2⟩ := strUItems_expand it2 its2 rest
    rw [hexp2] at hx
    simp only [List.head?_cons, Option.some.injEq] at hx
    rw [← hx]
    exact uContLine_cons_ne '-' _ (by decide)

theorem strOItems_head_oCont (s : Nat) (hs : 1 ≤ s) (its : List (List Block))
    (rest : List (List Char))
    (hrest : ∀ x, rest.head? = some x → oContLine x = false) :
    ∀ x, (strOItems s its ++ rest).head? = some x → oContLine x = false := by
  cases its with
  | nil =>
    intro x hx
    exact hrest x (by simpa [strOItems] using hx)
  | cons it2 its2 =>
    intro x hx
    obtain ⟨l2, lt2, hsp2, hexp2⟩ := strOItems_expand s it2 its2 rest
    rw [hexp2] at hx
    simp only [List.head?_cons, Option.some.injEq] at hx
    obtain ⟨d, r, hd⟩ := natDigits_head s hs
    rw [← hx, hd, List.cons_append]
    exact oContLine_cons_ne (digitChar d) _ (digitChar_facts d).2.2.1

theorem collectItemsU_strU :
    ∀ (items : List (List Block)) (rest : List (List Char)) (fuelC : Nat),
      items.length ≤ fuelC →
      (∀ x, rest.head? = some x → isUItemLine x = false ∧ uContLine x = false) →
      collectItemsU fuelC (strUItems items ++ rest) =
        (items.map fun it => splitLines (strBlocks it), rest) := by
  intro items
  induction items with
  | nil =>
    intro rest fuelC _ hrest
    show collectItemsU fuelC ([] ++ rest) = ([], rest)
    rw [List.nil_append]
    cases fuelC with
    | zero => rfl
    | succ fc =>
      cases rest with
      | nil => rfl
      | cons r rs =>
        have hr := (hrest r rfl).1
        simp only [collectItemsU, hr, Bool.false_eq_true, if_false]
  | cons it its ih =>
    intro rest fuelC hlen hrest
    obtain ⟨l0, ltail, hsp, hexp⟩ := strUItems_expand it its rest
    cases fuelC with
    | zero => simp at hlen
    | succ fc =>
      rw [hexp]
      have htw := takeWhile_append_of_all uContLine (ltail.map fun x => ' ' :: ' ' :: x)
        (strUItems its ++ rest)
        (by
          intro x hx
          obtain ⟨y, _, hy⟩ := List.mem_map.mp hx
          rw [← hy]
          exact uContLine_marker y)
        (by
          intro x hx
          exact strUItems_head_uCont its rest (fun y hy => (hrest y hy).2) x hx)
      simp only [collectItemsU, isUItemLine_marker, if_true, htw.1, htw.2]
      have hih := ih rest fc (by simp at hlen; omega) hrest
      rw [hih]
      have hgrp : (('-' :: ' ' :: l0).drop 2 :: (ltail.map fun x => ' ' :: ' ' :: x).map
          fun x => x.drop 2) = l0 :: ltail := by
        simp only [List.map_map]
        have hmap : ((ltail.map fun x => ' ' :: ' ' :: x).map fun x => x.drop 2) = ltail := by
          rw [List.map_map]
          have : ((fun x : List Char => x.drop 2) ∘ fun x => ' ' :: ' ' :: x) =
              fun x : List Char => x := rfl
          rw [this]
          exact List.map_id' ltail
        rw [List.map_map] at hmap
        exact congrArg (fun t => ('-' :: ' ' :: l0).drop 2 :: t) hmap
      rw [hgrp, ← hsp]
      rfl

theorem collectItemsO_strO :
    ∀ (items : List (List Block)) (s : Nat) (rest : List (List Char)) (fuelC : Nat),
      1 ≤ s →
      items.length ≤ fuelC →
      (∀ x, rest.head? = some x → oItemContentOf x = none ∧ oContLine x = false) →
      collectItemsO fuelC (strOItems s items ++ rest) =
        (items.map fun it => splitLines (strBlocks it), rest) := by
  intro items
  induction items with
  | nil =>
    intro s rest fuelC _ _ hrest
    show collectItemsO fuelC ([] ++ rest) = ([], rest)
    rw [List.nil_append]
    cases fuelC with
    | zero => rfl
    | succ fc =>
      cases rest with
      | nil => rfl
      | cons r rs =>
        have hr := (hrest r rfl).1
        simp only [collectItemsO, hr]
  | cons it its ih =>
    intro s rest fuelC hs hlen hrest
    obtain ⟨l0, ltail, hsp, hexp⟩ := strOItems_expand s it its rest
    cases fuelC with
    | zero => simp at hlen
    | succ fc =>
      rw [hexp]
      have htw := takeWhile_append_of_all oContLine (ltail.map fun x => ' ' :: ' ' :: ' ' :: x)
        (strOItems (s + 1) its ++ rest)
        (by
          intro x hx
          obtain ⟨y, _, hy⟩ := List.mem_map.mp hx
          rw [← hy]
          exact oContLine_marker y)
        (by
          intro x hx
          exact strOItems_head_oCont (s + 1) (by omega) its rest
            (fun y hy => (hrest y hy).2) x hx)
      simp only [collectItemsO, oItemContentOf_build s hs l0, htw.1, htw.2]
      have hih := ih (s + 1) rest fc (by omega) (by simp at hlen; omega) hrest
      rw [hih]
      have hmap : ((ltail.map fun x => ' ' :: ' ' :: ' ' :: x).map fun x => x.drop 3) =
          ltail := by
        rw [List.map_map]
        have hc : ((fun x : List Char => x.drop 3) ∘ fun x => ' ' :: ' ' :: ' ' :: x) =
            fun x : List Char => x := rfl
        rw [hc]
        exact List.map_id' ltail
      rw [hmap, ← hsp]
      rfl

/-! ## Line measure and structural auxiliary lemmas -/

theorem parseLinesF_nil (fuel : Nat) : parseLinesF fuel [] = ([], []) := by
  cases fuel <;> rfl

theorem parseLinesF_blank_nil (fuel : Nat) : (parseLinesF fuel [([] : List Char)]).1 = [] := by
  cases fuel with
  | zero => rfl
  | succ f =>
    simp only [parseLinesF, show isBlank [] = true from rfl, if_true]
    rw [parseLinesF_nil]

theorem splitLines_newline_cons (x : List Char) :
    splitLines ('\n' :: x) = [] :: splitLines x := by
  simp [splitLines, splitOnChar]

theorem restOK_facts (rest : List (List Char)) (h : rest = [] ∨ rest.head? = some []) :
    ∀ x, rest.head? = some x → isParagraphLine x = false ∧ isQuoteLine x = false ∧
      isUItemLine x = false ∧ uContLine x = false ∧ oContLine x = false ∧
      oItemContentOf x = none ∧ isIndentedLine x = false := by
  intro x hx
  rcases h with rfl | h
  · simp at hx
  · rw [h, Option.some.injEq] at hx
    rw [← hx]
    refine ⟨rfl, rfl, rfl, rfl, rfl, rfl, rfl⟩

theorem isParagraphLine_components (l : List Char) (h : isParagraphLine l = true) :
    isBlank l = false ∧ isIndentedLine l = false ∧ isBreakLine l = false ∧
    headingOf l = none ∧ isFenceLine l = false ∧ isQuoteLine l = false ∧
    isUItemLine l = false ∧ oItemContentOf l = none := by
  simp only [isParagraphLine, Bool.and_eq_true, Bool.not_eq_true'] at h
  obtain ⟨⟨⟨⟨⟨⟨⟨h1, h2⟩, h3⟩, h4⟩, h5⟩, h6⟩, h7⟩, h8⟩ := h
  refine ⟨h1, h2, h3, ?_, h5, h6, h7, ?_⟩
  · exact Option.isNone_iff_eq_none.mp h4
  · cases ho : oItemContentOf l with
    | none => rfl
    | some c =>
      rw [ho] at h8
      simp at h8

theorem lineMeasure_nil : lineMeasure [] = 0 := rfl

theorem lineMeasure_cons (l : List Char) (ls : List (List Char)) :
    lineMeasure (l :: ls) = l.length + 1 + lineMeasure ls := by
  simp [lineMeasure]

theorem lineMeasure_append (a b : List (List Char)) :
    lineMeasure (a ++ b) = lineMeasure a + lineMeasure b := by
  simp [lineMeasure]

theorem one_le_lineMeasure_of_ne_nil (ls : List (List Char)) (h : ls ≠ []) :
    1 ≤ lineMeasure ls := by
  cases ls with
  | nil => exact absurd rfl h
  | cons l ls =>
    rw [lineMeasure_cons]
    omega

theorem lineMeasure_map_quote (L : List (List Char)) :
    lineMeasure (L.map fun x => quoteMarker ++ x) = lineMeasure L + 2 * L.length := by
  induction L with
  | nil => rfl
  | cons l ls ih =>
    simp only [List.map_cons, lineMeasure_cons, ih, List.length_append, List.length_cons]
    have hq : quoteMarker.length = 2 := rfl
    rw [hq]
    omega

theorem lineMeasure_map_cons2 (L : List (List Char)) :
    lineMeasure (L.map fun x => ' ' :: ' ' :: x) = lineMeasure L + 2 * L.length := by
  induction L with
  | nil => rfl
  | cons l ls ih =>
    simp only [List.map_cons, lineMeasure_cons, ih, List.length_cons]
    omega

theorem lineMeasure_map_cons3 (L : List (List Char)) :
    lineMeasure (L.map fun x => ' ' :: ' ' :: ' ' :: x) = lineMeasure L + 3 * L.length := by
  induction L with
  | nil => rfl
  | cons l ls ih =>
    simp only [List.map_cons, lineMeasure_cons, ih, List.length_cons]
    omega

theorem lineMeasure_uitem_le :
    ∀ (items : List (List Block)) (rest : List (List Char)) (it : List Block), it ∈ items →
      lineMeasure (splitLines (strBlocks it)) + 2 ≤ lineMeasure (strUItems items ++ rest) := by
  intro items
  induction items with
  | nil =>
    intro rest it hm
    simp at hm
  | cons it0 its ih =>
    intro rest it hm
    obtain ⟨l0, ltail, hsp, hexp⟩ := strUItems_expand it0 its rest
    rw [hexp, lineMeasure_cons, lineMeasure_append, lineMeasure_map_cons2,
      lineMeasure_append]
    rcases List.mem_cons.mp hm with rfl | hm2
    · rw [hsp, lineMeasure_cons]
      simp only [List.length_cons]
      omega
    · have := ih rest it hm2
      rw [lineMeasure_append] at this
      simp only [List.length_cons]
      omega

theorem lineMeasure_oitem_le :
    ∀ (items : List (List Block)) (s : Nat) (rest : List (List Char)) (it : List Block),
      it ∈ items →
      lineMeasure (splitLines (strBlocks it)) + 2 ≤
        lineMeasure (strOItems s items ++ rest) := by
  intro items
  induction items with
  | nil =>
    intro s rest it hm
    simp at hm
  | cons it0 its ih =>
    intro s rest it hm
    obtain ⟨l0, ltail, hsp, hexp⟩ := strOItems_expand s it0 its rest
    rw [hexp, lineMeasure_cons, lineMeasure_append, lineMeasure_map_cons3,
      lineMeasure_append]
    rcases List.mem_cons.mp hm with rfl | hm2
    · rw [hsp, lineMeasure_cons]
      simp only [List.length_append, List.length_cons]
      omega
    · have := ih (s + 1) rest it hm2
      rw [lineMeasure_append] at this
      simp only [List.length_append, List.length_cons]
      omega

theorem one_le_blockSize (b : Block) : 1 ≤ blockSize b := by
  cases b <;> simp [blockSize]

theorem one_le_blocksSize (bs : List Block) : 1 ≤ blocksSize bs := by
  cases bs with
  | nil => simp [blocksSize]
  | cons b bs =>
    have := one_le_blockSize b
    simp [blocksSize]
    omega

theorem blocksSize_le_itemsSize_of_mem :
    ∀ (items : List (List Block)) (it : List Block), it ∈ items →
      blocksSize it ≤ itemsSize items := by
  intro items
  induction items with
  | nil =>
    intro it hm
    simp at hm
  | cons it0 its ih =>
    intro it hm
    rcases List.mem_cons.mp hm with rfl | hm2
    · simp only [itemsSize]
      omega
    · have h1 := ih it hm2
      have h2 := one_le_blocksSize it0
      simp only [itemsSize]
      omega

theorem stableItems_mem :
    ∀ (items : List (List Block)) (it : List Block), Block.stableItems items → it ∈ items →
      Block.stableList it := by
  intro items
  induction items with
  | nil =>
    intro it _ hm
    simp at hm
  | cons it0 its ih =>
    intro it hst hm
    rcases List.mem_cons.mp hm with rfl | hm2
    · exact hst.1
    · exact ih it hst.2 hm2

theorem strUItems_no_newline :
    ∀ (items : List (List Block)) (l : List Char), l ∈ strUItems items → '\n' ∉ l := by
  intro items
  induction items with
  | nil =>
    intro l hm
    simp [strUItems] at hm
  | cons it its ih =>
    intro l hm
    obtain ⟨l0, ltail, hsp, hexp⟩ := strUItems_expand it its []
    rw [List.append_nil] at hexp
    rw [hexp] at hm
    have hl0 : '\n' ∉ l0 :=
      not_newline_of_mem_splitLines (strBlocks it) l0 (by rw [hsp]; exact List.mem_cons_self _ _)
    rcases List.mem_cons.mp hm with rfl | hm2
    · intro hmem
      simp only [List.mem_cons] at hmem
      rcases hmem with h | h | h
      · exact absurd h (by decide)
      · exact absurd h (by decide)
      · exact hl0 h
    · rcases List.mem_append.mp hm2 with h2 | h2
      · obtain ⟨y, hy, hyl⟩ := List.mem_map.mp h2
        have hyn : '\n' ∉ y := not_newline_of_mem_splitLines (strBlocks it) y
          (by rw [hsp]; exact List.mem_cons_of_mem _ hy)
        rw [← hyl]
        intro hmem
        simp only [List.mem_cons] at hmem
        rcases hmem with h | h | h
        · exact absurd h (by decide)
        · exact absurd h (by decide)
        · exact hyn h
      · rw [List.append_nil] at h2
        exact ih l h2

theorem strOItems_no_newline :
    ∀ (items : List (List Block)) (s : Nat) (l : List Char), l ∈ strOItems s items →
      '\n' ∉ l := by
  intro items
  induction items with
  | nil =>
    intro s l hm
    simp [strOItems] at hm
  | cons it its ih =>
    intro s l hm
    obtain ⟨l0, ltail, hsp, hexp⟩ := strOItems_expand s it its []
    rw [List.append_nil] at hexp
    rw [hexp] at hm
    have hl0 : '\n' ∉ l0 :=
      not_newline_of_mem_splitLines (strBlocks it) l0 (by rw [hsp]; exact List.mem_cons_self _ _)
    rcases List.mem_cons.mp hm with rfl | hm2
    · intro hmem
      rcases List.mem_append.mp hmem with h | h
      · obtain ⟨d, hd⟩ := natDigits_mem s _ h
        have hne : ¬digitChar d = '\n' := by
          unfold digitChar
          split <;> decide
        exact hne hd.symm
      · simp only [List.mem_cons] at h
        rcases h with h | h | h
        · exact absurd h (by decide)
        · exact absurd h (by decide)
        · exact hl0 h
    · rcases List.mem_append.mp hm2 with h2 | h2
      · obtain ⟨y, hy, hyl⟩ := List.mem_map.mp h2
        have hyn : '\n' ∉ y := not_newline_of_mem_splitLines (strBlocks it) y
          (by rw [hsp]; exact List.mem_cons_of_mem _ hy)
        rw [← hyl]
        intro hmem
        simp only [List.mem_cons] at hmem
        rcases hmem with h | h | h | h
        · exact absurd h (by decide)
        · exact absurd h (by decide)
        · exact absurd h (by decide)
        · exact hyn h
      · rw [List.append_nil] at h2
        exact ih (s + 1) l h2

/-! ## Block reparse -/

theorem map_parse_items (fuel : Nat) :
    ∀ (gs : List (List Block)),
      (∀ it ∈ gs, (parseLinesF fuel (splitLines (strBlocks it))).1 = it) →
      ((gs.map fun it => splitLines (strBlocks it)).map (fun g => parseLinesF fuel g)).map
        (fun q => q.1) = gs := by
  intro gs
  induction gs with
  | nil => intro _; rfl
  | cons g gs ihg =>
    intro h
    simp only [List.map_cons]
    rw [h g (List.mem_cons_self _ _), ihg (fun x hx => h x (List.mem_cons_of_mem _ hx))]

/-- Reparsing one stable block from its stringified lines: the parser
consumes exactly the block's lines, reproduces the block, and continues on
the remaining lines, which start blank or end the input. -/
theorem reparse_aux :
    ∀ (n : Nat),
      (∀ (b : Block), blockSize b ≤ n → ∀ (fuel : Nat) (rest : List (List Char)),
        Block.stable b → (rest = [] ∨ rest.head? = some []) →
        lineMeasure (splitLines (strBlock b) ++ rest) ≤ fuel + 1 →
        (parseLinesF (fuel + 1) (splitLines (strBlock b) ++ rest)).1 =
          b :: (parseLinesF fuel rest).1) ∧
      (∀ (bs : List Block), blocksSize bs ≤ n → ∀ (fuel : Nat),
        Block.stableList bs → lineMeasure (splitLines (strBlocks bs)) ≤ fuel →
        (parseLinesF fuel (splitLines (strBlocks bs))).1 = bs) := by
  intro n
  induction n with
  | zero =>
    constructor
    · intro b hsz
      have := one_le_blockSize b
      omega
    · intro bs hsz
      have := one_le_blocksSize bs
      omega
  | succ n ihn =>
    obtain ⟨_ihB, ihL⟩ := ihn
    have hRB : ∀ (b : Block), blockSize b ≤ n + 1 → ∀ (fuel : Nat) (rest : List (List Char)),
        Block.stable b → (rest = [] ∨ rest.head? = some []) →
        lineMeasure (splitLines (strBlock b) ++ rest) ≤ fuel + 1 →
        (parseLinesF (fuel + 1) (splitLines (strBlock b) ++ rest)).1 =
          b :: (parseLinesF fuel rest).1 := by
      intro b hsz fuel rest hst hrest hmeas
      have hrestf := restOK_facts rest hrest
      cases b with
      | paragraph cs =>
        simp only [Block.stable] at hst
        obtain ⟨hinl, hpar⟩ := hst
        obtain ⟨l0, lt, hsp⟩ := List.exists_cons_of_ne_nil (splitLines_ne_nil (strInlines cs))
        have hsb : strBlock (Block.paragraph cs) = strInlines cs := rfl
        have hl0p : isParagraphLine l0 = true :=
          hpar l0 (by rw [hsp] at *; exact List.mem_cons_self _ _)
        obtain ⟨hb, hi, hbr, hh, hf, hq, hu, ho⟩ := isParagraphLine_components l0 hl0p
        have hltp : ∀ x ∈ lt, isParagraphLine x = true := fun x hx =>
          hpar x (by rw [hsp]; exact List.mem_cons_of_mem _ hx)
        have htw := takeWhile_append_of_all isParagraphLine lt rest hltp
          (fun x hx => (hrestf x hx).1)
        rw [hsb, hsp, List.cons_append]
        simp only [parseLinesF, hb, hi, hbr, hh, hf, hq, hu, ho, Bool.false_eq_true,
          if_false, htw.1, htw.2]
        have hjoin : joinLines (l0 :: lt) = strInlines cs := by
          rw [← hsp]
          exact joinLines_splitLines _
        rw [hjoin, hinl]
      | heading lv cs =>
        simp only [Block.stable] at hst
        obtain ⟨h1, h6, hinl, hnn⟩ := hst
        have hsb : strBlock (Block.heading lv cs) =
            List.replicate lv '#' ++ ' ' :: strInlines cs := rfl
        have hnl : '\n' ∉ List.replicate lv '#' ++ ' ' :: strInlines cs := by
          intro hm
          rcases List.mem_append.mp hm with h | h
          · exact absurd (List.eq_of_mem_replicate h) (by decide)
          · simp only [List.mem_cons] at h
            rcases h with h | h
            · exact absurd h (by decide)
            · exact hnn h
        have hone : splitLines (List.replicate lv '#' ++ ' ' :: strInlines cs) =
            [List.replicate lv '#' ++ ' ' :: strInlines cs] :=
          splitOnChar_of_not_mem '\n' _ hnl
        obtain ⟨m, rfl⟩ : ∃ m, lv = m + 1 := ⟨lv - 1, by omega⟩
        have hline : List.replicate (m + 1) '#' ++ ' ' :: strInlines cs =
            '#' :: (List.replicate m '#' ++ ' ' :: strInlines cs) := by
          rw [List.replicate_succ]
          rfl
        have hb := isBlank_cons '#' (List.replicate m '#' ++ ' ' :: strInlines cs) (by decide)
        have hi := isIndentedLine_cons '#' (List.replicate m '#' ++ ' ' :: strInlines cs)
          (by decide)
        have hbr := isBreakLine_cons '#' (List.replicate m '#' ++ ' ' :: strInlines cs)
          (by decide)
        have hhd : headingOf ('#' :: (List.replicate m '#' ++ ' ' :: strInlines cs)) =
            some (m + 1, strInlines cs) := by
          have h := headingOf_build (m + 1) (strInlines cs) (by omega) h6
          rwa [List.replicate_succ, List.cons_append] at h
        rw [hsb, hone, hline, List.singleton_append]
        simp only [parseLinesF, hb, hi, hbr, hhd, Bool.false_eq_true, if_false]
        rw [hinl]
      | codeBlock lang lit =>
        simp only [Block.stable] at hst
        obtain ⟨hlnn, hlhd⟩ := hst
        have hF3 : 3 ≤ fenceLenFor lit := le_max_left _ _
        have hsb : strBlock (Block.codeBlock lang lit) =
            (List.replicate (fenceLenFor lit) backtick ++ lang.data) ++
              '\n' :: (lit.data ++ '\n' :: List.replicate (fenceLenFor lit) backtick) := rfl
        have hAnl : '\n' ∉ List.replicate (fenceLenFor lit) backtick ++ lang.data := by
          intro hm
          rcases List.mem_append.mp hm with h | h
          · exact absurd (List.eq_of_mem_replicate h) (by decide)
          · exact hlnn h
        have hRnl : '\n' ∉ List.replicate (fenceLenFor lit) backtick := by
          intro hm
          exact absurd (List.eq_of_mem_replicate hm) (by decide)
        have hsplit : splitLines (strBlock (Block.codeBlock lang lit)) =
            (List.replicate (fenceLenFor lit) backtick ++ lang.data) ::
              (splitLines lit.data ++ [List.replicate (fenceLenFor lit) backtick]) := by
          rw [hsb]
          show splitOnChar '\n' ((List.replicate (fenceLenFor lit) backtick ++ lang.data) ++
            '\n' :: (lit.data ++ '\n' :: List.replicate (fenceLenFor lit) backtick)) = _
          rw [splitOnChar_append, splitOnChar_append,
            splitOnChar_of_not_mem '\n' _ hAnl, splitOnChar_of_not_mem '\n' _ hRnl]
          rfl
        obtain ⟨m, hm⟩ : ∃ m, fenceLenFor lit = m + 1 := ⟨fenceLenFor lit - 1, by omega⟩
        have hline : List.replicate (fenceLenFor lit) backtick ++ lang.data =
            backtick :: (List.replicate m backtick ++ lang.data) := by
          rw [hm, List.replicate_succ]
          rfl
        have hb : isBlank (List.replicate (fenceLenFor lit) backtick ++ lang.data) = false := by
          rw [hline]
          exact isBlank_cons backtick _ (by decide)
        have hi : isIndentedLine (List.replicate (fenceLenFor lit) backtick ++ lang.data) =
            false := by
          rw [hline]
          exact isIndentedLine_cons backtick _ (by decide)
        have hbr : isBreakLine (List.replicate (fenceLenFor lit) backtick ++ lang.data) =
            false := by
          rw [hline]
          exact isBreakLine_cons backtick _ (by decide)
        have hhd : headingOf (List.replicate (fenceLenFor lit) backtick ++ lang.data) =
            none := by
          rw [hline]
          exact headingOf_cons_ne backtick _ (by decide)
        have hfl : isFenceLine (List.replicate (fenceLenFor lit) backtick ++ lang.data) =
            true := isFenceLine_build _ lang.data hF3
        have hl_head : ∀ x, lang.data.head? = some x → ¬x = backtick := by
          intro x hx hxb
          exact hlhd (by rw [hx, hxb])
        have hn3 : ((List.replicate (fenceLenFor lit) backtick ++ lang.data).takeWhile
            (fun c => decide (c = backtick))).length = fenceLenFor lit := by
          rw [fence_takeWhile _ _ hl_head, List.length_replicate]
        have hmax : maxAllBacktickLen (splitLines lit.data) < fenceLenFor lit := by
          have : maxAllBacktickLen (splitLines lit.data) + 1 ≤ fenceLenFor lit :=
            le_max_right _ _
          omega
        have hcontent := takeWhile_append_of_all
          (fun x => !isCloseFence (fenceLenFor lit) x) (splitLines lit.data)
          ([List.replicate (fenceLenFor lit) backtick] ++ rest)
          (by
            intro x hx
            have hfx : isCloseFence (fenceLenFor lit) x = false := by
              apply isCloseFence_false
              cases hab : allBacktick x with
              | false => exact Or.inl rfl
              | true =>
                refine Or.inr ?_
                have := maxAllBacktickLen_bound (splitLines lit.data) x hx hab
                omega
            show (!isCloseFence (fenceLenFor lit) x) = true
            rw [hfx]
            rfl)
          (by
            intro x hx
            simp only [List.singleton_append, List.head?_cons, Option.some.injEq] at hx
            show (!isCloseFence (fenceLenFor lit) x) = false
            rw [← hx, isCloseFence_replicate (fenceLenFor lit) (by omega)]
            rfl)
        rw [hsplit, List.cons_append, List.append_assoc]
        simp only [List.singleton_append] at hcontent
        simp only [parseLinesF, hb, hi, hbr, hhd, hfl, Bool.false_eq_true, if_false, if_true,
          hn3, hcontent.1, hcontent.2, List.singleton_append]
        rw [joinLines_splitLines, drop_replicate_append]
      | thematicBreak =>
        have hone : splitLines (strBlock Block.thematicBreak) = ["---".data] :=
          splitOnChar_of_not_mem '\n' _ (by decide)
        rw [hone, List.singleton_append]
        have hb : isBlank "---".data = false := by decide
        have hi : isIndentedLine "---".data = false := by decide
        have hbr : isBreakLine "---".data = true := by decide
        simp only [parseLinesF, hb, hi, hbr, Bool.false_eq_true, if_false, if_true]
      | blockQuote children =>
        simp only [Block.stable] at hst
        obtain ⟨l0, lt, hspL⟩ :=
          List.exists_cons_of_ne_nil (splitLines_ne_nil (strBlocks children))
        have hsb : strBlock (Block.blockQuote children) =
            joinLines (prefixLines quoteMarker quoteMarker
              (splitLines (strBlocks children))) := rfl
        have hnnm : ∀ l ∈ (splitLines (strBlocks children)).map (fun x => quoteMarker ++ x),
            '\n' ∉ l := by
          intro l hl
          obtain ⟨y, hy, hyl⟩ := List.mem_map.mp hl
          rw [← hyl]
          intro hmem
          rcases List.mem_append.mp hmem with h | h
          · exact absurd h (by decide)
          · exact not_newline_of_mem_splitLines _ y hy h
        have hsl : splitLines (strBlock (Block.blockQuote children)) =
            (splitLines (strBlocks children)).map (fun x => quoteMarker ++ x) := by
          rw [hsb, prefixLines_map]
          refine splitLines_joinLines _ ?_ hnnm
          intro h
          exact splitLines_ne_nil (strBlocks children) (List.map_eq_nil_iff.mp h)
        have hq2 : ∀ x ∈ lt.map (fun x => quoteMarker ++ x), isQuoteLine x = true := by
          intro x hx
          obtain ⟨y, _, hy⟩ := List.mem_map.mp hx
          rw [← hy]
          exact isQuoteLine_marker _
        have htw := takeWhile_append_of_all isQuoteLine (lt.map fun x => quoteMarker ++ x)
          rest hq2 (fun x hx => (hrestf x hx).2.1)
        have hline : quoteMarker ++ l0 = '>' :: ' ' :: l0 := rfl
        have hb := isBlank_cons '>' (' ' :: l0) (by decide)
        have hi := isIndentedLine_cons '>' (' ' :: l0) (by decide)
        have hbr := isBreakLine_cons '>' (' ' :: l0) (by decide)
        have hhd := headingOf_cons_ne '>' (' ' :: l0) (by decide)
        have hf := isFenceLine_cons_ne '>' (' ' :: l0) (by decide)
        have hqt := isQuoteLine_marker (' ' :: l0)
        rw [hsl, hspL, List.map_cons, List.cons_append, hline]
        simp only [parseLinesF, hb, hi, hbr, hhd, hf, hqt, Bool.false_eq_true, if_false,
          if_true, htw.1, htw.2]
        have hstrip : (('>' :: ' ' :: l0) :: lt.map fun x => quoteMarker ++ x).map
            stripQuoteMarker = l0 :: lt := by
          rw [List.map_cons, List.map_map]
          have hc : (stripQuoteMarker ∘ fun x => quoteMarker ++ x) =
              fun x : List Char => x := rfl
          rw [hc, List.map_id']
          rfl
        rw [hstrip, ← hspL]
        have hmL : lineMeasure (splitLines (strBlocks children)) ≤ fuel := by
          rw [hsl, hspL, lineMeasure_append] at hmeas
          have hmm := lineMeasure_map_quote (l0 :: lt)
          rw [hmm, List.length_cons] at hmeas
          rw [hspL]
          omega
        have hq := ihL children (by
          simp only [blockSize] at hsz
          omega) fuel hst hmL
        rw [hq]
      | unorderedList items =>
        simp only [Block.stable] at hst
        obtain ⟨hne, hsti⟩ := hst
        obtain ⟨it0, its, rfl⟩ := List.exists_cons_of_ne_nil hne
        have hsb : strBlock (Block.unorderedList (it0 :: its)) =
            joinLines (strUItems (it0 :: its)) := rfl
        obtain ⟨l0, lt, hsp0, hexp⟩ := strUItems_expand it0 its rest
        have hnil : strUItems (it0 :: its) ≠ [] := by
          obtain ⟨l0', lt', hsp0', hexp'⟩ := strUItems_expand it0 its []
          rw [List.append_nil] at hexp'
          rw [hexp']
          simp
        have hsl : splitLines (strBlock (Block.unorderedList (it0 :: its))) =
            strUItems (it0 :: its) := by
          rw [hsb]
          exact splitLines_joinLines _ hnil (strUItems_no_newline _)
        rw [hsl] at hmeas ⊢
        rw [hexp]
        have hb := isBlank_cons '-' (' ' :: l0) (by decide)
        have hi := isIndentedLine_cons '-' (' ' :: l0) (by decide)
        have hbr := isBreakLine_dash_space l0
        have hhd := headingOf_cons_ne '-' (' ' :: l0) (by decide)
        have hf := isFenceLine_cons_ne '-' (' ' :: l0) (by decide)
        have hqt := isQuoteLine_cons_ne '-' (' ' :: l0) (by decide)
        have hui := isUItemLine_marker l0
        simp only [parseLinesF, hb, hi, hbr, hhd, hf, hqt, hui, Bool.false_eq_true, if_false,
          if_true]
        rw [← hexp]
        have hcoll := collectItemsU_strU (it0 :: its) rest
          (strUItems (it0 :: its) ++ rest).length
          (strUItems_length _ _)
          (fun x hx => ⟨(hrestf x hx).2.2.1, (hrestf x hx).2.2.2.1⟩)
        rw [hcoll]
        have hitem : ∀ it ∈ it0 :: its, (parseLinesF fuel (splitLines (strBlocks it))).1 =
            it := by
          intro it hmem
          refine ihL it ?_ fuel (stableItems_mem _ _ hsti hmem) ?_
          · have h1 := blocksSize_le_itemsSize_of_mem (it0 :: its) it hmem
            simp only [blockSize] at hsz
            omega
          · have h2 := lineMeasure_uitem_le (it0 :: its) rest it hmem
            omega
        rw [map_parse_items fuel (it0 :: its) hitem]
      | orderedList items =>
        simp only [Block.stable] at hst
        obtain ⟨hne, hsti⟩ := hst
        obtain ⟨it0, its, rfl⟩ := List.exists_cons_of_ne_nil hne
        have hsb : strBlock (Block.orderedList (it0 :: its)) =
            joinLines (strOItems 1 (it0 :: its)) := rfl
        obtain ⟨l0, lt, hsp0, hexp⟩ := strOItems_expand 1 it0 its rest
        have hnil : strOItems 1 (it0 :: its) ≠ [] := by
          obtain ⟨l0', lt', hsp0', hexp'⟩ := strOItems_expand 1 it0 its []
          rw [List.append_nil] at hexp'
          rw [hexp']
          simp
        have hsl : splitLines (strBlock (Block.orderedList (it0 :: its))) =
            strOItems 1 (it0 :: its) := by
          rw [hsb]
          exact splitLines_joinLines _ hnil (strOItems_no_newline _ 1)
        rw [hsl] at hmeas ⊢
        have hnd1 : natDigits 1 = ['1'] := rfl
        have hline : natDigits 1 ++ '.' :: ' ' :: l0 = '1' :: '.' :: ' ' :: l0 := by
          rw [hnd1]
          rfl
        rw [hexp, hline]
        have hb := isBlank_cons '1' ('.' :: ' ' :: l0) (by decide)
        have hi := isIndentedLine_cons '1' ('.' :: ' ' :: l0) (by decide)
        have hbr := isBreakLine_cons '1' ('.' :: ' ' :: l0) (by decide)
        have hhd := headingOf_cons_ne '1' ('.' :: ' ' :: l0) (by decide)
        have hf := isFenceLine_cons_ne '1' ('.' :: ' ' :: l0) (by decide)
        have hqt := isQuoteLine_cons_ne '1' ('.' :: ' ' :: l0) (by decide)
        have hui := isUItemLine_cons_ne '1' ('.' :: ' ' :: l0) (by decide)
        have hoc : oItemContentOf ('1' :: '.' :: ' ' :: l0) = some l0 := by
          have h := oItemContentOf_build 1 le_rfl l0
          rwa [hline] at h
        simp only [parseLinesF, hb, hi, hbr, hhd, hf, hqt, hui, hoc, Bool.false_eq_true,
          if_false, if_true]
        rw [← hline, ← hexp]
        have hcoll := collectItemsO_strO (it0 :: its) 1 rest
          (strOItems 1 (it0 :: its) ++ rest).length le_rfl
          (strOItems_length 1 _ _)
          (fun x hx => ⟨(hrestf x hx).2.2.2.2.2.1, (hrestf x hx).2.2.2.2.1⟩)
        rw [hcoll]
        have hitem : ∀ it ∈ it0 :: its, (parseLinesF fuel (splitLines (strBlocks it))).1 =
            it := by
          intro it hmem
          refine ihL it ?_ fuel (stableItems_mem _ _ hsti hmem) ?_
          · have h1 := blocksSize_le_itemsSize_of_mem (it0 :: its) it hmem
            simp only [blockSize] at hsz
            omega
          · have h2 := lineMeasure_oitem_le (it0 :: its) 1 rest it hmem
            omega
        rw [map_parse_items fuel (it0 :: its) hitem]
    refine ⟨hRB, ?_⟩
    intro bs hsz fuel hst hmeas
    cases bs with
    | nil => exact parseLinesF_blank_nil fuel
    | cons b bs' =>
      cases bs' with
      | nil =>
        have hm1 : 1 ≤ lineMeasure (splitLines (strBlock b)) :=
          one_le_lineMeasure_of_ne_nil _ (splitLines_ne_nil _)
        have hsbb : strBlocks [b] = strBlock b := rfl
        rw [hsbb] at hmeas ⊢
        cases fuel with
        | zero => omega
        | succ f =>
          simp only [Block.stableList] at hst
          have hB := hRB b (by
            simp only [blocksSize] at hsz
            have := one_le_blockSize b
            omega) f [] hst.1 (Or.inl rfl)
            (by rw [List.append_nil]; omega)
          rw [List.append_nil] at hB
          rw [hB, parseLinesF_nil]
      | cons b2 bs2 =>
        have hsplit : splitLines (strBlocks (b :: b2 :: bs2)) =
            splitLines (strBlock b) ++ ([] :: splitLines (strBlocks (b2 :: bs2))) := by
          show splitOnChar '\n' (strBlock b ++ '\n' :: ('\n' :: strBlocks (b2 :: bs2))) = _
          rw [splitOnChar_append]
          congr 1
        simp only [Block.stableList] at hst
        have hm1 : 1 ≤ lineMeasure (splitLines (strBlock b)) :=
          one_le_lineMeasure_of_ne_nil _ (splitLines_ne_nil _)
        have hm2 : 1 ≤ lineMeasure (splitLines (strBlocks (b2 :: bs2))) :=
          one_le_lineMeasure_of_ne_nil _ (splitLines_ne_nil _)
        rw [hsplit] at hmeas ⊢
        rw [lineMeasure_append, lineMeasure_cons] at hmeas
        cases fuel with
        | zero => omega
        | succ f =>
          have hB := hRB b (by
            simp only [blocksSize] at hsz
            have h1 := one_le_blockSize b
            have h2 := one_le_blocksSize (b2 :: bs2)
            omega) f ([] :: splitLines (strBlocks (b2 :: bs2))) hst.1 (Or.inr rfl)
            (by rw [lineMeasure_append, lineMeasure_cons]; omega)
          rw [hB]
          cases f with
          | zero => omega
          | succ f2 =>
            have hblank : parseLinesF (f2 + 1) ([] :: splitLines (strBlocks (b2 :: bs2))) =
                parseLinesF f2 (splitLines (strBlocks (b2 :: bs2))) := by
              simp only [parseLinesF, show isBlank [] = true from rfl, if_true]
            rw [hblank]
            rw [ihL (b2 :: bs2) (by
              simp only [blocksSize] at hsz ⊢
              have := one_le_blockSize b
              omega) f2 hst.2 (by omega)]

/-! ## Parser output stability -/

theorem parseInl_stable (X : List Char) : inlStable (parseInl X).1 := by
  unfold inlStable
  rw [strInlines_parseInl]

theorem stripQuoteMarker_mem (l : List Char) (c : Char) (h : c ∈ stripQuoteMarker l) :
    c ∈ l := by
  unfold stripQuoteMarker at h
  split at h
  · exact List.mem_cons_of_mem _ (List.mem_cons_of_mem _ h)
  · exact List.mem_cons_of_mem _ h
  · exact h

theorem headingOf_some (l : List Char) (nc : Nat × List Char) (he : headingOf l = some nc) :
    1 ≤ nc.1 ∧ nc.1 ≤ 6 ∧ ∀ c ∈ nc.2, c ∈ l := by
  simp only [headingOf] at he
  split at he
  · next hcond =>
    obtain ⟨h1, h6, _⟩ := hcond
    rw [Option.some.injEq] at he
    rw [← he]
    refine ⟨h1, h6, ?_⟩
    intro c hc
    simp only at hc
    rw [List.tail_drop] at hc
    exact List.mem_of_mem_drop hc
  · exact absurd he (by simp)

theorem collectItemsU_mem :
    ∀ (fuelC : Nat) (ls : List (List Char)) (g : List (List Char)) (x : List Char),
      g ∈ (collectItemsU fuelC ls).1 → x ∈ g → ∃ y ∈ ls, ∃ k, x = y.drop k := by
  intro fuelC
  induction fuelC with
  | zero =>
    intro ls g x hg
    simp [collectItemsU] at hg
  | succ fc ih =>
    intro ls g x hg hx
    cases ls with
    | nil => simp [collectItemsU] at hg
    | cons l ls2 =>
      by_cases hu : isUItemLine l = true
      · simp only [collectItemsU, hu, if_true] at hg
        rcases List.mem_cons.mp hg with rfl | hg2
        · rcases List.mem_cons.mp hx with rfl | hx2
          · exact ⟨l, List.mem_cons_self _ _, 2, rfl⟩
          · obtain ⟨y, hy, hyx⟩ := List.mem_map.mp hx2
            refine ⟨y, ?_, 2, hyx.symm⟩
            exact List.mem_cons_of_mem _
              ((List.takeWhile_sublist _).subset hy)
        · obtain ⟨y, hy, k, hk⟩ := ih (ls2.dropWhile uContLine) g x hg2 hx
          exact ⟨y, List.mem_cons_of_mem _ ((List.dropWhile_sublist _).subset hy), k, hk⟩
      · have hu2 : isUItemLine l = false := Bool.eq_false_iff.mpr hu
        simp only [collectItemsU, hu2, Bool.false_eq_true, if_false] at hg
        simp at hg

theorem collectItemsO_mem :
    ∀ (fuelC : Nat) (ls : List (List Char)) (g : List (List Char)) (x : List Char),
      g ∈ (collectItemsO fuelC ls).1 → x ∈ g → ∃ y ∈ ls, ∃ k, x = y.drop k := by
  intro fuelC
  induction fuelC with
  | zero =>
    intro ls g x hg
    simp [collectItemsO] at hg
  | succ fc ih =>
    intro ls g x hg hx
    cases ls with
    | nil => simp [collectItemsO] at hg
    | cons l ls2 =>
      cases ho : oItemContentOf l with
      | none =>
        simp only [collectItemsO, ho] at hg
        simp at hg
      | some c0 =>
        simp only [collectItemsO, ho] at hg
        rcases List.mem_cons.mp hg with rfl | hg2
        · rcases List.mem_cons.mp hx with rfl | hx2
          · simp only [oItemContentOf] at ho
            split at ho
            · rw [Option.some.injEq] at ho
              exact ⟨l, List.mem_cons_self _ _, _, ho.symm⟩
            · exact absurd ho (by simp)
          · obtain ⟨y, hy, hyx⟩ := List.mem_map.mp hx2
            refine ⟨y, ?_, 3, hyx.symm⟩
            exact List.mem_cons_of_mem _
              ((List.takeWhile_sublist _).subset hy)
        · obtain ⟨y, hy, k, hk⟩ := ih (ls2.dropWhile oContLine) g x hg2 hx
          exact ⟨y, List.mem_cons_of_mem _ ((List.dropWhile_sublist _).subset hy), k, hk⟩

theorem collectItemsU_rest_mem :
    ∀ (fuelC : Nat) (ls : List (List Char)) (x : List Char),
      x ∈ (collectItemsU fuelC ls).2 → x ∈ ls := by
  intro fuelC
  induction fuelC with
  | zero =>
    intro ls x hx
    exact hx
  | succ fc ih =>
    intro ls x hx
    cases ls with
    | nil => simp [collectItemsU] at hx
    | cons l ls2 =>
      by_cases hu : isUItemLine l = true
      · simp only [collectItemsU, hu, if_true] at hx
        have := ih (ls2.dropWhile uContLine) x hx
        exact List.mem_cons_of_mem _ ((List.dropWhile_sublist _).subset this)
      · have hu2 : isUItemLine l = false := Bool.eq_false_iff.mpr hu
        simp only [collectItemsU, hu2, Bool.false_eq_true, if_false] at hx
        exact hx

theorem collectItemsO_rest_mem :
    ∀ (fuelC : Nat) (ls : List (List Char)) (x : List Char),
      x ∈ (collectItemsO fuelC ls).2 → x ∈ ls := by
  intro fuelC
  induction fuelC with
  | zero =>
    intro ls x hx
    exact hx
  | succ fc ih =>
    intro ls x hx
    cases ls with
    | nil => simp [collectItemsO] at hx
    | cons l ls2 =>
      cases ho : oItemContentOf l with
      | none =>
        simp only [collectItemsO, ho] at hx
        exact hx
      | some c0 =>
        simp only [collectItemsO, ho] at hx
        have := ih (ls2.dropWhile oContLine) x hx
        exact List.mem_cons_of_mem _ ((List.dropWhile_sublist _).subset this)

theorem collectItemsU_ne_nil (fc : Nat) (l : List Char) (ls : List (List Char))
    (hu : isUItemLine l = true) : (collectItemsU (fc + 1) (l :: ls)).1 ≠ [] := by
  simp only [collectItemsU, hu, if_true]
  simp

theorem collectItemsO_ne_nil (fc : Nat) (l : List Char) (ls : List (List Char)) (c0 : List Char)
    (ho : oItemContentOf l = some c0) : (collectItemsO (fc + 1) (l :: ls)).1 ≠ [] := by
  simp only [collectItemsO, ho]
  simp

theorem stableList_of_mem (bs : List Block) (h : ∀ b ∈ bs, Block.stable b) :
    Block.stableList bs := by
  induction bs with
  | nil => exact trivial
  | cons b bs ih =>
    exact ⟨h b (List.mem_cons_self _ _), ih (fun x hx => h x (List.mem_cons_of_mem _ hx))⟩

theorem stableItems_of_mem (items : List (List Block))
    (h : ∀ it ∈ items, Block.stableList it) : Block.stableItems items := by
  induction items with
  | nil => exact trivial
  | cons it items ih =>
    exact ⟨h it (List.mem_cons_self _ _), ih (fun x hx => h x (List.mem_cons_of_mem _ hx))⟩

/-- Every block the parser emits is reparse-stable: stringifying it and
parsing the result reproduces it. -/
theorem parseLinesF_stable :
    ∀ (fuel : Nat) (ls : List (List Char)), (∀ l ∈ ls, '\n' ∉ l) →
      ∀ b ∈ (parseLinesF fuel ls).1, Block.stable b := by
  intro fuel
  induction fuel with
  | zero =>
    intro ls _ b hb
    simp [parseLinesF] at hb
  | succ fuel ih =>
    intro ls hnl b hb
    cases ls with
    | nil => simp [parseLinesF] at hb
    | cons l ls2 =>
      have hnl2 : ∀ x ∈ ls2, '\n' ∉ x := fun x hx => hnl x (List.mem_cons_of_mem _ hx)
      have hnll : '\n' ∉ l := hnl l (List.mem_cons_self _ _)
      simp only [parseLinesF] at hb
      split at hb
      next hc1 => exact ih ls2 hnl2 b hb
      next hc1 =>
      split at hb
      next hc2 =>
        rcases List.mem_cons.mp hb with rfl | hb2
        · exact ⟨by simp, by simp⟩
        · exact ih (ls2.dropWhile isIndentedLine)
            (fun x hx => hnl2 x ((List.dropWhile_sublist _).subset hx)) b hb2
      next hc2 =>
      split at hb
      next hc3 =>
        rcases List.mem_cons.mp hb with rfl | hb2
        · exact trivial
        · exact ih ls2 hnl2 b hb2
      next hc3 =>
      split at hb
      next nc hnc =>
        rcases List.mem_cons.mp hb with rfl | hb2
        · obtain ⟨h1, h6, hsub⟩ := headingOf_some l nc hnc
          refine ⟨h1, h6, parseInl_stable _, ?_⟩
          rw [strInlines_parseInl]
          intro hmem
          exact hnll (hsub '\n' hmem)
        · exact ih ls2 hnl2 b hb2
      next hc4 =>
      split at hb
      next hc5 =>
        split at hb
        next hdrop =>
          simp only [List.mem_singleton] at hb
          subst hb
          constructor
          · intro hmem
            exact hnll (List.mem_of_mem_drop hmem)
          · intro hhead
            have hc := head_drop_takeWhile (fun c => decide (c = backtick)) l backtick hhead
            simp at hc
        next close rest2 hdrop =>
          rcases List.mem_cons.mp hb with rfl | hb2
          · constructor
            · intro hmem
              exact hnll (List.mem_of_mem_drop hmem)
            · intro hhead
              have hc := head_drop_takeWhile (fun c => decide (c = backtick)) l backtick hhead
              simp at hc
          · refine ih rest2 ?_ b hb2
            intro x hx
            have hx2 : x ∈ ls2.dropWhile fun x => !isCloseFence
                ((l.takeWhile fun c => decide (c = backtick)).length) x := by
              rw [hdrop]
              exact List.mem_cons_of_mem _ hx
            exact hnl2 x ((List.dropWhile_sublist _).subset hx2)
      next hc5 =>
      split at hb
      next hc6 =>
        rcases List.mem_cons.mp hb with rfl | hb2
        · refine stableList_of_mem _ ?_
          intro b2 hb2
          refine ih _ ?_ b2 hb2
          intro x hx
          obtain ⟨y, hy, hyx⟩ := List.mem_map.mp hx
          rw [← hyx]
          intro hmem
          have hymem : y ∈ l :: ls2 := by
            rcases List.mem_cons.mp hy with rfl | hy2
            · exact List.mem_cons_self _ _
            · exact List.mem_cons_of_mem _ ((List.takeWhile_sublist _).subset hy2)
          exact hnl y hymem (stripQuoteMarker_mem y '\n' hmem)
        · exact ih (ls2.dropWhile isQuoteLine)
            (fun x hx => hnl2 x ((List.dropWhile_sublist _).subset hx)) b hb2
      next hc6 =>
      split at hb
      next hc7 =>
        rcases List.mem_cons.mp hb with rfl | hb2
        · constructor
          · intro hmap
            have hg := List.map_eq_nil_iff.mp (List.map_eq_nil_iff.mp hmap)
            exact collectItemsU_ne_nil ls2.length l ls2 hc7 hg
          · refine stableItems_of_mem _ ?_
            intro it hit
            obtain ⟨q, hq, hq1⟩ := List.mem_map.mp hit
            obtain ⟨g, hg, hgq⟩ := List.mem_map.mp hq
            rw [← hq1, ← hgq]
            refine stableList_of_mem _ ?_
            intro b2 hb2
            refine ih g ?_ b2 hb2
            intro x hx
            obtain ⟨y, hy, k, hk⟩ := collectItemsU_mem (l :: ls2).length (l :: ls2) g x hg hx
            rw [hk]
            intro hmem
            exact hnl y hy (List.mem_of_mem_drop hmem)
        · exact ih (collectItemsU (l :: ls2).length (l :: ls2)).2
            (fun x hx => hnl x (collectItemsU_rest_mem _ _ x hx)) b hb2
      next hc7 =>
      split at hb
      next c0 hc8 =>
        rcases List.mem_cons.mp hb with rfl | hb2
        · constructor
          · intro hmap
            have hg := List.map_eq_nil_iff.mp (List.map_eq_nil_iff.mp hmap)
            exact collectItemsO_ne_nil ls2.length l ls2 c0 hc8 hg
          · refine stableItems_of_mem _ ?_
            intro it hit
            obtain ⟨q, hq, hq1⟩ := List.mem_map.mp hit
            obtain ⟨g, hg, hgq⟩ := List.mem_map.mp hq
            rw [← hq1, ← hgq]
            refine stableList_of_mem _ ?_
            intro b2 hb2
            refine ih g ?_ b2 hb2
            intro x hx
            obtain ⟨y, hy, k, hk⟩ := collectItemsO_mem (l :: ls2).length (l :: ls2) g x hg hx
            rw [hk]
            intro hmem
            exact hnl y hy (List.mem_of_mem_drop hmem)
        · exact ih (collectItemsO (l :: ls2).length (l :: ls2)).2
            (fun x hx => hnl x (collectItemsO_rest_mem _ _ x hx)) b hb2
      next hc8 =>
        rcases List.mem_cons.mp hb with rfl | hb2
        · have hpl : isParagraphLine l = true := by
            unfold isParagraphLine
            rw [Bool.eq_false_iff.mpr hc1, Bool.eq_false_iff.mpr hc2,
              Bool.eq_false_iff.mpr hc3, hc4, Bool.eq_false_iff.mpr hc5,
              Bool.eq_false_iff.mpr hc6, Bool.eq_false_iff.mpr hc7, hc8]
            rfl
          have hpt : ∀ x ∈ l :: ls2.takeWhile isParagraphLine, isParagraphLine x = true := by
            intro x hx
            rcases List.mem_cons.mp hx with rfl | hx2
            · exact hpl
            · exact List.mem_takeWhile_imp hx2
          constructor
          · exact parseInl_stable _
          · intro lx hlx
            rw [strInlines_parseInl] at hlx
            rw [splitLines_joinLines _ (by simp) (by
              intro y hy
              rcases List.mem_cons.mp hy with rfl | hy2
              · exact hnll
              · exact hnl2 y ((List.takeWhile_sublist _).subset hy2))] at hlx
            exact hpt lx hlx
        · exact ih (ls2.dropWhile isParagraphLine)
            (fun x hx => hnl2 x ((List.dropWhile_sublist _).subset hx)) b hb2

/-! ## Valid trees are stable -/

theorem notNilB_ne {α : Type} (l : List α) (h : notNilB l = true) : l ≠ [] := by
  cases l with
  | nil => simp [notNilB] at h
  | cons a as => simp

theorem one_le_itemsSize (items : List (List Block)) : 1 ≤ itemsSize items := by
  cases items with
  | nil => simp [itemsSize]
  | cons it its =>
    have := one_le_blocksSize it
    simp only [itemsSize]
    omega

/-- A structurally valid block is reparse-stable: its stringification parses
back to exactly itself. -/
theorem valid_stable_aux :
    ∀ (n : Nat),
      (∀ b : Block, blockSize b ≤ n → blockValidB b = true → Block.stable b) ∧
      (∀ bs : List Block, blocksSize bs ≤ n → blocksValidB bs = true →
        Block.stableList bs) ∧
      (∀ items : List (List Block), itemsSize items ≤ n → itemsValidB items = true →
        Block.stableItems items) := by
  intro n
  induction n with
  | zero =>
    refine ⟨?_, ?_, ?_⟩
    · intro b hsz
      have := one_le_blockSize b
      omega
    · intro bs hsz
      have := one_le_blocksSize bs
      omega
    · intro items hsz
      have := one_le_itemsSize items
      omega
  | succ n ihn =>
    obtain ⟨ihB, ihL, ihI⟩ := ihn
    refine ⟨?_, ?_, ?_⟩
    · intro b hsz hv
      cases b with
      | paragraph cs =>
        simp only [blockValidB, Bool.and_eq_true] at hv
        obtain ⟨⟨hiv, _⟩, hpl⟩ := hv
        have hnl : '\n' ∉ strInlines cs :=
          strInlines_no_newline (inlinesSize cs) cs none false le_rfl hiv
        constructor
        · show inlStable cs
          unfold inlStable
          rw [parseInl_valid cs hiv]
        · intro l hl
          rw [show splitLines (strInlines cs) = [strInlines cs] from
            splitOnChar_of_not_mem '\n' _ hnl] at hl
          simp only [List.mem_singleton] at hl
          subst hl
          exact hpl
      | heading lv cs =>
        simp only [blockValidB, Bool.and_eq_true, decide_eq_true_eq] at hv
        obtain ⟨⟨h1, h6⟩, hiv⟩ := hv
        refine ⟨h1, h6, ?_, ?_⟩
        · unfold inlStable
          rw [parseInl_valid cs hiv]
        · exact strInlines_no_newline (inlinesSize cs) cs none false le_rfl hiv
      | codeBlock lang lit =>
        simp only [blockValidB, Bool.and_eq_true, decide_eq_true_eq] at hv
        exact ⟨hv.1, hv.2⟩
      | thematicBreak => exact trivial
      | blockQuote children =>
        simp only [blockValidB] at hv
        refine ihL children ?_ hv
        simp only [blockSize] at hsz
        omega
      | unorderedList items =>
        simp only [blockValidB, Bool.and_eq_true] at hv
        refine ⟨notNilB_ne items hv.1, ihI items ?_ hv.2⟩
        simp only [blockSize] at hsz
        omega
      | orderedList items =>
        simp only [blockValidB, Bool.and_eq_true] at hv
        refine ⟨notNilB_ne items hv.1, ihI items ?_ hv.2⟩
        simp only [blockSize] at hsz
        omega
    · intro bs hsz hv
      cases bs with
      | nil => exact trivial
      | cons b bs2 =>
        simp only [blocksValidB, Bool.and_eq_true] at hv
        constructor
        · refine ihB b ?_ hv.1
          simp only [blocksSize] at hsz
          have := one_le_blocksSize bs2
          omega
        · refine ihL bs2 ?_ hv.2
          simp only [blocksSize] at hsz
          have := one_le_blockSize b
          omega
    · intro items hsz hv
      cases items with
      | nil => exact trivial
      | cons it rest =>
        simp only [itemsValidB, Bool.and_eq_true] at hv
        constructor
        · refine ihL it ?_ hv.1
          simp only [itemsSize] at hsz
          have := one_le_itemsSize rest
          omega
        · refine ihI rest ?_ hv.2
          simp only [itemsSize] at hsz
          have := one_le_blocksSize it
          omega

/-! ## Claim C1 and claim C2 -/

/-- C1: for every input text, parsing, stringifying the resulting node tree
and parsing again yields a node tree structurally equal to the first parse,
parse(stringify(parse(text))) = parse(text); and for every structurally
valid node tree T, parse(stringify(T)) is structurally equal to T. -/
theorem parse_stringify_roundtrip :
    (∀ t : String,
      (parseMarkdown (stringifyMarkdownNodes (parseMarkdown t).nodes)).nodes =
        (parseMarkdown t).nodes) ∧
    (∀ nodes : List Block, (∀ b ∈ nodes, blockValidB b = true) →
      (parseMarkdown (stringifyMarkdownNodes nodes)).nodes = nodes) := by
  have key : ∀ nodes : List Block, Block.stableList nodes →
      (parseMarkdown (stringifyMarkdownNodes nodes)).nodes = nodes := by
    intro nodes hst
    show (parseLinesF (lineMeasure (splitLines (strBlocks nodes)))
      (splitLines (strBlocks nodes))).1 = nodes
    exact (reparse_aux (blocksSize nodes)).2 nodes le_rfl _ hst le_rfl
  constructor
  · intro t
    refine key (parseMarkdown t).nodes (stableList_of_mem _ ?_)
    intro b hb
    exact parseLinesF_stable (lineMeasure (splitLines t.data)) (splitLines t.data)
      (fun l hl => not_newline_of_mem_splitLines _ l hl) b hb
  · intro nodes hval
    refine key nodes (stableList_of_mem _ ?_)
    intro b hb
    exact (valid_stable_aux (blockSize b)).1 b le_rfl (hval b hb)

/-- Witness for C1 at concrete inputs: a document whose nested delimiters
exercise the tokenizer's longest-match rule round-trips, and the valid tree
Heading[Text "Title"], Paragraph[Strong[Emphasis[Text "x"]]] reparses to
itself; the triple-asterisk input parses to the nested strong-emphasis
tree. -/
theorem parse_stringify_roundtrip_witness :
    ((parseMarkdown (stringifyMarkdownNodes
        (parseMarkdown "# Title\n\n***x*** and **a *b* c**").nodes)).nodes =
      (parseMarkdown "# Title\n\n***x*** and **a *b* c**").nodes) ∧
    ((∀ b ∈ [Block.heading 1 [Inline.text "Title"],
        Block.paragraph [Inline.strong [Inline.emphasis [Inline.text "x"]]]],
        blockValidB b = true) ∧
      (parseMarkdown (stringifyMarkdownNodes [Block.heading 1 [Inline.text "Title"],
          Block.paragraph [Inline.strong [Inline.emphasis [Inline.text "x"]]]])).nodes =
        [Block.heading 1 [Inline.text "Title"],
         Block.paragraph [Inline.strong [Inline.emphasis [Inline.text "x"]]]]) ∧
    (parseMarkdown "***x***").nodes =
      [Block.paragraph [Inline.strong [Inline.emphasis [Inline.text "x"]]]] :=
  ⟨parse_stringify_roundtrip.1 "# Title\n\n***x*** and **a *b* c**",
   ⟨by decide,
    parse_stringify_roundtrip.2
      [Block.heading 1 [Inline.text "Title"],
       Block.paragraph [Inline.strong [Inline.emphasis [Inline.text "x"]]]] (by decide)⟩,
   rfl⟩

/-- C2: parse is total and degrades instead of failing.  Stringifying the
inline parse of any character sequence reproduces it exactly, so no input is
rejected or truncated; the empty string and pure whitespace parse to an
empty node list; `"*unterminated"` parses to Paragraph[Text "*unterminated"]
with exactly one warning; a run that can close nothing, as in `"*a *"`,
degrades to literal text with warnings and creates no emphasis; and
`"**a *b* c**"` resolves to the nested tree. -/
theorem parse_total_and_degrades :
    (∀ cs : List Char, strInlines (parseInl cs).1 = cs) ∧
    (parseMarkdown "*unterminated").nodes = [Block.paragraph [Inline.text "*unterminated"]] ∧
    (parseMarkdown "*unterminated").warnings.length = 1 ∧
    (parseMarkdown "").nodes = [] ∧
    (parseMarkdown "   ").nodes = [] ∧
    (parseInl "*a *".data).1 = [Inline.text "*a ", Inline.text "*"] ∧
    (parseInl "*a *".data).2.length = 2 ∧
    (parseInl "**a *b* c**".data).1 =
      [Inline.strong [Inline.text "a ", Inline.emphasis [Inline.text "b"],
        Inline.text " c"]] :=
  ⟨strInlines_parseInl, rfl, rfl, rfl, rfl, rfl, rfl, rfl⟩

/-! ## Restorer lemmas -/

theorem restoreNode_fix (n : RestNode) :
    restoreNode (RestNode.block (restoreNode n).1) = ((restoreNode n).1, []) := by
  cases n with
  | inline i => rfl
  | block b =>
    cases b with
    | paragraph cs => rfl
    | codeBlock lang lit => rfl
    | thematicBreak => rfl
    | blockQuote children => rfl
    | unorderedList items => rfl
    | orderedList items => rfl
    | heading lvl cs => cases lvl <;> rfl

theorem restoreNodes_map_block_fst (bs : List RestNode) :
    restoreNodes ((restoreNodes bs).1.map RestNode.block) = ((restoreNodes bs).1, []) := by
  induction bs with
  | nil => rfl
  | cons n ns ih =>
    show restoreNodes (RestNode.block (restoreNode n).1 ::
      (restoreNodes ns).1.map RestNode.block) = _
    show (let r := restoreNode (RestNode.block (restoreNode n).1)
          let p := restoreNodes ((restoreNodes ns).1.map RestNode.block)
          (r.1 :: p.1, r.2 ++ p.2)) = _
    rw [restoreNode_fix n]
    simp only [ih]
    rfl

/-- Claim C3: restore is idempotent: feeding the node tree restore produced
back into restore returns the same tree, and the second pass emits no
warnings. -/
theorem restore_idempotent (nodes : List RestNode) :
    restoreMarkdownNodes ((restoreMarkdownNodes nodes).nodes.map RestNode.block) =
      ⟨(restoreMarkdownNodes nodes).nodes, []⟩ := by
  show (⟨(restoreNodes ((restoreNodes nodes).1.map RestNode.block)).1,
         (restoreNodes ((restoreNodes nodes).1.map RestNode.block)).2⟩ : ParseResult) = _
  rw [restoreNodes_map_block_fst]
  rfl

/-- Claim C4: restore wraps an inline node found directly under Document in
an implicit paragraph and fills an absent heading level with the default 1,
warning once per normalization; in particular restore([Text "x"]) returns
Document[Paragraph[Text "x"]] with exactly one warning, and in general the
output is the per-node normalization of the input. -/
theorem restore_normalizes :
    (∀ i : Inline, restoreMarkdownNodes [RestNode.inline i] =
        ⟨[Block.paragraph [i]], [wrapWarning]⟩) ∧
    (∀ cs : List Inline, restoreMarkdownNodes [RestNode.block (Block.heading 0 cs)] =
        ⟨[Block.heading 1 cs], [headingDefaultWarning]⟩) ∧
    restoreMarkdownNodes [RestNode.inline (Inline.text "x")] =
      ⟨[Block.paragraph [Inline.text "x"]], [wrapWarning]⟩ ∧
    (restoreMarkdownNodes [RestNode.inline (Inline.text "x")]).warnings.length = 1 ∧
    (∀ nodes : List RestNode,
        (restoreMarkdownNodes nodes).nodes = nodes.map fun n => (restoreNode n).1) := by
  refine ⟨fun i => rfl, fun cs => rfl, rfl, rfl, ?_⟩
  intro nodes
  show (restoreNodes nodes).1 = _
  induction nodes with
  | nil => rfl
  | cons n ns ih =>
    show (restoreNode n).1 :: (restoreNodes ns).1 = _
    rw [ih]
    rfl

/-! ## Resolver lemmas -/

/-- Claim C5: a cache entry younger than its TTL is served from the cache
with no outbound fetch (the state, hence the fetch log, is unchanged); an
entry at or past its TTL is refetched on the next resolve; a failed fetch is
stored as a negative entry timestamped now, whose governing TTL is the
shorter negative-cache TTL, while the error is returned to the caller. -/
theorem resolver_ttl_cache :
    (∀ (cfg : ResolverConfig) (fetch : String → Except FetchError LinkMetadata) (now : Nat)
        (st : ResolverState) (url : String) (e : CacheEntry),
        lookupEntry st.cache (canonicalizeUrl url) = some e →
        entryFresh cfg now e = true →
        resolve cfg fetch now st url = (e.value, st)) ∧
    (∀ (cfg : ResolverConfig) (fetch : String → Except FetchError LinkMetadata) (now : Nat)
        (st : ResolverState) (url : String) (e : CacheEntry),
        lookupEntry st.cache (canonicalizeUrl url) = some e →
        entryFresh cfg now e = false →
        (resolve cfg fetch now st url).2.fetchLog = st.fetchLog ++ [canonicalizeUrl url] ∧
        (resolve cfg fetch now st url).1 = fetch (canonicalizeUrl url)) ∧
    (∀ (cfg : ResolverConfig) (fetch : String → Except FetchError LinkMetadata) (now : Nat)
        (st : ResolverState) (url : String) (err : FetchError),
        lookupEntry st.cache (canonicalizeUrl url) = none →
        fetch (canonicalizeUrl url) = Except.error err →
        (resolve cfg fetch now st url).1 = Except.error err ∧
        lookupEntry (resolve cfg fetch now st url).2.cache (canonicalizeUrl url) =
          some ⟨Except.error err, now⟩ ∧
        entryTtl cfg ⟨Except.error err, now⟩ = cfg.negativeTtl) := by
  refine ⟨?_, ?_, ?_⟩
  · intro cfg fetch now st url e hl hf
    simp [resolve, hl, hf]
  · intro cfg fetch now st url e hl hf
    simp [resolve, hl, hf, fetchEntry]
  · intro cfg fetch now st url err hl herr
    have hres : resolve cfg fetch now st url =
        (Except.error err,
         ⟨(canonicalizeUrl url, ⟨Except.error err, now⟩) :: st.cache,
          st.fetchLog ++ [canonicalizeUrl url]⟩) := by
      simp [resolve, hl, fetchEntry, herr]
    refine ⟨?_, ?_, rfl⟩
    · rw [hres]
    · rw [hres]
      simp [lookupEntry, List.find?]

/-- Witness for C5: a fresh entry is served unchanged; a stale entry causes
exactly one logged fetch; an uncached failing URL returns the fetch error. -/
theorem resolver_ttl_cache_witness :
    resolve ⟨10, 2⟩ (fun _ => Except.error FetchError.timeout) 5
        ⟨[("u", ⟨Except.ok ⟨"t", "d", "i"⟩, 0⟩)], []⟩ "u" =
      (Except.ok ⟨"t", "d", "i"⟩, ⟨[("u", ⟨Except.ok ⟨"t", "d", "i"⟩, 0⟩)], []⟩) ∧
    (resolve ⟨10, 2⟩ (fun _ => Except.error FetchError.timeout) 20
        ⟨[("u", ⟨Except.ok ⟨"t", "d", "i"⟩, 0⟩)], []⟩ "u").2.fetchLog = [] ++ ["u"] ∧
    (resolve ⟨10, 2⟩ (fun _ => Except.error FetchError.timeout) 7 ⟨[], []⟩ "u").1 =
      Except.error FetchError.timeout := by
  have hc : canonicalizeUrl "u" = "u" := rfl
  refine ⟨?_, ?_, ?_⟩
  · exact resolver_ttl_cache.1 ⟨10, 2⟩ _ 5 _ "u" ⟨Except.ok ⟨"t", "d", "i"⟩, 0⟩ rfl (by decide)
  · have h := (resolver_ttl_cache.2.1 ⟨10, 2⟩ (fun _ => Except.error FetchError.timeout) 20
      ⟨[("u", ⟨Except.ok ⟨"t", "d", "i"⟩, 0⟩)], []⟩ "u" ⟨Except.ok ⟨"t", "d", "i"⟩, 0⟩
      rfl (by decide)).1
    rwa [hc] at h
  · exact (resolver_ttl_cache.2.2 ⟨10, 2⟩ (fun _ => Except.error FetchError.timeout) 7
      ⟨[], []⟩ "u" FetchError.timeout rfl rfl).1

theorem startResolve_join (cfg : ResolverConfig) (now : Nat) (url : String) (st : FlightState)
    (hmem : canonicalizeUrl url ∈ st.inflight)
    (hcache : lookupEntry st.cache (canonicalizeUrl url) = none) :
    startResolve cfg now url st = { st with joined := st.joined ++ [canonicalizeUrl url] } := by
  simp [startResolve, hcache, startFetchOrJoin, hmem]

theorem startN_joins (cfg : ResolverConfig) (now : Nat) (url : String) :
    ∀ (m : Nat) (st : FlightState),
      canonicalizeUrl url ∈ st.inflight →
      lookupEntry st.cache (canonicalizeUrl url) = none →
      (startN cfg now url m st).fetchLog = st.fetchLog ∧
      (startN cfg now url m st).joined =
        st.joined ++ List.replicate m (canonicalizeUrl url) := by
  intro m
  induction m with
  | zero => intro st _ _; simp [startN]
  | succ m ih =>
    intro st hmem hcache
    show (startN cfg now url m (startResolve cfg now url st)).fetchLog = _ ∧
      (startN cfg now url m (startResolve cfg now url st)).joined = _
    rw [startResolve_join cfg now url st hmem hcache]
    have h := ih { st with joined := st.joined ++ [canonicalizeUrl url] } hmem hcache
    refine ⟨h.1, ?_⟩
    rw [h.2]
    show (st.joined ++ [canonicalizeUrl url]) ++ List.replicate m (canonicalizeUrl url) = _
    rw [List.append_assoc, List.singleton_append, ← List.replicate_succ]

/-- Claim C6: for an uncached URL with no in-flight fetch, N concurrent
resolve entries (each an atomic step of the lock-guarded per-key map) issue
exactly one outbound fetch for the canonicalized URL; the other N - 1 callers
join the in-flight fetch instead of fetching. -/
theorem resolver_coalescing (cfg : ResolverConfig) (now : Nat) (url : String)
    (st : FlightState) (n : Nat) (hn : 1 ≤ n)
    (hcache : lookupEntry st.cache (canonicalizeUrl url) = none)
    (hflight : canonicalizeUrl url ∉ st.inflight) :
    (startN cfg now url n st).fetchLog.count (canonicalizeUrl url) =
      st.fetchLog.count (canonicalizeUrl url) + 1 ∧
    (startN cfg now url n st).joined.count (canonicalizeUrl url) =
      st.joined.count (canonicalizeUrl url) + (n - 1) := by
  obtain ⟨m, rfl⟩ : ∃ m, n = m + 1 := ⟨n - 1, by omega⟩
  have hstep : startResolve cfg now url st =
      { st with inflight := canonicalizeUrl url :: st.inflight,
                fetchLog := st.fetchLog ++ [canonicalizeUrl url] } := by
    simp [startResolve, hcache, startFetchOrJoin, hflight]
  show (startN cfg now url m (startResolve cfg now url st)).fetchLog.count _ = _ ∧
    (startN cfg now url m (startResolve cfg now url st)).joined.count _ = _
  rw [hstep]
  have hj := startN_joins cfg now url m
    { st with inflight := canonicalizeUrl url :: st.inflight,
              fetchLog := st.fetchLog ++ [canonicalizeUrl url] }
    (by simp) (by simpa using hcache)
  rw [hj.1, hj.2]
  constructor
  · simp
  · simp [List.count_replicate]

/-- Witness for C6: three concurrent starts on an empty state fetch once and
join twice. -/
theorem resolver_coalescing_witness :
    (startN ⟨10, 2⟩ 0 "u" 3 ⟨[], [], [], []⟩).fetchLog.count "u" = 1 ∧
    (startN ⟨10, 2⟩ 0 "u" 3 ⟨[], [], [], []⟩).joined.count "u" = 2 := by
  have h := resolver_coalescing ⟨10, 2⟩ 0 "u" ⟨[], [], [], []⟩ 3 (by decide) rfl (by simp)
  have hc : canonicalizeUrl "u" = "u" := rfl
  rw [hc] at h
  simpa using h

/-! ## Store claim theorems -/

/-- Claim C7 (code bug): `UpsertUserSetting` builds a plain INSERT with no ON
CONFLICT clause, so on a duplicate `(user_id, key)` pair it returns the
primary-key violation and leaves the old row, instead of replacing the value;
the ON CONFLICT upsert statement its sibling `UpsertUserSettingV1` builds
does replace the value on the same input. -/
theorem upsertUserSetting_duplicate_key :
    UpsertUserSetting [⟨1, "locale", "old"⟩] ⟨1, "locale", "new"⟩ =
      (Except.error "duplicate key value violates unique constraint",
       [⟨1, "locale", "old"⟩]) ∧
    execUpsertUserSetting [⟨1, "locale", "old"⟩] 1 "locale" "new" =
      [⟨1, "locale", "new"⟩] := by
  exact ⟨rfl, rfl⟩

theorem processUserSettingRows_keys :
    ∀ (rows : List UserSettingRow) (l : List UserSettingV1),
      processUserSettingRows rows = Except.ok l →
      ∀ s ∈ l, s.key = UserSettingKey.accessTokens := by
  intro rows
  induction rows with
  | nil =>
    intro l hl s hs
    simp only [processUserSettingRows, Except.ok.injEq] at hl
    subst hl
    simp at hs
  | cons r rest ih =>
    intro l hl s hs
    simp only [processUserSettingRows] at hl
    cases hk : userSettingKeyFromString r.key with
    | accessTokens =>
      rw [hk] at hl
      cases hd : decodeAccessTokens r.value with
      | none => rw [hd] at hl; simp at hl
      | some ts =>
        rw [hd] at hl
        cases hp : processUserSettingRows rest with
        | error e => rw [hp] at hl; simp at hl
        | ok l2 =>
          rw [hp] at hl
          simp only [Except.ok.injEq] at hl
          subst hl
          rcases List.mem_cons.mp hs with rfl | hmem
          · rfl
          · exact ih l2 hp s hmem
    | unspecified =>
      rw [hk] at hl
      exact ih l hl s hs

/-- Claim C10: `UpsertUserSettingV1` rejects every key other than the
access-tokens key with the error "invalid user setting key" and performs no
write (the table is returned unchanged); on the access-tokens key it returns
its input setting unchanged; and `ListUserSettingsV1` only ever returns
settings whose key is the access-tokens key, silently skipping other rows. -/
theorem upsertUserSettingV1_key_validation :
    (∀ (t : List UserSettingRow) (s : UserSettingV1), s.key ≠ UserSettingKey.accessTokens →
        UpsertUserSettingV1 t s = (Except.error "invalid user setting key", t)) ∧
    (∀ (t : List UserSettingRow) (s : UserSettingV1), s.key = UserSettingKey.accessTokens →
        (UpsertUserSettingV1 t s).1 = Except.ok s) ∧
    (∀ (t : List UserSettingRow) (find : FindUserSettingV1) (l : List UserSettingV1),
        ListUserSettingsV1 t find = Except.ok l →
        ∀ s ∈ l, s.key = UserSettingKey.accessTokens) := by
  refine ⟨?_, ?_, ?_⟩
  · intro t s h
    cases hk : s.key with
    | accessTokens => exact absurd hk h
    | unspecified => simp [UpsertUserSettingV1, hk]
  · intro t s h
    simp [UpsertUserSettingV1, h]
  · intro t find l hl s hs
    exact processUserSettingRows_keys (listUserSettingRows t find) l hl s hs

/-- Witness for C10: an unspecified-key upsert errors and leaves the empty
table unchanged; an access-tokens upsert returns its input; a listed table
holding one access-tokens row and one foreign-key row yields only
access-tokens settings. -/
theorem upsertUserSettingV1_key_validation_witness :
    UpsertUserSettingV1 [] ⟨1, UserSettingKey.unspecified, none⟩ =
      (Except.error "invalid user setting key", []) ∧
    (UpsertUserSettingV1 [] ⟨1, UserSettingKey.accessTokens, none⟩).1 =
      Except.ok ⟨1, UserSettingKey.accessTokens, none⟩ ∧
    (∀ s ∈ [(⟨7, UserSettingKey.accessTokens, some ⟨[]⟩⟩ : UserSettingV1)],
        s.key = UserSettingKey.accessTokens) := by
  refine ⟨?_, ?_, ?_⟩
  · exact upsertUserSettingV1_key_validation.1 [] ⟨1, UserSettingKey.unspecified, none⟩
      (by decide)
  · exact upsertUserSettingV1_key_validation.2.1 [] ⟨1, UserSettingKey.accessTokens, none⟩ rfl
  · exact upsertUserSettingV1_key_validation.2.2
      [⟨7, "USER_SETTING_ACCESS_TOKENS", ""⟩, ⟨8, "USER_SETTING_LOCALE", "x"⟩]
      ⟨none, UserSettingKey.unspecified⟩
      [⟨7, UserSettingKey.accessTokens, some ⟨[]⟩⟩] rfl

/-! ## Gateway claim theorems -/

/-- Claim C8: the gateway registers exactly the four engine operations:
ParseMarkdown at POST /api/v1/markdown:parse, RestoreMarkdownNodes at POST
/api/v1/markdown/node:restore, StringifyMarkdownNodes at POST
/api/v1/markdown/node:stringify, each reading the JSON body, and
GetLinkMetadata at GET /api/v1/markdown/link:metadata reading query
parameters. -/
theorem markdownService_route_table :
    markdownServiceRoutes.map (fun r => (r.method, patternPath r.pattern, r.source)) =
      [(HttpMethod.post, "/api/v1/markdown:parse", BodySource.jsonBody),
       (HttpMethod.post, "/api/v1/markdown/node:restore", BodySource.jsonBody),
       (HttpMethod.post, "/api/v1/markdown/node:stringify", BodySource.jsonBody),
       (HttpMethod.get, "/api/v1/markdown/link:metadata", BodySource.queryParams)] ∧
    markdownServiceRoutes.length = 4 := by
  exact ⟨rfl, rfl⟩

/-- Claim C9: in every body-decoding gateway handler (the request and local
variants for ParseMarkdown, RestoreMarkdownNodes, StringifyMarkdownNodes), a
decode failure other than EOF returns InvalidArgument and the RPC is never
invoked (the invocation log is empty); an EOF on an empty body is ignored and
the RPC is invoked with the zero-valued request message. -/
theorem gateway_decode_error_handling :
    (∀ (β : Type) (rpc : ParseMarkdownRequest → Except String β) (msg : String),
        request_MarkdownService_ParseMarkdown_0 (DecodeOutcome.failed msg) rpc =
          (HandlerResult.invalidArgument msg, []) ∧
        local_request_MarkdownService_ParseMarkdown_0 (DecodeOutcome.failed msg) rpc =
          (HandlerResult.invalidArgument msg, [])) ∧
    (∀ (β : Type) (rpc : ParseMarkdownRequest → Except String β),
        (request_MarkdownService_ParseMarkdown_0 DecodeOutcome.eofEmpty rpc).2 = [⟨""⟩] ∧
        (local_request_MarkdownService_ParseMarkdown_0 DecodeOutcome.eofEmpty rpc).2 = [⟨""⟩]) ∧
    (∀ (β : Type) (rpc : RestoreMarkdownNodesRequest → Except String β) (msg : String),
        request_MarkdownService_RestoreMarkdownNodes_0 (DecodeOutcome.failed msg) rpc =
          (HandlerResult.invalidArgument msg, []) ∧
        local_request_MarkdownService_RestoreMarkdownNodes_0 (DecodeOutcome.failed msg) rpc =
          (HandlerResult.invalidArgument msg, [])) ∧
    (∀ (β : Type) (rpc : RestoreMarkdownNodesRequest → Except String β),
        (request_MarkdownService_RestoreMarkdownNodes_0 DecodeOutcome.eofEmpty rpc).2 =
          [⟨[]⟩] ∧
        (local_request_MarkdownService_RestoreMarkdownNodes_0 DecodeOutcome.eofEmpty rpc).2 =
          [⟨[]⟩]) ∧
    (∀ (β : Type) (rpc : StringifyMarkdownNodesRequest → Except String β) (msg : String),
        request_MarkdownService_StringifyMarkdownNodes_0 (DecodeOutcome.failed msg) rpc =
          (HandlerResult.invalidArgument msg, []) ∧
        local_request_MarkdownService_StringifyMarkdownNodes_0 (DecodeOutcome.failed msg) rpc =
          (HandlerResult.invalidArgument msg, [])) ∧
    (∀ (β : Type) (rpc : StringifyMarkdownNodesRequest → Except String β),
        (request_MarkdownService_StringifyMarkdownNodes_0 DecodeOutcome.eofEmpty rpc).2 =
          [⟨[]⟩] ∧
        (local_request_MarkdownService_StringifyMarkdownNodes_0 DecodeOutcome.eofEmpty rpc).2 =
          [⟨[]⟩]) := by
  exact ⟨fun β rpc msg => ⟨rfl, rfl⟩, fun β rpc => ⟨rfl, rfl⟩,
         fun β rpc msg => ⟨rfl, rfl⟩, fun β rpc => ⟨rfl, rfl⟩,
         fun β rpc msg => ⟨rfl, rfl⟩, fun β rpc => ⟨rfl, rfl⟩⟩

end Memos
